import Mathlib

/-!
# libfsm: edge sets (`src/adt/edgeset.c`) and capture duplication (`src/libfsm/capture.c`)

A shallow embedding of the linear-probing edge set and of `fsm_capture_duplicate`,
followed by theorems about them.

Conventions of the embedding:

* `fsm_state_t`, `uintptr_t` and `size_t` are declared outside the translated files;
  their widths are the three fields of `Platform`.  State ids are natural numbers
  below `2 ^ state_bits`, pointer payloads natural numbers below `2 ^ uintptr_bits`;
  the counter `count` wraps at `2 ^ size_bits` when it is decremented at zero.
* `unsigned char` symbols are natural numbers below 256, `unsigned` is 32 bits wide.
  The sum `h + i` of the probe loops is written without a wrap: `h < 2 ^ 32` and
  `i < ceil`, and where `size_t` has 32 bits a wrap of the sum would not change the
  bits that `& mask` keeps, `mask + 1` being a power of two.
* the theorems about the operations do not assume that every state id fits the
  payload of a boxed singleton: where a destination has to fit, the hypothesis is that
  it is at most `SINGLETON_MAX_STATE`, on a build whose `uintptr_t` has at least
  `CHAR_BIT + 1` bits.
* a `struct fsm_edge` is written `{ state := d, symbol := s }`, the state first.
* a `struct edge_set *` is `edge_set_ptr`: `NULL`, an odd (tagged) pointer value
  carrying a boxed singleton, or a pointer to a heap `struct edge_set`.
* the bucket array `b` is a list of `ceil` buckets.
* the allocator is a boolean: whether `f_malloc` succeeds.
* `assert` is not executed, as in a build with `NDEBUG`; where an assertion bears on a
  theorem, its comment says so.
* loops with a `break`/`return` are recursive functions on the number of
  iterations left; the remaining `for` loops are folds over `List.range ceil`.
-/

namespace LibFsm

/-! ## Platform parameters and constants -/

/-- Widths (in bits) of `uintptr_t`, `fsm_state_t` and `size_t`. -/
structure Platform where
  uintptr_bits : Nat
  state_bits : Nat
  size_bits : Nat
deriving DecidableEq

/-- The usual 64-bit build: 64-bit pointers and `size_t`, `fsm_state_t` an
`unsigned int`. -/
def LP64 : Platform := { uintptr_bits := 64, state_bits := 32, size_bits := 64 }

/-- A 32-bit build: 32-bit pointers and `size_t`, `fsm_state_t` an `unsigned int`. -/
def ILP32 : Platform := { uintptr_bits := 32, state_bits := 32, size_bits := 32 }

def CHAR_BIT : Nat := 8

def SET_INITIAL : Nat := 8

/-- The constant `PHI32` of edgeset.c. -/
def PHI32 : Nat := 0x9e3779b9

/-- Conversion to `uintptr_t`. -/
def to_uintptr (P : Platform) (x : Nat) : Nat := x % 2 ^ P.uintptr_bits

/-- Conversion to `fsm_state_t`. -/
def to_state (P : Platform) (x : Nat) : Nat := x % 2 ^ P.state_bits

/-- The value `(~ (uintptr_t) 0U) >> (CHAR_BIT + 1)`. -/
def SINGLETON_MAX_STATE (P : Platform) : Nat :=
  (2 ^ P.uintptr_bits - 1) >>> (CHAR_BIT + 1)

/-- The tagged pointer value built by `SINGLETON_ENCODE(symbol, state)`. -/
def SINGLETON_ENCODE (P : Platform) (symbol state : Nat) : Nat :=
  to_uintptr P (to_uintptr P state <<< (CHAR_BIT + 1))
    ||| to_uintptr P (to_uintptr P symbol <<< 1)
    ||| 0x1

/-- The macro `SINGLETON_DECODE_SYMBOL(ptr)`. -/
def SINGLETON_DECODE_SYMBOL (ptr : Nat) : Nat := ((ptr >>> 1) &&& 0xFF) % 256

/-- The macro `SINGLETON_DECODE_STATE(ptr)`. -/
def SINGLETON_DECODE_STATE (P : Platform) (ptr : Nat) : Nat :=
  to_state P (ptr >>> (CHAR_BIT + 1))

/-- The macro `IS_SINGLETON(ptr)` on a pointer value. -/
def IS_SINGLETON (ptr : Nat) : Nat := ptr &&& 0x1

/-- The value `(fsm_state_t) -1`. -/
def BUCKET_UNUSED (P : Platform) : Nat := 2 ^ P.state_bits - 1

/-- The value `(fsm_state_t) -2`. -/
def BUCKET_TOMBSTONE (P : Platform) : Nat := 2 ^ P.state_bits - 2

/-- The largest `size_t`, reached when a zero counter is decremented. -/
def SIZE_MAX (P : Platform) : Nat := 2 ^ P.size_bits - 1

/-- The statement `n--` on a `size_t`. -/
def size_dec (P : Platform) (n : Nat) : Nat := if n = 0 then SIZE_MAX P else n - 1

/-- The hash `PHI32 * symbol`, computed in `unsigned`. -/
def hash (symbol : Nat) : Nat := (PHI32 * symbol) % 2 ^ 32

/-! ## Data -/

/-- A `struct fsm_edge`. -/
structure fsm_edge where
  state : Nat
  symbol : Nat
deriving DecidableEq

/-- The heap object `struct edge_set`. -/
structure edge_set where
  b : List fsm_edge
  count : Nat
  ceil : Nat
deriving DecidableEq

/-- A value of type `struct edge_set *`. -/
inductive edge_set_ptr where
  | null : edge_set_ptr
  | singleton (ptr : Nat) : edge_set_ptr
  | table (set : edge_set) : edge_set_ptr
deriving DecidableEq

/-- A bucket as left by `memset(b, 0xff, ...)`. -/
def unused_bucket (P : Platform) : fsm_edge :=
  { state := BUCKET_UNUSED P, symbol := 0xFF }

/-- The array read `b[i]`. -/
def bucket (b : List fsm_edge) (i : Nat) : fsm_edge :=
  b.getD i { state := 0, symbol := 0 }

/-- The slot probed at step `i`: `(h + i) & mask`. -/
def probe (h mask i : Nat) : Nat := (h + i) &&& mask

/-- A bucket holding a record: its state is neither sentinel. -/
def is_live (P : Platform) (e : fsm_edge) : Bool :=
  decide (e.state ≠ BUCKET_UNUSED P) && decide (e.state ≠ BUCKET_TOMBSTONE P)

/-- The records of a bucket array, in bucket order. -/
def live_records (P : Platform) (b : List fsm_edge) : List fsm_edge :=
  b.filter (is_live P)

/-! ## Operations of edgeset.c -/

/-- The function `edge_set_create`; `alloc` tells whether allocation succeeds. -/
def edge_set_create (P : Platform) (alloc : Bool) : Option edge_set :=
  if alloc then
    some { b := List.replicate SET_INITIAL (unused_bucket P), count := 0, ceil := SET_INITIAL }
  else none

/-- The function `edge_set_empty`. -/
def edge_set_empty (set : edge_set_ptr) : Bool :=
  match set with
  | .null => true
  | .singleton _ => false
  | .table t => decide (t.count = 0)

/-- The inner loop of `grow_buckets`: put `e` into the first unused bucket of `nb`
on the probe sequence of `h`; `nb` is returned as it is when the loop runs out. -/
def grow_insert (P : Platform) (nmask h : Nat) (e : fsm_edge) (nb : List fsm_edge) :
    Nat → Nat → List fsm_edge
  | 0, _ => nb
  | fuel + 1, n_i =>
    let b_i := probe h nmask n_i
    if (bucket nb b_i).state ≠ BUCKET_UNUSED P then
      grow_insert P nmask h e nb fuel (n_i + 1)
    else
      nb.set b_i { state := e.state, symbol := e.symbol }

/-- The body of the outer loop of `grow_buckets` for the old bucket `o_i`. -/
def grow_step (P : Platform) (ob : List fsm_edge) (nceil : Nat)
    (nb : List fsm_edge) (o_i : Nat) : List fsm_edge :=
  let bs := (bucket ob o_i).state
  if bs = BUCKET_UNUSED P ∨ bs = BUCKET_TOMBSTONE P then nb
  else grow_insert P (nceil - 1) (hash (bucket ob o_i).symbol) (bucket ob o_i) nb nceil 0

/-- The function `grow_buckets` (the counter `added` only feeds an assertion). -/
def grow_buckets (P : Platform) (alloc : Bool) (set : edge_set) : Option edge_set :=
  let oceil := set.ceil
  let nceil := 2 * oceil
  if alloc then
    let nb := List.replicate nceil (unused_bucket P)
    some { b := (List.range oceil).foldl (grow_step P set.b nceil) nb,
           count := set.count, ceil := nceil }
  else none

/-- The probe loop of `edge_set_add`; `none` is the branch marked unreachable. -/
def add_probe (P : Platform) (set : edge_set) (mask h symbol state : Nat) :
    Nat → Nat → Option edge_set
  | 0, _ => none
  | fuel + 1, i =>
    let b_i := probe h mask i
    let bs := (bucket set.b b_i).state
    if bs ≠ BUCKET_UNUSED P ∧ bs ≠ BUCKET_TOMBSTONE P then
      add_probe P set mask h symbol state fuel (i + 1)
    else
      some { set with b := set.b.set b_i { state := state, symbol := symbol },
                      count := set.count + 1 }

/-- The table part of `edge_set_add` (from `set = *setp` on): the return value and
the table afterwards. -/
def edge_set_add_table (P : Platform) (alloc : Bool) (set : edge_set)
    (symbol state : Nat) : Nat × edge_set :=
  let grown : Option edge_set :=
    if set.count = set.ceil / 2 then grow_buckets P alloc set else some set
  match grown with
  | none => (0, set)
  | some set1 =>
    match add_probe P set1 (set1.ceil - 1) (hash symbol) symbol state set1.ceil 0 with
    | some set2 => (1, set2)
    | none => (0, set1)

/-- The function `edge_set_add`: the return value and `*setp` afterwards.  The two
recursive calls of the singleton branch run on the freshly created table, so they
are calls of the table part. -/
def edge_set_add (P : Platform) (alloc : Bool) (setp : edge_set_ptr)
    (symbol state : Nat) : Nat × edge_set_ptr :=
  match setp with
  | .singleton ptr =>
    let prev_symbol := SINGLETON_DECODE_SYMBOL ptr
    let prev_state := SINGLETON_DECODE_STATE P ptr
    match edge_set_create P alloc with
    | none => (0, .null)
    | some set0 =>
      let r1 := edge_set_add_table P alloc set0 prev_symbol prev_state
      if r1.1 = 0 then (0, .table r1.2)
      else
        let r2 := edge_set_add_table P alloc r1.2 symbol state
        if r2.1 = 0 then (0, .table r2.2) else (1, .table r2.2)
  | .null => (1, .singleton (SINGLETON_ENCODE P symbol state))
  | .table set =>
    let r := edge_set_add_table P alloc set symbol state
    (r.1, .table r.2)

/-- The probe loop of `edge_set_find`. -/
def find_probe (P : Platform) (set : edge_set) (mask h symbol : Nat) :
    Nat → Nat → Option fsm_edge
  | 0, _ => none
  | fuel + 1, i =>
    let b_i := probe h mask i
    let bs := (bucket set.b b_i).state
    if bs = BUCKET_UNUSED P then none
    else if bs = BUCKET_TOMBSTONE P then find_probe P set mask h symbol fuel (i + 1)
    else if (bucket set.b b_i).symbol = symbol then some (bucket set.b b_i)
    else find_probe P set mask h symbol fuel (i + 1)

/-- The function `edge_set_find`: `some e` when it returns 1 with `*e` written,
`none` when it returns 0. -/
def edge_set_find (P : Platform) (set : edge_set_ptr) (symbol : Nat) : Option fsm_edge :=
  if edge_set_empty set then none
  else
    match set with
    | .null => none
    | .singleton ptr =>
      if SINGLETON_DECODE_SYMBOL ptr = symbol then
        some { symbol := symbol, state := SINGLETON_DECODE_STATE P ptr }
      else none
    | .table t => find_probe P t (t.ceil - 1) (hash symbol) symbol t.ceil 0

/-- The function `edge_set_contains`. -/
def edge_set_contains (P : Platform) (set : edge_set_ptr) (symbol : Nat) : Bool :=
  (edge_set_find P set symbol).isSome

/-- The function `edge_set_transition`. -/
def edge_set_transition (P : Platform) (set : edge_set_ptr) (symbol : Nat) : Option Nat :=
  (edge_set_find P set symbol).map (fun e => e.state)

/-- The function `edge_set_count`. -/
def edge_set_count (set : edge_set_ptr) : Nat :=
  match set with
  | .null => 0
  | .singleton _ => 1
  | .table t => t.count

/-- The probe loop of `edge_set_remove`. -/
def remove_probe (P : Platform) (set : edge_set) (mask h symbol : Nat) :
    Nat → Nat → edge_set
  | 0, _ => set
  | fuel + 1, i =>
    let b_i := probe h mask i
    let bs := (bucket set.b b_i).state
    if bs = BUCKET_UNUSED P then set
    else if (bucket set.b b_i).symbol = symbol then
      { set with b := set.b.set b_i { bucket set.b b_i with state := BUCKET_TOMBSTONE P },
                 count := size_dec P set.count }
    else remove_probe P set mask h symbol fuel (i + 1)

/-- The function `edge_set_remove`: `*setp` afterwards. -/
def edge_set_remove (P : Platform) (setp : edge_set_ptr) (symbol : Nat) : edge_set_ptr :=
  match setp with
  | .singleton ptr =>
    if SINGLETON_DECODE_SYMBOL ptr = symbol then .null else .singleton ptr
  | .null => .null
  | .table t =>
    if edge_set_empty (.table t) then .table t
    else .table (remove_probe P t (t.ceil - 1) (hash symbol) symbol t.ceil 0)

/-- The scan of `edge_set_remove_state`, from bucket `i`. -/
def remove_state_scan (P : Platform) (set : edge_set) (state : Nat) :
    Nat → Nat → edge_set
  | 0, _ => set
  | fuel + 1, i =>
    if (bucket set.b i).state = state then
      { set with b := set.b.set i { bucket set.b i with state := BUCKET_TOMBSTONE P },
                 count := size_dec P set.count }
    else remove_state_scan P set state fuel (i + 1)

/-- The function `edge_set_remove_state`. -/
def edge_set_remove_state (P : Platform) (setp : edge_set_ptr) (state : Nat) : edge_set_ptr :=
  match setp with
  | .singleton ptr =>
    if SINGLETON_DECODE_STATE P ptr = state then .null else .singleton ptr
  | .null => .null
  | .table t =>
    if edge_set_empty (.table t) then .table t
    else .table (remove_state_scan P t state t.ceil 0)

/-- The body of the loop of `edge_set_compact` for bucket `i`. -/
def compact_step (P : Platform) (no_state : Nat) (remap : Nat → Nat)
    (set : edge_set) (i : Nat) : edge_set :=
  let dst := (bucket set.b i).state
  if dst = BUCKET_UNUSED P ∨ dst = BUCKET_TOMBSTONE P then set
  else
    let new_to := remap dst
    if new_to = no_state then
      { set with b := set.b.set i { bucket set.b i with state := BUCKET_TOMBSTONE P },
                 count := size_dec P set.count }
    else
      { set with b := set.b.set i { bucket set.b i with state := new_to } }

/-- The function `edge_set_compact`; `no_state` is `FSM_STATE_REMAP_NO_STATE`, which
is declared outside edgeset.c, and `remap` the callback with its context. -/
def edge_set_compact (P : Platform) (no_state : Nat) (setp : edge_set_ptr)
    (remap : Nat → Nat) : edge_set_ptr :=
  match setp with
  | .singleton ptr =>
    let symbol := SINGLETON_DECODE_SYMBOL ptr
    let s := SINGLETON_DECODE_STATE P ptr
    let new_id := remap s
    if new_id = no_state then .null
    else .singleton (SINGLETON_ENCODE P symbol new_id)
  | .null => .null
  | .table t =>
    if edge_set_empty (.table t) then .table t
    else .table ((List.range t.ceil).foldl (compact_step P no_state remap) t)

/-- The body of the loop of `edge_set_rebase` for bucket `i`. -/
def rebase_step (P : Platform) (base : Nat) (set : edge_set) (i : Nat) : edge_set :=
  let bs := (bucket set.b i).state
  if bs = BUCKET_UNUSED P ∨ bs = BUCKET_TOMBSTONE P then set
  else { set with b := set.b.set i { bucket set.b i with state := to_state P (bs + base) } }

/-- The function `edge_set_rebase`. -/
def edge_set_rebase (P : Platform) (setp : edge_set_ptr) (base : Nat) : edge_set_ptr :=
  match setp with
  | .singleton ptr =>
    let state := to_state P (SINGLETON_DECODE_STATE P ptr + base)
    let symbol := SINGLETON_DECODE_SYMBOL ptr
    .singleton (SINGLETON_ENCODE P symbol state)
  | .null => .null
  | .table t =>
    if edge_set_empty (.table t) then .table t
    else .table ((List.range t.ceil).foldl (rebase_step P base) t)

/-- The body of the loop of `edge_set_replace_state` for bucket `i`. -/
def replace_step (old new : Nat) (set : edge_set) (i : Nat) : edge_set :=
  if (bucket set.b i).state = old then
    { set with b := set.b.set i { bucket set.b i with state := new } }
  else set

/-- The function `edge_set_replace_state`. -/
def edge_set_replace_state (P : Platform) (setp : edge_set_ptr) (old new : Nat) :
    edge_set_ptr :=
  match setp with
  | .singleton ptr =>
    if SINGLETON_DECODE_STATE P ptr = old then
      .singleton (SINGLETON_ENCODE P (SINGLETON_DECODE_SYMBOL ptr) new)
    else .singleton ptr
  | .null => .null
  | .table t =>
    if edge_set_empty (.table t) then .table t
    else .table ((List.range t.ceil).foldl (replace_step old new) t)

/-! ## Iteration -/

/-- A `struct edge_iter`. -/
structure edge_iter where
  i : Nat
  set : edge_set_ptr
deriving DecidableEq

/-- The function `edge_set_reset`. -/
def edge_set_reset (set : edge_set_ptr) : edge_iter := { i := 0, set := set }

/-- The `while` loop of `edge_set_next` on a table: the cursor index afterwards and
the record found, if any. -/
def next_scan (P : Platform) (t : edge_set) : Nat → Nat → Nat × Option fsm_edge
  | 0, i => (i, none)
  | fuel + 1, i =>
    if i < t.ceil then
      let bs := (bucket t.b i).state
      if bs = BUCKET_UNUSED P ∨ bs = BUCKET_TOMBSTONE P then next_scan P t fuel (i + 1)
      else (i + 1, some (bucket t.b i))
    else (i, none)

/-- The function `edge_set_next`: the cursor afterwards, and `some e` when it
returns 1 with `*e` written, `none` when it returns 0. -/
def edge_set_next (P : Platform) (it : edge_iter) : edge_iter × Option fsm_edge :=
  match it.set with
  | .null => (it, none)
  | .singleton ptr =>
    if it.i ≥ 1 then (it, none)
    else
      ({ it with i := it.i + 1 },
       some { symbol := SINGLETON_DECODE_SYMBOL ptr, state := SINGLETON_DECODE_STATE P ptr })
  | .table t =>
    let r := next_scan P t (t.ceil - it.i) it.i
    ({ it with i := r.1 }, r.2)

/-- The loop `for (...; edge_set_next(&it, &e); )` run at most `fuel` times: the
records it visits, in order. -/
def iterate_from (P : Platform) : Nat → edge_iter → List fsm_edge
  | 0, _ => []
  | fuel + 1, it =>
    match edge_set_next P it with
    | (it1, some e) => e :: iterate_from P fuel it1
    | (_, none) => []

/-- The number of `edge_set_next` calls after which the cursor of `set` is exhausted. -/
def iterate_bound (set : edge_set_ptr) : Nat :=
  match set with
  | .null => 1
  | .singleton _ => 2
  | .table t => t.ceil + 1

/-- The records a fresh cursor on `set` yields until `edge_set_next` returns 0. -/
def edge_set_iterate (P : Platform) (set : edge_set_ptr) : List fsm_edge :=
  iterate_from P (iterate_bound set) (edge_set_reset set)

/-! ## Copying, and cursors call by call -/

/-- The loop `for (edge_set_reset(src, &jt); edge_set_next(&jt, &e); )` of
`edge_set_copy`, run at most `fuel` times from the cursor `jt`: the return value and
`*dst` afterwards; `none` when the iterations allowed are used up. -/
def copy_loop (P : Platform) (alloc : Bool) :
    Nat → edge_iter → edge_set_ptr → Option (Nat × edge_set_ptr)
  | 0, _, _ => none
  | fuel + 1, jt, dst =>
    match edge_set_next P jt with
    | (_, none) => some (1, dst)
    | (jt1, some e) =>
      let r := edge_set_add P alloc dst e.symbol e.state
      if r.1 = 0 then some (0, r.2) else copy_loop P alloc fuel jt1 r.2

/-- The function `edge_set_copy`: the return value and `*dst` afterwards.  The source
is read through a `const` pointer and is a different object from `*dst`. -/
def edge_set_copy (P : Platform) (alloc : Bool) (dst src : edge_set_ptr) :
    Option (Nat × edge_set_ptr) :=
  if edge_set_empty src then some (1, dst)
  else
    match src with
    | .singleton ptr =>
      let r := edge_set_add P alloc dst (SINGLETON_DECODE_SYMBOL ptr)
        (SINGLETON_DECODE_STATE P ptr)
      if r.1 = 0 then some (0, r.2) else some (1, r.2)
    | _ => copy_loop P alloc (iterate_bound src) (edge_set_reset src) dst

/-- What `n` successive `edge_set_next` calls on the cursor `it` return: `some e` for a
call that returns 1 with `*e` written, `none` for a call that returns 0. -/
def next_results (P : Platform) : Nat → edge_iter → List (Option fsm_edge)
  | 0, _ => []
  | n + 1, it => (edge_set_next P it).2 :: next_results P n (edge_set_next P it).1

/-- The cursor after `n` successive `edge_set_next` calls. -/
def cursor_after (P : Platform) : Nat → edge_iter → edge_iter
  | 0, it => it
  | n + 1, it => cursor_after P n (edge_set_next P it).1

/-! ## Validity of inputs -/

/-- Every `fsm_state_t` value fits the payload of a boxed singleton. -/
abbrev Platform.boxes_every_state (P : Platform) : Prop :=
  0 < P.state_bits ∧ P.state_bits + (CHAR_BIT + 1) ≤ P.uintptr_bits

/-- A state id that is neither sentinel. -/
abbrev valid_state (P : Platform) (d : Nat) : Prop := d < BUCKET_TOMBSTONE P

/-! ## Nondeterminism detection -/

/-- Modelled from the spec: the caller-supplied scratch bitmap `struct bm` of
adt/bitmap.h, which is not among the translated sources: one bit per symbol value,
with get, set and reset. -/
structure bm where
  bits : Nat → Bool

/-- Modelled from the spec: a freshly reset bitmap, no bit set. -/
def bm_reset : bm := { bits := fun _ => false }

/-- Modelled from the spec: `bm_get`, the bit of symbol `i`. -/
def bm_get (m : bm) (i : Nat) : Bool := m.bits i

/-- Modelled from the spec: `bm_set`, the bitmap with the bit of symbol `i` set. -/
def bm_set (m : bm) (i : Nat) : bm := { bits := fun j => if j = i then true else m.bits j }

/-- The scan of `edge_set_hasnondeterminism` over the buckets from `i` on: the return
value and the bitmap afterwards. -/
def nondeterminism_scan (P : Platform) (t : edge_set) : Nat → Nat → bm → Nat × bm
  | 0, _, m => (0, m)
  | fuel + 1, i, m =>
    let bs := (bucket t.b i).state
    if bs = BUCKET_UNUSED P ∨ bs = BUCKET_TOMBSTONE P then
      nondeterminism_scan P t fuel (i + 1) m
    else if bm_get m (bucket t.b i).symbol then (1, m)
    else nondeterminism_scan P t fuel (i + 1) (bm_set m (bucket t.b i).symbol)

/-- The function `edge_set_hasnondeterminism`: the return value and the bitmap
afterwards. -/
def edge_set_hasnondeterminism (P : Platform) (set : edge_set_ptr) (m : bm) : Nat × bm :=
  if edge_set_empty set then (0, m)
  else
    match set with
    | .null => (0, m)
    | .singleton ptr =>
      if bm_get m (SINGLETON_DECODE_SYMBOL ptr) then (1, m)
      else (0, bm_set m (SINGLETON_DECODE_SYMBOL ptr))
    | .table t => nondeterminism_scan P t t.ceil 0 m

/-! ## Histories of calls -/

/-- A call of one of the public mutators of an edge set. -/
inductive edge_set_op where
  | add (symbol state : Nat) : edge_set_op
  | remove (symbol : Nat) : edge_set_op
  | remove_state (state : Nat) : edge_set_op
  | compact (remap : Nat → Nat) : edge_set_op
  | rebase (base : Nat) : edge_set_op
  | replace_state (old new : Nat) : edge_set_op

/-- The set after one call (allocation succeeding, `no_state` the "no state" value of
the remap callbacks). -/
def apply_op (P : Platform) (no_state : Nat) (set : edge_set_ptr) :
    edge_set_op → edge_set_ptr
  | .add symbol state => (edge_set_add P true set symbol state).2
  | .remove symbol => edge_set_remove P set symbol
  | .remove_state state => edge_set_remove_state P set state
  | .compact remap => edge_set_compact P no_state set remap
  | .rebase base => edge_set_rebase P set base
  | .replace_state old new => edge_set_replace_state P set old new

/-- The set after a sequence of calls, first to last. -/
def run_ops (P : Platform) (no_state : Nat) (set : edge_set_ptr)
    (ops : List edge_set_op) : edge_set_ptr :=
  ops.foldl (apply_op P no_state) set

/-- The calls `add(97,1); add(98,2); remove(97)`. -/
def removed_once : List edge_set_op := [.add 97 1, .add 98 2, .remove 97]

/-- The calls `add(97,1); add(98,2); remove(97); remove(97)`. -/
def removed_twice : List edge_set_op := [.add 97 1, .add 98 2, .remove 97, .remove 97]

/-- Sixteen calls, every destination being 7: the symbols 0 and 1 are added, 0 is
removed, and then each of the symbols 2 to 7 is added after a further `remove(0)`;
at last symbol 8 is added. -/
def filling_calls : List edge_set_op :=
  [.add 0 7, .add 1 7, .remove 0, .remove 0, .add 2 7, .remove 0, .add 3 7, .remove 0,
   .add 4 7, .remove 0, .add 5 7, .remove 0, .add 6 7, .remove 0, .add 7 7, .add 8 7]

/-! ## The automaton, as capture.c uses it

capture.c reads and writes the automaton through `fsm_addstate`, `fsm_setend`,
`fsm_isend`, `fsm_addedge_epsilon`, `fsm_addedge_literal` and the iterators of state
sets and edge sets, none of which is among the translated sources.  It walks the
literal edges with `edge_set_first` and a one-argument `edge_set_next`, which return a
`struct fsm_edge *` carrying a symbol and a state set `sl`: an interface other than the
one of edgeset.c above, so the edges of a state are modelled here as capture.c reads
them. -/

/-- Modelled from the spec: a literal edge as capture.c iterates it, a symbol with the
state set `sl` of its destinations (in iteration order). -/
structure literal_edge where
  symbol : Nat
  sl : List Nat
deriving DecidableEq, Repr

/-- Modelled from the spec: a state of the automaton (`fsm->states[i]`): its end flag,
the state set of its epsilon destinations, and its literal edges. -/
structure fsm_state where
  end_flag : Bool
  epsilons : List Nat
  edges : List literal_edge
deriving DecidableEq, Repr

/-- Modelled from the spec: the automaton, its states indexed by state id. -/
structure fsm where
  states : List fsm_state
deriving DecidableEq, Repr

/-- A `struct fsm_capture`: the range `[start, end)`. -/
structure fsm_capture where
  start : Nat
  end_ : Nat
deriving DecidableEq, Repr

/-- A state without edges, not an end state. -/
def blank_state : fsm_state := { end_flag := false, epsilons := [], edges := [] }

/-- The read `fsm->states[s]`. -/
def state_at (f : fsm) (s : Nat) : fsm_state := f.states.getD s blank_state

/-- The write `fsm->states[s] = g(fsm->states[s])`. -/
def update_state (f : fsm) (s : Nat) (g : fsm_state → fsm_state) : fsm :=
  { states := f.states.set s (g (state_at f s)) }

/-- Modelled from the spec: `fsm_countstates`. -/
def fsm_countstates (f : fsm) : Nat := f.states.length

/-- Modelled from the spec: insertion into a state set, which holds no duplicates. -/
def state_set_add (s : List Nat) (x : Nat) : List Nat := if x ∈ s then s else s ++ [x]

/-- Modelled from the spec: insertion of the literal edge `(symbol, dst)` into the edges
of a state, one entry per symbol. -/
def literal_add (symbol dst : Nat) : List literal_edge → List literal_edge
  | [] => [{ symbol := symbol, sl := [dst] }]
  | e :: rest =>
    if e.symbol = symbol then { e with sl := state_set_add e.sl dst } :: rest
    else e :: literal_add symbol dst rest

/-- Modelled from the spec: `fsm_addstate`; ids are allocated densely and are never one
of the two reserved sentinels; `none` when no state can be allocated. -/
def fsm_addstate (P : Platform) (alloc : Bool) (f : fsm) : Option (fsm × Nat) :=
  if alloc = true ∧ valid_state P f.states.length then
    some ({ states := f.states ++ [blank_state] }, f.states.length)
  else none

/-- Modelled from the spec: `fsm_isend`. -/
def fsm_isend (f : fsm) (s : Nat) : Bool := (state_at f s).end_flag

/-- Modelled from the spec: `fsm_setend`. -/
def fsm_setend (f : fsm) (s : Nat) (flag : Bool) : fsm :=
  update_state f s (fun st => { st with end_flag := flag })

/-- Modelled from the spec: `fsm_addedge_epsilon`; `none` when allocation fails. -/
def fsm_addedge_epsilon (alloc : Bool) (f : fsm) (src dst : Nat) : Option fsm :=
  if alloc then
    some (update_state f src (fun st => { st with epsilons := state_set_add st.epsilons dst }))
  else none

/-- Modelled from the spec: `fsm_addedge_literal`; `none` when allocation fails. -/
def fsm_addedge_literal (alloc : Bool) (f : fsm) (src dst symbol : Nat) : Option fsm :=
  if alloc then
    some (update_state f src (fun st => { st with edges := literal_add symbol dst st.edges }))
  else none

/-- State `s` has a literal edge on `symbol` to `dst`. -/
def has_literal (st : fsm_state) (symbol dst : Nat) : Prop :=
  ∃ e ∈ st.edges, e.symbol = symbol ∧ dst ∈ e.sl

/-! ## capture.c -/

/-- The function `fsm_capture_start`. -/
def fsm_capture_start (f : fsm) (capture : fsm_capture) : fsm_capture :=
  { capture with start := fsm_countstates f }

/-- The function `fsm_capture_stop`. -/
def fsm_capture_stop (f : fsm) (capture : fsm_capture) : fsm_capture :=
  { capture with end_ := fsm_countstates f }

/-- The loop "allocate new states" of `fsm_capture_duplicate`, from `ind` on: the
automaton, `new_start` and `new_end` afterwards, or the automaton at the failing
allocation. -/
def allocate_states (P : Platform) (alloc : Bool) (old_start : Nat) :
    Nat → Nat → fsm → Nat → Nat → Except fsm (fsm × Nat × Nat)
  | 0, _, f, new_start, new_end => .ok (f, new_start, new_end)
  | fuel + 1, ind, f, new_start, _ =>
    match fsm_addstate P alloc f with
    | none => .error f
    | some (f1, st) =>
      let f2 := fsm_setend f1 st (fsm_isend f1 ind)
      allocate_states P alloc old_start fuel (ind + 1) f2
        (if ind = old_start then st else new_start) (to_state P (st + 1))

/-- The loop over the epsilon destinations of the old state, adding edges to `ind`. -/
def copy_epsilons (alloc : Bool) (old_start old_end new_start ind : Nat) :
    List Nat → fsm → Except fsm fsm
  | [], f => .ok f
  | old_dst :: rest, f =>
    if old_dst < old_start ∨ old_dst ≥ old_end then
      copy_epsilons alloc old_start old_end new_start ind rest f
    else
      match fsm_addedge_epsilon alloc f ind (new_start + (old_dst - old_start)) with
      | none => .error f
      | some f1 => copy_epsilons alloc old_start old_end new_start ind rest f1

/-- The loop over the destinations `e->sl` of one literal edge of the old state. -/
def copy_destinations (alloc : Bool) (old_start old_end new_start ind symbol : Nat) :
    List Nat → fsm → Except fsm fsm
  | [], f => .ok f
  | old_dst :: rest, f =>
    if old_dst < old_start ∨ old_dst ≥ old_end then
      copy_destinations alloc old_start old_end new_start ind symbol rest f
    else
      match fsm_addedge_literal alloc f ind (new_start + (old_dst - old_start)) symbol with
      | none => .error f
      | some f1 => copy_destinations alloc old_start old_end new_start ind symbol rest f1

/-- The loop over the literal edges of the old state. -/
def copy_literals (alloc : Bool) (old_start old_end new_start ind : Nat) :
    List literal_edge → fsm → Except fsm fsm
  | [], f => .ok f
  | e :: rest, f =>
    match copy_destinations alloc old_start old_end new_start ind e.symbol e.sl f with
    | .error f1 => .error f1
    | .ok f1 => copy_literals alloc old_start old_end new_start ind rest f1

/-- The loop "allocate edges" of `fsm_capture_duplicate`, from `ind` on. -/
def copy_edges (alloc : Bool) (old_start old_end new_start : Nat) :
    Nat → Nat → fsm → Except fsm fsm
  | 0, _, f => .ok f
  | fuel + 1, ind, f =>
    let old_src := old_start + (ind - new_start)
    match copy_epsilons alloc old_start old_end new_start ind (state_at f old_src).epsilons f with
    | .error f1 => .error f1
    | .ok f1 =>
      match copy_literals alloc old_start old_end new_start ind (state_at f1 old_src).edges f1 with
      | .error f2 => .error f2
      | .ok f2 => copy_edges alloc old_start old_end new_start fuel (ind + 1) f2

/-- What `fsm_capture_duplicate` leaves behind: its return value, the automaton, and
the contents of `*x` (when `x` is not `NULL`) and `*q`. -/
structure duplicate_result where
  ret : Nat
  fsm : fsm
  x : Option Nat
  q : Nat

/-- The function `fsm_capture_duplicate`. -/
def fsm_capture_duplicate (P : Platform) (alloc : Bool) (f : fsm) (capture : fsm_capture)
    (x : Option Nat) (q : Nat) : duplicate_result :=
  let old_start := capture.start
  let old_end := capture.end_
  if old_start ≥ old_end then { ret := 0, fsm := f, x := x, q := q }
  else
    match allocate_states P alloc old_start (old_end - old_start) old_start f 0 0 with
    | .error f1 => { ret := 0, fsm := f1, x := x, q := q }
    | .ok (f1, new_start, new_end) =>
      if new_start = new_end then { ret := 0, fsm := f1, x := x, q := q }
      else
        match copy_edges alloc old_start old_end new_start (new_end - new_start) new_start f1 with
        | .error f2 => { ret := 0, fsm := f2, x := x, q := q }
        | .ok f2 =>
          { ret := 1, fsm := f2,
            x := x.map (fun old_x =>
              if old_x ≥ old_start ∧ old_x < old_end then new_start + (old_x - old_start)
              else old_x),
            q := new_start }

/-- A three-state automaton: epsilon edges `0 -> 1`, `1 -> 0`, `1 -> 2`, literal edges
`1 -> 2` and `1 -> 0` on 120, `2 -> 1` on 121; state 2 is an end state. -/
def sample_fsm : fsm :=
  { states := [
      { end_flag := false, epsilons := [1], edges := [] },
      { end_flag := false, epsilons := [0, 2], edges := [{ symbol := 120, sl := [2, 0] }] },
      { end_flag := true, epsilons := [], edges := [{ symbol := 121, sl := [1] }] }] }

/-- The capture range `[1, 3)`. -/
def sample_capture : fsm_capture := { start := 1, end_ := 3 }

/-- The automaton of the duplication example of the specification: an epsilon edge
`0 -> 1`, a literal edge `1 -> 2` on `'x'` (120), and `2` an end state. -/
def spec_example_fsm : fsm :=
  { states := [
      { end_flag := false, epsilons := [1], edges := [] },
      { end_flag := false, epsilons := [], edges := [{ symbol := 120, sl := [2] }] },
      { end_flag := true, epsilons := [], edges := [] }] }

/-! # Auxiliary definitions for the proofs -/

/-! ## Well-formedness of tables -/

/-- Distinct live buckets hold distinct symbols. -/
def distinct_symbols (P : Platform) (b : List fsm_edge) : Prop :=
  ∀ i j, i < b.length → j < b.length →
    is_live P (bucket b i) = true → is_live P (bucket b j) = true →
    (bucket b i).symbol = (bucket b j).symbol → i = j

/-- Slot `j` is reached from hash `h` by probing without crossing an unused bucket. -/
def reached_from (P : Platform) (b : List fsm_edge) (ceil h j : Nat) : Prop :=
  ∃ i, i < ceil ∧ probe h (ceil - 1) i = j ∧
    ∀ i', i' < i → (bucket b (probe h (ceil - 1) i')).state ≠ BUCKET_UNUSED P

/-- Every record is reached from the hash of its symbol. -/
def probe_chain (P : Platform) (b : List fsm_edge) (ceil : Nat) : Prop :=
  ∀ j, j < ceil → is_live P (bucket b j) = true →
    reached_from P b ceil (hash (bucket b j).symbol) j

/-- A well-formed table: `ceil` buckets, `ceil` a power of two, `count` the number
of records, and every record reachable by probing. -/
structure table_ok (P : Platform) (t : edge_set) : Prop where
  len : t.b.length = t.ceil
  pow : ∃ k, t.ceil = 2 ^ k
  cnt : t.count = (live_records P t.b).length
  chain : probe_chain P t.b t.ceil

/-- A well-formed table without tombstones, at most half full. -/
structure fresh_table (P : Platform) (t : edge_set) extends table_ok P t : Prop where
  no_tombstone : ∀ e ∈ t.b, e.state ≠ BUCKET_TOMBSTONE P
  half : 2 * t.count ≤ t.ceil
  big : SET_INITIAL ≤ t.ceil

/-- The body of the rehash loop, as a function of the old bucket. -/
def grow_body (P : Platform) (nceil : Nat) (nb : List fsm_edge) (e : fsm_edge) :
    List fsm_edge :=
  if e.state = BUCKET_UNUSED P ∨ e.state = BUCKET_TOMBSTONE P then nb
  else grow_insert P (nceil - 1) (hash e.symbol) e nb nceil 0

/-- The buckets `b[i], ..., b[i+n-1]` as the loops read them. -/
def slots_from (t : edge_set) (i n : Nat) : List fsm_edge :=
  (List.range' i n).map (bucket t.b)

/-! ## Sequences of operations -/

/-- Successive `edge_set_add` calls on the records of a list, first to last: the
return values and the final set. -/
def add_all (P : Platform) (alloc : Bool) :
    edge_set_ptr → List fsm_edge → List Nat × edge_set_ptr
  | set, [] => ([], set)
  | set, e :: rest =>
    let r := edge_set_add P alloc set e.symbol e.state
    let rs := add_all P alloc r.2 rest
    (r.1 :: rs.1, rs.2)

/-- A record a caller may insert: an 8-bit symbol and a state id that is neither
sentinel. -/
abbrev valid_edge (P : Platform) (e : fsm_edge) : Prop :=
  e.symbol < 256 ∧ valid_state P e.state

/-- The set holds exactly the records `L`, in a representation built by inserts:
`NULL`, a boxed singleton, or a fresh table of at least two records. -/
def represents (P : Platform) (set : edge_set_ptr) (L : List fsm_edge) : Prop :=
  match set with
  | .null => L = []
  | .singleton ptr =>
    L = [{ state := SINGLETON_DECODE_STATE P ptr, symbol := SINGLETON_DECODE_SYMBOL ptr }]
  | .table t =>
    fresh_table P t ∧ (live_records P t.b).Perm L ∧ 2 ≤ t.count ∧
      (t.ceil = SET_INITIAL ∨ t.ceil < 4 * t.count)

/-- Five records to insert; the symbols 1, 9 and 17 hash to the same bucket of an
eight-bucket table. -/
def sample_records : List fsm_edge :=
  [{ state := 10, symbol := 1 }, { state := 20, symbol := 9 }, { state := 30, symbol := 17 },
   { state := 4, symbol := 2 }, { state := 5, symbol := 3 }]

/-- A loop body that replaces bucket `i` by `g b[i]` and updates the counter by `c`. -/
def pointwise_step (g : fsm_edge → fsm_edge) (c : Nat → fsm_edge → Nat)
    (set : edge_set) (i : Nat) : edge_set :=
  { b := set.b.set i (g (bucket set.b i)), count := c set.count (bucket set.b i),
    ceil := set.ceil }

/-- What `edge_set_compact` does to one bucket. -/
def compact_bucket (P : Platform) (no_state : Nat) (remap : Nat → Nat) (e : fsm_edge) :
    fsm_edge :=
  if e.state = BUCKET_UNUSED P ∨ e.state = BUCKET_TOMBSTONE P then e
  else if remap e.state = no_state then { e with state := BUCKET_TOMBSTONE P }
  else { e with state := remap e.state }

/-- What `edge_set_compact` does to the counter at one bucket. -/
def compact_count (P : Platform) (no_state : Nat) (remap : Nat → Nat) (count : Nat)
    (e : fsm_edge) : Nat :=
  if e.state = BUCKET_UNUSED P ∨ e.state = BUCKET_TOMBSTONE P then count
  else if remap e.state = no_state then size_dec P count
  else count

/-- The records `edge_set_compact` is to keep. -/
def kept (no_state : Nat) (remap : Nat → Nat) (L : List fsm_edge) : List fsm_edge :=
  L.filter (fun e => decide (remap e.state ≠ no_state))

/-- The records `edge_set_compact` is to drop. -/
def dropped (no_state : Nat) (remap : Nat → Nat) (L : List fsm_edge) : List fsm_edge :=
  L.filter (fun e => decide (remap e.state = no_state))

/-- A record with its destination remapped. -/
def remapped (remap : Nat → Nat) (e : fsm_edge) : fsm_edge :=
  { state := remap e.state, symbol := e.symbol }

/-- Three records to compact, two of them on symbol 1. -/
def renumbered_records : List fsm_edge :=
  [{ state := 5, symbol := 1 }, { state := 6, symbol := 9 }, { state := 7, symbol := 1 }]

/-- A remap function on a 64-bit build: state 6 is dropped (mapped to
`(fsm_state_t) -1`), the other states move down by 5. -/
def drop_six (d : Nat) : Nat := if d = 6 then BUCKET_UNUSED LP64 else d - 5

/-! ## What the loops of `fsm_capture_duplicate` compute -/

/-- The epsilon destinations after the loop over the old epsilon destinations `l`. -/
def eps_fold (old_start old_end new_start : Nat) (l : List Nat) (acc : List Nat) : List Nat :=
  l.foldl (fun acc old_dst =>
    if old_dst < old_start ∨ old_dst ≥ old_end then acc
    else state_set_add acc (new_start + (old_dst - old_start))) acc

/-- The literal edges after the loop over the destinations `l` of one old edge. -/
def lit_fold (old_start old_end new_start symbol : Nat) (l : List Nat)
    (acc : List literal_edge) : List literal_edge :=
  l.foldl (fun acc old_dst =>
    if old_dst < old_start ∨ old_dst ≥ old_end then acc
    else literal_add symbol (new_start + (old_dst - old_start)) acc) acc

/-- The literal edges after the loop over the old literal edges `es`. -/
def edges_fold (old_start old_end new_start : Nat) (es : List literal_edge)
    (acc : List literal_edge) : List literal_edge :=
  es.foldl (fun acc e => lit_fold old_start old_end new_start e.symbol e.sl acc) acc

/-- The new state after its edges were copied from the old state `src`. -/
def dup_state (old_start old_end new_start : Nat) (src target : fsm_state) : fsm_state :=
  { target with
    epsilons := eps_fold old_start old_end new_start src.epsilons target.epsilons,
    edges := edges_fold old_start old_end new_start src.edges target.edges }

/-- The list of edges `es` holds an edge on `symbol` to `dst`. -/
def lit_mem (es : List literal_edge) (symbol dst : Nat) : Prop :=
  ∃ e ∈ es, e.symbol = symbol ∧ dst ∈ e.sl

/-! ## Sample sets -/

/-- The set built by `add(97,1); add(98,2)` on a 64-bit build. -/
def set_a_b : edge_set_ptr :=
  (add_all LP64 true .null [{ state := 1, symbol := 97 }, { state := 2, symbol := 98 }]).2

/-- The set built by `add(99,3); add(97,4)`. -/
def set_c_a : edge_set_ptr :=
  (add_all LP64 true .null [{ state := 3, symbol := 99 }, { state := 4, symbol := 97 }]).2

/-- The set built by `add(97,1); add(97,2)`: two records on symbol 97. -/
def set_a_a : edge_set_ptr :=
  (add_all LP64 true .null [{ state := 1, symbol := 97 }, { state := 2, symbol := 97 }]).2

/-- The singleton built by `add(97,3)`. -/
def set_a : edge_set_ptr :=
  (add_all LP64 true .null [{ state := 3, symbol := 97 }]).2

/-! ## Tables with tombstones -/

/-- A table whose header agrees with its buckets: `ceil` buckets, `ceil` a power of
two and at least `SET_INITIAL`, `count` the number of records and at most half of
`ceil`.  Tombstones may be present. -/
structure consistent_table (P : Platform) (t : edge_set) : Prop where
  len : t.b.length = t.ceil
  pow : ∃ k, t.ceil = 2 ^ k
  big : SET_INITIAL ≤ t.ceil
  cnt : t.count = (live_records P t.b).length
  half : 2 * t.count ≤ t.ceil

/-- A set in one of the three representations whose contents are consistent: `NULL`,
a boxed singleton whose destination is a valid state id, or a consistent table. -/
def consistent (P : Platform) (set : edge_set_ptr) : Prop :=
  match set with
  | .null => True
  | .singleton ptr => valid_state P (SINGLETON_DECODE_STATE P ptr)
  | .table t => consistent_table P t

/-- Successive `edge_set_add` calls on the records of a list that stop at the first
call returning 0, as the loop of `edge_set_copy` does. -/
def add_until_fail (P : Platform) (alloc : Bool) :
    edge_set_ptr → List fsm_edge → Nat × edge_set_ptr
  | dst, [] => (1, dst)
  | dst, e :: rest =>
    let r := edge_set_add P alloc dst e.symbol e.state
    if r.1 = 0 then (0, r.2) else add_until_fail P alloc r.2 rest

/-- The records of a set as the specification of the cursor lists them: for a table
the buckets `0, ..., ceil - 1` whose state is neither sentinel, by increasing index;
for a singleton its decoded record; for `NULL` nothing. -/
def records_in_bucket_order (P : Platform) (set : edge_set_ptr) : List fsm_edge :=
  match set with
  | .null => []
  | .singleton ptr =>
    [{ state := SINGLETON_DECODE_STATE P ptr, symbol := SINGLETON_DECODE_SYMBOL ptr }]
  | .table t =>
    ((List.range t.ceil).filter (fun i => is_live P (bucket t.b i))).map (bucket t.b)

/-- The number of buckets that are not unused: records and tombstones. -/
def occupied (P : Platform) (b : List fsm_edge) : Nat :=
  (b.filter (fun e => decide (e.state ≠ BUCKET_UNUSED P))).length

/-- The capacity of a table, 0 for the other representations. -/
def capacity (set : edge_set_ptr) : Nat :=
  match set with
  | .table t => t.ceil
  | _ => 0

/-- The bucket array of a table, empty for the other representations. -/
def buckets_of (set : edge_set_ptr) : List fsm_edge :=
  match set with
  | .table t => t.b
  | _ => []

/-- Two records with valid destinations on the 32-bit build, the first being
`SINGLETON_MAX_STATE + 1 = 8388608`. -/
def oversize_records : List fsm_edge :=
  [{ state := 8388608, symbol := 0 }, { state := 5, symbol := 1 }]

/-- The calls `add(1,7); add(2,7); add(3,7); add(4,7); remove(4)`: three records and
one tombstone in a table of eight buckets. -/
def half_occupied_calls : List edge_set_op :=
  [.add 1 7, .add 2 7, .add 3 7, .add 4 7, .remove 4]

/-- The calls `add(97,1); add(98,2); remove(97); remove(98)`: each record is removed
once. -/
def emptied_calls : List edge_set_op := [.add 97 1, .add 98 2, .remove 97, .remove 98]

/-- The calls `add(97,1); add(98,2); add(99,3); remove(97); remove(97)` followed by a
compaction whose remap function drops every state. -/
def underflow_calls : List edge_set_op :=
  [.add 97 1, .add 98 2, .add 99 3, .remove 97, .remove 97,
   .compact (fun _ => BUCKET_UNUSED LP64)]

/-- Three records, two of them with destination 7. -/
def shared_destination_records : List fsm_edge :=
  [{ state := 7, symbol := 1 }, { state := 8, symbol := 2 }, { state := 7, symbol := 3 }]

/-- A table with one record and one tombstone: the set after `removed_once`. -/
def tombstoned_set : edge_set_ptr := run_ops LP64 (BUCKET_UNUSED LP64) .null removed_once

/-! # Theorems -/

/-! ## Sentinels and the boxed singleton -/

theorem two_le_two_pow {n : Nat} (h : 0 < n) : 2 ≤ 2 ^ n := by
  calc 2 = 2 ^ 1 := rfl
    _ ≤ 2 ^ n := Nat.pow_le_pow_right (by norm_num) h

theorem unused_ne_tombstone (P : Platform) (h : 0 < P.state_bits) :
    BUCKET_UNUSED P ≠ BUCKET_TOMBSTONE P := by
  have := two_le_two_pow h
  unfold BUCKET_UNUSED BUCKET_TOMBSTONE
  omega

theorem valid_state_lt (P : Platform) {d : Nat} (h : valid_state P d) :
    d < 2 ^ P.state_bits := by
  unfold valid_state BUCKET_TOMBSTONE at h
  omega

theorem valid_state_ne_unused (P : Platform) {d : Nat} (h : valid_state P d) :
    d ≠ BUCKET_UNUSED P := by
  unfold valid_state BUCKET_TOMBSTONE at h
  unfold BUCKET_UNUSED
  omega

theorem valid_state_ne_tombstone (P : Platform) {d : Nat} (h : valid_state P d) :
    d ≠ BUCKET_TOMBSTONE P := by
  unfold valid_state at h
  omega

theorem is_live_iff (P : Platform) (e : fsm_edge) :
    is_live P e = true ↔ e.state ≠ BUCKET_UNUSED P ∧ e.state ≠ BUCKET_TOMBSTONE P := by
  simp [is_live]

theorem is_live_false_iff (P : Platform) (e : fsm_edge) :
    is_live P e = false ↔ (e.state = BUCKET_UNUSED P ∨ e.state = BUCKET_TOMBSTONE P) := by
  rw [← Bool.not_eq_true, is_live_iff]
  tauto

theorem is_live_of_valid (P : Platform) {d s : Nat} (h : valid_state P d) :
    is_live P { state := d, symbol := s } = true := by
  rw [is_live_iff]
  exact ⟨valid_state_ne_unused P h, valid_state_ne_tombstone P h⟩

/-- A state id up to `SINGLETON_MAX_STATE` survives the shift by `CHAR_BIT + 1` in a
`uintptr_t`. -/
theorem shifted_state_fits (P : Platform) {state : Nat}
    (hmax : state ≤ SINGLETON_MAX_STATE P) : state * 2 ^ 9 < 2 ^ P.uintptr_bits := by
  unfold SINGLETON_MAX_STATE CHAR_BIT at hmax
  rw [Nat.shiftRight_eq_div_pow] at hmax
  have h1 := (Nat.le_div_iff_mul_le (by norm_num : 0 < 2 ^ (8 + 1))).mp hmax
  have h2 : 0 < 2 ^ P.uintptr_bits := Nat.two_pow_pos _
  have h3 : (2 : Nat) ^ (8 + 1) = 2 ^ 9 := rfl
  rw [h3] at h1
  omega

/-- The payload of an encoded singleton, as a sum, for a state id up to
`SINGLETON_MAX_STATE`. -/
theorem singleton_encode_eq (P : Platform) (hU : CHAR_BIT + 1 ≤ P.uintptr_bits)
    {symbol state : Nat} (hsym : symbol < 256) (hmax : state ≤ SINGLETON_MAX_STATE P) :
    SINGLETON_ENCODE P symbol state = 2 ^ 9 * state + (2 * symbol + 1) := by
  have hmul := shifted_state_fits P hmax
  have h9 : 2 ^ 9 ≤ 2 ^ P.uintptr_bits :=
    Nat.pow_le_pow_right (by norm_num) (by unfold CHAR_BIT at hU; omega)
  have e1 : to_uintptr P state = state := Nat.mod_eq_of_lt (by omega)
  have e2 : to_uintptr P symbol = symbol := Nat.mod_eq_of_lt (by norm_num at h9; omega)
  have e3 : to_uintptr P (state <<< (CHAR_BIT + 1)) = 2 ^ 9 * state := by
    unfold to_uintptr CHAR_BIT
    rw [Nat.shiftLeft_eq, Nat.mod_eq_of_lt hmul, Nat.mul_comm]
  have e4 : to_uintptr P (symbol <<< 1) = 2 * symbol := by
    unfold to_uintptr
    rw [Nat.shiftLeft_eq, Nat.mod_eq_of_lt (by norm_num at h9; omega)]
    omega
  unfold SINGLETON_ENCODE
  rw [e1, e2, e3, e4]
  have hlow : 2 * symbol ||| 1 = 2 * symbol + 1 := by
    have := Nat.mul_add_lt_is_or (i := 1) (b := 1) (by norm_num) symbol
    simpa using this.symm
  rw [Nat.lor_assoc, hlow]
  exact (Nat.mul_add_lt_is_or (by omega) state).symm

theorem singleton_decode_symbol_encode (P : Platform) (hU : CHAR_BIT + 1 ≤ P.uintptr_bits)
    {symbol state : Nat} (hsym : symbol < 256) (hmax : state ≤ SINGLETON_MAX_STATE P) :
    SINGLETON_DECODE_SYMBOL (SINGLETON_ENCODE P symbol state) = symbol := by
  rw [singleton_encode_eq P hU hsym hmax]
  unfold SINGLETON_DECODE_SYMBOL
  have : (0xFF : Nat) = 2 ^ 8 - 1 := by norm_num
  rw [this, Nat.and_pow_two_sub_one_eq_mod, Nat.shiftRight_eq_div_pow]
  omega

theorem singleton_decode_state_encode (P : Platform) (hU : CHAR_BIT + 1 ≤ P.uintptr_bits)
    {symbol state : Nat} (hsym : symbol < 256) (hst : state < 2 ^ P.state_bits)
    (hmax : state ≤ SINGLETON_MAX_STATE P) :
    SINGLETON_DECODE_STATE P (SINGLETON_ENCODE P symbol state) = state := by
  rw [singleton_encode_eq P hU hsym hmax]
  unfold SINGLETON_DECODE_STATE to_state CHAR_BIT
  rw [Nat.shiftRight_eq_div_pow]
  have : (2 ^ 9 * state + (2 * symbol + 1)) / 2 ^ (8 + 1) = state := by omega
  rw [this]
  exact Nat.mod_eq_of_lt hst

/-- On a build where every `fsm_state_t` fits the payload of a boxed singleton, every
`fsm_state_t` value is at most `SINGLETON_MAX_STATE`. -/
theorem le_max_of_boxes (P : Platform) (hP : P.boxes_every_state) {d : Nat}
    (h : d < 2 ^ P.state_bits) :
    CHAR_BIT + 1 ≤ P.uintptr_bits ∧ d ≤ SINGLETON_MAX_STATE P := by
  obtain ⟨_, hfit⟩ := hP
  refine ⟨by omega, ?_⟩
  unfold SINGLETON_MAX_STATE
  rw [Nat.shiftRight_eq_div_pow, Nat.le_div_iff_mul_le (Nat.two_pow_pos _)]
  have hpw : 2 ^ (P.state_bits + (CHAR_BIT + 1)) ≤ 2 ^ P.uintptr_bits :=
    Nat.pow_le_pow_right (by norm_num) hfit
  rw [Nat.pow_add] at hpw
  have h1 : (d + 1) * 2 ^ (CHAR_BIT + 1) ≤ 2 ^ P.state_bits * 2 ^ (CHAR_BIT + 1) :=
    Nat.mul_le_mul_right _ (by omega)
  have h2 : 0 < 2 ^ (CHAR_BIT + 1) := Nat.two_pow_pos _
  rw [Nat.add_mul] at h1
  omega

theorem state_bits_of_valid (P : Platform) {d : Nat} (h : valid_state P d) :
    2 ≤ P.state_bits := by
  unfold valid_state BUCKET_TOMBSTONE at h
  by_contra hlt
  have hle : P.state_bits ≤ 1 := by omega
  have : 2 ^ P.state_bits ≤ 2 ^ 1 := Nat.pow_le_pow_right (by norm_num) hle
  omega

theorem singleton_decode_symbol_lt (ptr : Nat) : SINGLETON_DECODE_SYMBOL ptr < 256 := by
  unfold SINGLETON_DECODE_SYMBOL
  exact Nat.mod_lt _ (by norm_num)

/-- The encoded value has no bit beyond the width of `uintptr_t`. -/
theorem singleton_encode_lt (P : Platform) (symbol state n : Nat) (hn : P.uintptr_bits ≤ n)
    (h1 : 1 ≤ n) : SINGLETON_ENCODE P symbol state < 2 ^ n := by
  have hpw : 2 ^ P.uintptr_bits ≤ 2 ^ n := Nat.pow_le_pow_right (by norm_num) hn
  have hA : ∀ x, to_uintptr P x < 2 ^ n := fun x =>
    lt_of_lt_of_le (Nat.mod_lt _ (Nat.two_pow_pos _)) hpw
  have h1' : (1 : Nat) < 2 ^ n := by
    calc 1 < 2 ^ 1 := by norm_num
      _ ≤ 2 ^ n := Nat.pow_le_pow_right (by norm_num) h1
  unfold SINGLETON_ENCODE
  exact Nat.or_lt_two_pow (Nat.or_lt_two_pow (hA _) (hA _)) h1'

/-- When the payload of a boxed singleton has fewer bits than `fsm_state_t`, the state it
gives back for a valid state id is a valid state id. -/
theorem valid_boxed_narrow (P : Platform) (symbol : Nat) {state : Nat} (h : valid_state P state)
    (hnarrow : P.uintptr_bits < P.state_bits + 9) :
    valid_state P (SINGLETON_DECODE_STATE P (SINGLETON_ENCODE P symbol state)) := by
  have hsb := state_bits_of_valid P h
  have henc := singleton_encode_lt P symbol state (P.state_bits + 8) (by omega) (by omega)
  have hsplit : 2 ^ (P.state_bits + 8) = 2 ^ (P.state_bits - 1) * 2 ^ 9 := by
    rw [← Nat.pow_add]
    congr 1
    omega
  have hdiv : SINGLETON_ENCODE P symbol state / 2 ^ 9 < 2 ^ (P.state_bits - 1) := by
    rw [Nat.div_lt_iff_lt_mul (Nat.two_pow_pos _), ← hsplit]
    exact henc
  have hhalf : 2 ^ P.state_bits = 2 * 2 ^ (P.state_bits - 1) := by
    rw [← Nat.pow_succ']
    congr 1
    omega
  have h2 : 2 ≤ 2 ^ (P.state_bits - 1) := by
    calc 2 = 2 ^ 1 := rfl
      _ ≤ 2 ^ (P.state_bits - 1) := Nat.pow_le_pow_right (by norm_num) (by omega)
  unfold valid_state BUCKET_TOMBSTONE SINGLETON_DECODE_STATE to_state CHAR_BIT
  rw [Nat.shiftRight_eq_div_pow]
  have hmod := Nat.mod_le (SINGLETON_ENCODE P symbol state / 2 ^ (8 + 1)) (2 ^ P.state_bits)
  have h9 : (2 : Nat) ^ (8 + 1) = 2 ^ 9 := rfl
  rw [h9] at hmod ⊢
  omega

/-- Whatever the widths, the state a boxed singleton gives back for a valid state id is
a valid state id. -/
theorem valid_boxed (P : Platform) {symbol state : Nat} (hsym : symbol < 256)
    (h : valid_state P state) :
    valid_state P (SINGLETON_DECODE_STATE P (SINGLETON_ENCODE P symbol state)) := by
  have hsb := state_bits_of_valid P h
  by_cases hbox : P.state_bits + 9 ≤ P.uintptr_bits
  · have hP : P.boxes_every_state := ⟨by omega, by unfold CHAR_BIT; omega⟩
    obtain ⟨hU, hmax⟩ := le_max_of_boxes P hP (valid_state_lt P h)
    rw [singleton_decode_state_encode P hU hsym (valid_state_lt P h) hmax]
    exact h
  · exact valid_boxed_narrow P symbol h (by omega)

/-! ## Buckets -/

theorem bucket_eq_getElem (b : List fsm_edge) {i : Nat} (h : i < b.length) :
    bucket b i = b[i] :=
  List.getD_eq_getElem _ _ h

theorem bucket_mem (b : List fsm_edge) {i : Nat} (h : i < b.length) : bucket b i ∈ b := by
  rw [bucket_eq_getElem b h]
  exact List.getElem_mem h

theorem bucket_set_self (b : List fsm_edge) {i : Nat} (e : fsm_edge) (h : i < b.length) :
    bucket (b.set i e) i = e := by
  rw [bucket_eq_getElem _ (by simpa using h)]
  simp

theorem bucket_set_ne (b : List fsm_edge) {i j : Nat} (e : fsm_edge) (h : i ≠ j) :
    bucket (b.set i e) j = bucket b j := by
  unfold bucket
  rw [List.getD_eq_getElem?_getD, List.getD_eq_getElem?_getD, List.getElem?_set]
  simp [h]

theorem exists_index_of_mem (b : List fsm_edge) {e : fsm_edge} (h : e ∈ b) :
    ∃ j, j < b.length ∧ bucket b j = e := by
  obtain ⟨n, hn, rfl⟩ := List.mem_iff_getElem.mp h
  exact ⟨n, hn, bucket_eq_getElem b hn⟩

theorem list_split_at (b : List fsm_edge) {j : Nat} (h : j < b.length) :
    b = b.take j ++ bucket b j :: b.drop (j + 1) := by
  rw [bucket_eq_getElem b h, List.getElem_cons_drop, List.take_append_drop]

theorem set_split_at (b : List fsm_edge) {j : Nat} (e : fsm_edge) (h : j < b.length) :
    b.set j e = b.take j ++ e :: b.drop (j + 1) := by
  rw [List.set_eq_take_append_cons_drop, if_pos h]

theorem live_records_set_of_dead (P : Platform) (b : List fsm_edge) {j : Nat} (e : fsm_edge)
    (h : j < b.length) (hold : is_live P (bucket b j) = false) (hnew : is_live P e = true) :
    (live_records P (b.set j e)).Perm (e :: live_records P b) := by
  have hb := list_split_at b h
  have hs := set_split_at b e h
  unfold live_records
  rw [hs]
  conv_rhs => rw [hb]
  simp only [List.filter_append, List.filter_cons, hold, hnew, if_true]
  simp

theorem exists_dead_of_count_lt (P : Platform) (b : List fsm_edge)
    (h : (live_records P b).length < b.length) :
    ∃ j, j < b.length ∧ is_live P (bucket b j) = false := by
  obtain ⟨x, hx, hnx⟩ := List.length_filter_lt_length_iff_exists.mp h
  obtain ⟨j, hj, rfl⟩ := exists_index_of_mem b hx
  exact ⟨j, hj, by simpa using hnx⟩

/-! ## The probe sequence -/

theorem probe_lt (h i ceil : Nat) (hc : 0 < ceil) : probe h (ceil - 1) i < ceil := by
  have : probe h (ceil - 1) i ≤ ceil - 1 := Nat.and_le_right
  omega

theorem probe_eq_mod (h i k : Nat) : probe h (2 ^ k - 1) i = (h + i) % 2 ^ k :=
  Nat.and_pow_two_sub_one_eq_mod _ _

/-- Every slot lies on every probe sequence. -/
theorem probe_surjective (h k : Nat) {j : Nat} (hj : j < 2 ^ k) :
    ∃ i, i < 2 ^ k ∧ probe h (2 ^ k - 1) i = j := by
  have hpos : 0 < 2 ^ k := Nat.pos_of_ne_zero (by positivity)
  have hr : h % 2 ^ k < 2 ^ k := Nat.mod_lt _ hpos
  have hdecomp := Nat.div_add_mod h (2 ^ k)
  by_cases hle : h % 2 ^ k ≤ j
  · refine ⟨j - h % 2 ^ k, by omega, ?_⟩
    rw [probe_eq_mod]
    have : h + (j - h % 2 ^ k) = j + 2 ^ k * (h / 2 ^ k) := by omega
    rw [this, Nat.add_mul_mod_self_left, Nat.mod_eq_of_lt hj]
  · refine ⟨j + 2 ^ k - h % 2 ^ k, by omega, ?_⟩
    rw [probe_eq_mod]
    have : h + (j + 2 ^ k - h % 2 ^ k) = j + 2 ^ k * (h / 2 ^ k + 1) := by
      rw [Nat.mul_add]; omega
    rw [this, Nat.add_mul_mod_self_left, Nat.mod_eq_of_lt hj]

theorem bucket_set_cases (b : List fsm_edge) (p x : Nat) (e : fsm_edge) :
    bucket (b.set p e) x = e ∨ bucket (b.set p e) x = bucket b x := by
  by_cases hpx : p = x
  · subst hpx
    by_cases hp : p < b.length
    · exact Or.inl (bucket_set_self b e hp)
    · right
      rw [List.set_eq_of_length_le (by omega)]
  · exact Or.inr (bucket_set_ne b e hpx)

theorem state_set_ne_unused (P : Platform) (b : List fsm_edge) (p x : Nat) (e : fsm_edge)
    (he : e.state ≠ BUCKET_UNUSED P) (hx : (bucket b x).state ≠ BUCKET_UNUSED P) :
    (bucket (b.set p e) x).state ≠ BUCKET_UNUSED P := by
  rcases bucket_set_cases b p x e with h | h <;> rw [h] <;> assumption

theorem reached_from_set (P : Platform) (b : List fsm_edge) (ceil h j p : Nat) (e : fsm_edge)
    (he : e.state ≠ BUCKET_UNUSED P) (hr : reached_from P b ceil h j) :
    reached_from P (b.set p e) ceil h j := by
  obtain ⟨i, hi, hij, hbefore⟩ := hr
  exact ⟨i, hi, hij, fun i' hi' => state_set_ne_unused P b p _ e he (hbefore i' hi')⟩

/-- Overwriting a bucket keeps the probe chains, provided that the new content is
not the unused marker and, if it is a record, is itself reachable. -/
theorem probe_chain_set (P : Platform) (b : List fsm_edge) (ceil p : Nat) (e : fsm_edge)
    (hlen : b.length = ceil) (hp : p < ceil)
    (hc : probe_chain P b ceil) (he : e.state ≠ BUCKET_UNUSED P)
    (hreach : is_live P e = true → reached_from P b ceil (hash e.symbol) p) :
    probe_chain P (b.set p e) ceil := by
  intro j hj hlive
  by_cases hjp : p = j
  · subst hjp
    rw [bucket_set_self b e (by omega)] at hlive ⊢
    exact reached_from_set P b ceil _ p p e he (hreach hlive)
  · rw [bucket_set_ne b e hjp] at hlive ⊢
    exact reached_from_set P b ceil _ j p e he (hc j hj hlive)

theorem distinct_symbols_of_nodup (P : Platform) (b : List fsm_edge)
    (h : ((live_records P b).map fsm_edge.symbol).Nodup) : distinct_symbols P b := by
  unfold live_records at h
  rw [List.Nodup, List.pairwise_map] at h
  have h2 : List.Pairwise
      (fun x y => is_live P x = true → is_live P y = true → x.symbol ≠ y.symbol) b := by
    have := (List.pairwise_filter (p := fun x => is_live P x = true)
      (R := fun x y : fsm_edge => x.symbol ≠ y.symbol) (l := b)).mp (by simpa using h)
    exact this
  rw [List.pairwise_iff_getElem] at h2
  intro i j hi hj hli hlj hsym
  rw [bucket_eq_getElem b hi] at hli hsym
  rw [bucket_eq_getElem b hj] at hlj hsym
  rcases Nat.lt_trichotomy i j with hlt | heq | hgt
  · exact absurd hsym (h2 i j hi hj hlt hli hlj)
  · exact heq
  · exact absurd hsym.symm (h2 j i hj hi hgt hlj hli)

/-! ## The probe loops -/

/-- The lookup loop returns a record that is reachable from its hash. -/
theorem find_probe_hit (P : Platform) (t : edge_set) (hlen : t.b.length = t.ceil)
    (hd : distinct_symbols P t.b) {j : Nat} (hj : j < t.ceil)
    (hl : is_live P (bucket t.b j) = true) :
    ∀ fuel i,
      (∃ k, k < fuel ∧ probe (hash (bucket t.b j).symbol) (t.ceil - 1) (i + k) = j ∧
        ∀ k', k' < k →
          (bucket t.b (probe (hash (bucket t.b j).symbol) (t.ceil - 1) (i + k'))).state
            ≠ BUCKET_UNUSED P) →
      find_probe P t (t.ceil - 1) (hash (bucket t.b j).symbol) (bucket t.b j).symbol fuel i
        = some (bucket t.b j) := by
  have hlj := (is_live_iff P _).mp hl
  intro fuel
  induction fuel with
  | zero => rintro i ⟨k, hk, _⟩; omega
  | succ n ih =>
    rintro i ⟨k, hk, hpk, hbefore⟩
    rw [find_probe]
    cases k with
    | zero =>
      simp only [Nat.add_zero] at hpk
      simp [hpk, hlj.1, hlj.2]
    | succ k =>
      have h0 := hbefore 0 (by omega)
      simp only [Nat.add_zero] at h0
      have hrec : find_probe P t (t.ceil - 1) (hash (bucket t.b j).symbol)
          (bucket t.b j).symbol n (i + 1) = some (bucket t.b j) := by
        apply ih
        refine ⟨k, by omega, ?_, ?_⟩
        · rw [show i + 1 + k = i + (k + 1) by omega]; exact hpk
        · intro k' hk'
          have := hbefore (k' + 1) (by omega)
          rwa [show i + (k' + 1) = i + 1 + k' by omega] at this
      simp only [h0, if_false]
      split_ifs with htomb hsym
      · exact hrec
      · have hlive : is_live P (bucket t.b (probe (hash (bucket t.b j).symbol) (t.ceil - 1) i))
            = true := (is_live_iff P _).mpr ⟨h0, htomb⟩
        have hlt : probe (hash (bucket t.b j).symbol) (t.ceil - 1) i < t.ceil :=
          probe_lt _ _ t.ceil (by omega)
        have := hd _ j (by rw [hlen]; exact hlt) (by rw [hlen]; exact hj) hlive hl hsym
        rw [this]
      · exact hrec

/-- The lookup loop fails when no record on the probe sequence carries the symbol. -/
theorem find_probe_miss (P : Platform) (t : edge_set) (mask h symbol : Nat)
    (hno : ∀ i, is_live P (bucket t.b (probe h mask i)) = true →
      (bucket t.b (probe h mask i)).symbol ≠ symbol) :
    ∀ fuel i, find_probe P t mask h symbol fuel i = none := by
  intro fuel
  induction fuel with
  | zero => intro i; rfl
  | succ n ih =>
    intro i
    rw [find_probe]
    simp only [ih]
    split_ifs with h1 h2 h3
    · rfl
    · rfl
    · exact absurd h3 (hno _ ((is_live_iff P _).mpr ⟨h1, h2⟩))
    · rfl

/-- Whatever the lookup loop returns is a record with the symbol looked up. -/
theorem find_probe_sound (P : Platform) (t : edge_set) (mask h symbol : Nat) :
    ∀ fuel i e, find_probe P t mask h symbol fuel i = some e →
      ∃ x, e = bucket t.b x ∧ is_live P e = true ∧ e.symbol = symbol := by
  intro fuel
  induction fuel with
  | zero => intro i e h; simp [find_probe] at h
  | succ n ih =>
    intro i e h
    rw [find_probe] at h
    split_ifs at h with h1 h2 h3
    · exact ih _ _ h
    · injection h with h
      subst h
      exact ⟨_, rfl, (is_live_iff P _).mpr ⟨h1, h2⟩, h3⟩
    · exact ih _ _ h

/-- The insertion loop takes the first bucket of the probe sequence that holds no
record, when there is one within the iterations left. -/
theorem add_probe_spec (P : Platform) (t : edge_set) (mask h symbol state : Nat) :
    ∀ fuel i,
      (∃ k, k < fuel ∧ is_live P (bucket t.b (probe h mask (i + k))) = false) →
      ∃ k, k < fuel ∧ is_live P (bucket t.b (probe h mask (i + k))) = false ∧
        (∀ k', k' < k → is_live P (bucket t.b (probe h mask (i + k'))) = true) ∧
        add_probe P t mask h symbol state fuel i
          = some { t with b := t.b.set (probe h mask (i + k)) { state := state, symbol := symbol },
                          count := t.count + 1 } := by
  intro fuel
  induction fuel with
  | zero => rintro i ⟨k, hk, _⟩; omega
  | succ n ih =>
    rintro i ⟨k, hk, hfree⟩
    rw [add_probe]
    by_cases hl : is_live P (bucket t.b (probe h mask i)) = true
    · have hl' := (is_live_iff P _).mp hl
      have hk0 : k ≠ 0 := by
        rintro rfl
        simp [hl] at hfree
      obtain ⟨k1, hk1, hf1, hb1, heq⟩ := ih (i + 1) ⟨k - 1, by omega, by
        rwa [show i + 1 + (k - 1) = i + k by omega]⟩
      refine ⟨k1 + 1, by omega, ?_, ?_, ?_⟩
      · rwa [show i + (k1 + 1) = i + 1 + k1 by omega]
      · intro k' hk'
        cases k' with
        | zero => simpa using hl
        | succ k' =>
          have := hb1 k' (by omega)
          rwa [show i + (k' + 1) = i + 1 + k' by omega]
      · simp only [hl'.1, hl'.2, ne_eq, not_false_eq_true, and_self, if_true]
        rw [heq, show i + (k1 + 1) = i + 1 + k1 by omega]
    · have hl2 : is_live P (bucket t.b (probe h mask i)) = false := by simpa using hl
      refine ⟨0, by omega, by simpa using hl2, by intro k' hk'; omega, ?_⟩
      have hl' := (is_live_false_iff P _).mp hl2
      have : ¬ ((bucket t.b (probe h mask i)).state ≠ BUCKET_UNUSED P ∧
          (bucket t.b (probe h mask i)).state ≠ BUCKET_TOMBSTONE P) := by tauto
      simp only [this, if_false, Nat.add_zero]

/-- The rehash loop takes the first unused bucket of the probe sequence. -/
theorem grow_insert_spec (P : Platform) (nmask h : Nat) (e : fsm_edge) (nb : List fsm_edge) :
    ∀ fuel i,
      (∃ k, k < fuel ∧ (bucket nb (probe h nmask (i + k))).state = BUCKET_UNUSED P) →
      ∃ k, k < fuel ∧ (bucket nb (probe h nmask (i + k))).state = BUCKET_UNUSED P ∧
        (∀ k', k' < k → (bucket nb (probe h nmask (i + k'))).state ≠ BUCKET_UNUSED P) ∧
        grow_insert P nmask h e nb fuel i
          = nb.set (probe h nmask (i + k)) { state := e.state, symbol := e.symbol } := by
  intro fuel
  induction fuel with
  | zero => rintro i ⟨k, hk, _⟩; omega
  | succ n ih =>
    rintro i ⟨k, hk, hfree⟩
    rw [grow_insert]
    by_cases hl : (bucket nb (probe h nmask i)).state = BUCKET_UNUSED P
    · refine ⟨0, by omega, by simpa using hl, by intro k' hk'; omega, ?_⟩
      simp [hl]
    · have hk0 : k ≠ 0 := by
        rintro rfl
        simp [hl] at hfree
      obtain ⟨k1, hk1, hf1, hb1, heq⟩ := ih (i + 1) ⟨k - 1, by omega, by
        rwa [show i + 1 + (k - 1) = i + k by omega]⟩
      refine ⟨k1 + 1, by omega, ?_, ?_, ?_⟩
      · rwa [show i + (k1 + 1) = i + 1 + k1 by omega]
      · intro k' hk'
        cases k' with
        | zero => simpa using hl
        | succ k' =>
          have := hb1 k' (by omega)
          rwa [show i + (k' + 1) = i + 1 + k' by omega]
      · simp only [hl, ne_eq, not_false_eq_true, if_true]
        rw [heq, show i + (k1 + 1) = i + 1 + k1 by omega]

/-! ## Growth and insertion keep the table well formed -/

theorem map_bucket_range (b : List fsm_edge) : (List.range b.length).map (bucket b) = b := by
  apply List.ext_getElem
  · simp
  · intro n h1 h2
    simp only [List.getElem_map, List.getElem_range]
    exact bucket_eq_getElem b h2

/-- A `for` loop over the indices of `b` that only reads `b[i]` is a fold over `b`. -/
theorem foldl_range_bucket {β : Type} (f : β → fsm_edge → β) (b : List fsm_edge) (a : β) :
    (List.range b.length).foldl (fun acc i => f acc (bucket b i)) a = b.foldl f a := by
  conv_rhs => rw [← map_bucket_range b]
  rw [List.foldl_map]

theorem grow_step_eq (P : Platform) (ob : List fsm_edge) (nceil : Nat) :
    grow_step P ob nceil = fun nb o_i => grow_body P nceil nb (bucket ob o_i) := by
  funext nb o_i
  rfl

theorem live_records_replicate_unused (P : Platform) (n : Nat) :
    live_records P (List.replicate n (unused_bucket P)) = [] := by
  unfold live_records
  rw [List.filter_eq_nil_iff]
  intro a ha
  rw [List.eq_of_mem_replicate ha]
  simp [is_live, unused_bucket]

theorem state_unused_of_dead (P : Platform) (b : List fsm_edge)
    (hnt : ∀ e ∈ b, e.state ≠ BUCKET_TOMBSTONE P) {j : Nat} (hj : j < b.length)
    (hd : is_live P (bucket b j) = false) : (bucket b j).state = BUCKET_UNUSED P := by
  rcases (is_live_false_iff P _).mp hd with h | h
  · exact h
  · exact absurd h (hnt _ (bucket_mem b hj))

theorem no_tombstone_set (P : Platform) (b : List fsm_edge) (p : Nat) (e : fsm_edge)
    (hnt : ∀ x ∈ b, x.state ≠ BUCKET_TOMBSTONE P) (he : e.state ≠ BUCKET_TOMBSTONE P) :
    ∀ x ∈ b.set p e, x.state ≠ BUCKET_TOMBSTONE P := by
  intro x hx
  rcases List.mem_or_eq_of_mem_set hx with h | h
  · exact hnt x h
  · rw [h]; exact he

/-- The rehash loop moves every record of the old buckets into the new array. -/
theorem grow_fold_spec (P : Platform) (nceil k : Nat) (hpow : nceil = 2 ^ k) :
    ∀ (rest nb L : List fsm_edge),
      nb.length = nceil →
      (∀ e ∈ nb, e.state ≠ BUCKET_TOMBSTONE P) →
      probe_chain P nb nceil →
      (live_records P nb).Perm L →
      L.length + rest.length < nceil →
      (rest.foldl (grow_body P nceil) nb).length = nceil ∧
      (∀ e ∈ rest.foldl (grow_body P nceil) nb, e.state ≠ BUCKET_TOMBSTONE P) ∧
      probe_chain P (rest.foldl (grow_body P nceil) nb) nceil ∧
      (live_records P (rest.foldl (grow_body P nceil) nb)).Perm (live_records P rest ++ L) := by
  intro rest
  induction rest with
  | nil =>
    intro nb L hlen hnt hc hperm _
    exact ⟨hlen, hnt, hc, by simpa [live_records] using hperm⟩
  | cons e rest ih =>
    intro nb L hlen hnt hc hperm hsize
    rw [List.foldl_cons]
    by_cases hlive : is_live P e = true
    · have hle := (is_live_iff P e).mp hlive
      have hcount : (live_records P nb).length < nb.length := by
        rw [hperm.length_eq, hlen]
        simp only [List.length_cons] at hsize
        omega
      obtain ⟨j, hj, hdead⟩ := exists_dead_of_count_lt P nb hcount
      have hun := state_unused_of_dead P nb hnt hj hdead
      obtain ⟨i, hi, hij⟩ := probe_surjective (hash e.symbol) k (j := j) (by omega)
      rw [← hpow] at hi hij
      obtain ⟨k1, hk1, hf1, hb1, heq⟩ := grow_insert_spec P (nceil - 1) (hash e.symbol) e nb
        nceil 0 ⟨i, hi, by rw [Nat.zero_add, hij]; exact hun⟩
      simp only [Nat.zero_add] at hf1 hb1 heq
      have hbody : grow_body P nceil nb e
          = nb.set (probe (hash e.symbol) (nceil - 1) k1) e := by
        unfold grow_body
        rw [if_neg (by tauto), heq]
      have hp : probe (hash e.symbol) (nceil - 1) k1 < nceil := probe_lt _ _ nceil (by omega)
      have hdead1 : is_live P (bucket nb (probe (hash e.symbol) (nceil - 1) k1)) = false :=
        (is_live_false_iff P _).mpr (Or.inl hf1)
      have hperm1 := live_records_set_of_dead P nb e (by omega) hdead1 hlive
      obtain ⟨r1, r2, r3, r4⟩ := ih (nb.set (probe (hash e.symbol) (nceil - 1) k1) e) (e :: L)
        (by simpa using hlen)
        (no_tombstone_set P nb _ e hnt hle.2)
        (probe_chain_set P nb nceil _ e hlen hp hc hle.1 (fun _ => ⟨k1, hk1, rfl, hb1⟩))
        (hperm1.trans (List.Perm.cons e hperm))
        (by simp only [List.length_cons] at hsize ⊢; omega)
      rw [hbody]
      refine ⟨r1, r2, r3, r4.trans ?_⟩
      have : live_records P (e :: rest) = e :: live_records P rest := by
        simp [live_records, List.filter_cons, hlive]
      rw [this]
      simp
    · have hdead : is_live P e = false := by simpa using hlive
      have hbody : grow_body P nceil nb e = nb := by
        unfold grow_body
        rw [if_pos ((is_live_false_iff P e).mp hdead)]
      obtain ⟨r1, r2, r3, r4⟩ := ih nb L hlen hnt hc hperm
        (by simp only [List.length_cons] at hsize; omega)
      rw [hbody]
      refine ⟨r1, r2, r3, ?_⟩
      have : live_records P (e :: rest) = live_records P rest := by
        simp [live_records, List.filter_cons, hdead]
      rw [this]
      exact r4

theorem even_of_pow_big {c : Nat} (hpow : ∃ k, c = 2 ^ k) (hbig : SET_INITIAL ≤ c) :
    ∃ m, c = 2 * m := by
  obtain ⟨k, rfl⟩ := hpow
  cases k with
  | zero => simp [SET_INITIAL] at hbig
  | succ k => exact ⟨2 ^ k, by rw [Nat.pow_succ]; omega⟩

/-- A fresh table stays fresh when `grow_buckets` doubles it, with the same records. -/
theorem grow_buckets_fresh (P : Platform) (hP : 0 < P.state_bits) (t : edge_set)
    (hf : fresh_table P t) :
    ∃ t', grow_buckets P true t = some t' ∧ fresh_table P t' ∧
      (live_records P t'.b).Perm (live_records P t.b) ∧
      t'.ceil = 2 * t.ceil ∧ t'.count = t.count := by
  obtain ⟨k, hk⟩ := hf.pow
  have hbig := hf.big
  unfold SET_INITIAL at hbig
  have hpow2 : 2 * t.ceil = 2 ^ (k + 1) := by rw [Nat.pow_succ, hk]; omega
  have hfold : (List.range t.ceil).foldl (grow_step P t.b (2 * t.ceil))
      (List.replicate (2 * t.ceil) (unused_bucket P))
      = t.b.foldl (grow_body P (2 * t.ceil)) (List.replicate (2 * t.ceil) (unused_bucket P)) := by
    rw [grow_step_eq, ← hf.len]
    exact foldl_range_bucket (grow_body P (2 * t.b.length)) t.b _
  obtain ⟨r1, r2, r3, r4⟩ := grow_fold_spec P (2 * t.ceil) (k + 1) hpow2 t.b
    (List.replicate (2 * t.ceil) (unused_bucket P)) []
    (by simp)
    (by
      intro e he
      rw [List.eq_of_mem_replicate he]
      exact unused_ne_tombstone P hP)
    (by
      intro j hj hl
      have hj' : j < (List.replicate (2 * t.ceil) (unused_bucket P)).length := by simpa using hj
      have hmem := bucket_mem _ hj'
      rw [List.eq_of_mem_replicate hmem] at hl
      simp [is_live, unused_bucket] at hl)
    (by rw [live_records_replicate_unused])
    (by simp only [List.length_nil, Nat.zero_add]; rw [hf.len]; omega)
  simp only [List.append_nil] at r4
  refine ⟨{ b := (List.range t.ceil).foldl (grow_step P t.b (2 * t.ceil))
                 (List.replicate (2 * t.ceil) (unused_bucket P)),
            count := t.count, ceil := 2 * t.ceil },
    by simp only [grow_buckets, if_true], ?_, ?_, rfl, rfl⟩
  · refine { len := ?_, pow := ⟨k + 1, hpow2⟩, cnt := ?_, chain := ?_,
             no_tombstone := ?_, half := ?_, big := ?_ }
    · show List.length (List.foldl _ _ _) = _
      rw [hfold]; exact r1
    · show _ = List.length (live_records P (List.foldl _ _ _))
      rw [hfold, r4.length_eq]; exact hf.cnt
    · show probe_chain P (List.foldl _ _ _) _
      rw [hfold]; exact r3
    · show ∀ e ∈ List.foldl _ _ _, _
      rw [hfold]; exact r2
    · show 2 * t.count ≤ 2 * t.ceil
      have := hf.half
      omega
    · show SET_INITIAL ≤ 2 * t.ceil
      unfold SET_INITIAL; omega
  · show List.Perm (live_records P (List.foldl _ _ _)) _
    rw [hfold]; exact r4

/-- Insertion into a fresh table with room left. -/
theorem add_probe_fresh (P : Platform) (t : edge_set) (hf : fresh_table P t)
    (hroom : 2 * t.count < t.ceil) (symbol state : Nat) (hv : valid_state P state) :
    ∃ t', add_probe P t (t.ceil - 1) (hash symbol) symbol state t.ceil 0 = some t' ∧
      fresh_table P t' ∧
      (live_records P t'.b).Perm ({ state := state, symbol := symbol } :: live_records P t.b) ∧
      t'.ceil = t.ceil ∧ t'.count = t.count + 1 := by
  obtain ⟨k, hk⟩ := hf.pow
  have hlive := is_live_of_valid P (s := symbol) hv
  have hcount : (live_records P t.b).length < t.b.length := by
    rw [← hf.cnt, hf.len]; omega
  obtain ⟨j, hj, hdead⟩ := exists_dead_of_count_lt P t.b hcount
  obtain ⟨i, hi, hij⟩ := probe_surjective (hash symbol) k (j := j) (by rw [← hk, ← hf.len]; exact hj)
  rw [← hk] at hi hij
  obtain ⟨k1, hk1, hf1, hb1, heq⟩ := add_probe_spec P t (t.ceil - 1) (hash symbol) symbol state
    t.ceil 0 ⟨i, hi, by rw [Nat.zero_add, hij]; exact hdead⟩
  simp only [Nat.zero_add] at hf1 hb1 heq
  have hp : probe (hash symbol) (t.ceil - 1) k1 < t.ceil := probe_lt _ _ t.ceil (by omega)
  have hperm := live_records_set_of_dead P t.b { state := state, symbol := symbol }
    (by rw [hf.len]; exact hp) hf1 hlive
  obtain ⟨m, hm⟩ := even_of_pow_big hf.pow hf.big
  refine ⟨_, heq, ?_, hperm, rfl, rfl⟩
  refine { len := ?_, pow := hf.pow, cnt := ?_, chain := ?_,
           no_tombstone := ?_, half := ?_, big := hf.big }
  · simpa using hf.len
  · show t.count + 1 = _
    rw [hperm.length_eq, List.length_cons, hf.cnt]
  · exact probe_chain_set P t.b t.ceil _ _ hf.len hp hf.chain (valid_state_ne_unused P hv)
      (fun _ => ⟨k1, hk1, rfl, fun i' hi' => ((is_live_iff P _).mp (hb1 i' hi')).1⟩)
  · exact no_tombstone_set P t.b _ _ hf.no_tombstone (valid_state_ne_tombstone P hv)
  · show 2 * (t.count + 1) ≤ t.ceil
    omega

/-- Adding to a fresh table succeeds and keeps it fresh; the new record joins the old. -/
theorem edge_set_add_table_fresh (P : Platform) (hP : 0 < P.state_bits) (t : edge_set)
    (hf : fresh_table P t) (symbol state : Nat) (hv : valid_state P state) :
    ∃ t', edge_set_add_table P true t symbol state = (1, t') ∧ fresh_table P t' ∧
      (live_records P t'.b).Perm ({ state := state, symbol := symbol } :: live_records P t.b) ∧
      t'.count = t.count + 1 ∧
      ((t.ceil = SET_INITIAL ∨ t.ceil < 4 * t.count) →
        (t'.ceil = SET_INITIAL ∨ t'.ceil < 4 * t'.count)) := by
  obtain ⟨m, hm⟩ := even_of_pow_big hf.pow hf.big
  have hbig := hf.big
  have hhalf := hf.half
  unfold SET_INITIAL at hbig
  by_cases hfull : t.count = t.ceil / 2
  · obtain ⟨t1, hg, hf1, hperm1, hceil1, hcount1⟩ := grow_buckets_fresh P hP t hf
    obtain ⟨t2, ha, hf2, hperm2, hceil2, hcount2⟩ := add_probe_fresh P t1 hf1
      (by rw [hceil1, hcount1]; omega) symbol state hv
    refine ⟨t2, ?_, hf2, hperm2.trans (List.Perm.cons _ hperm1), by omega, ?_⟩
    · simp only [edge_set_add_table, hfull, if_true, hg, ha]
    · intro _
      right
      omega
  · obtain ⟨t2, ha, hf2, hperm2, hceil2, hcount2⟩ := add_probe_fresh P t hf
      (by omega) symbol state hv
    refine ⟨t2, ?_, hf2, hperm2, hcount2, ?_⟩
    · simp only [edge_set_add_table, hfull, if_false, ha]
    · intro h
      rcases h with h | h
      · left; omega
      · right; omega

/-! ## Sets built by inserts -/

theorem fresh_table_create (P : Platform) (hP : 0 < P.state_bits) :
    fresh_table P { b := List.replicate SET_INITIAL (unused_bucket P), count := 0,
                    ceil := SET_INITIAL } := by
  refine { len := by simp, pow := ⟨3, rfl⟩, cnt := ?_, chain := ?_,
           no_tombstone := ?_, half := by simp, big := le_refl _ }
  · simp [live_records_replicate_unused]
  · intro j hj hl
    have hj' : j < (List.replicate SET_INITIAL (unused_bucket P)).length := by simpa using hj
    have hmem := bucket_mem _ hj'
    simp only at hl
    rw [List.eq_of_mem_replicate hmem] at hl
    simp [is_live, unused_bucket] at hl
  · intro e he
    rw [List.eq_of_mem_replicate he]
    exact unused_ne_tombstone P hP

theorem edge_set_add_ne_null (P : Platform) (set : edge_set_ptr) (symbol state : Nat) :
    (edge_set_add P true set symbol state).2 ≠ .null := by
  cases set with
  | null => simp [edge_set_add]
  | singleton ptr =>
    simp only [edge_set_add, edge_set_create, if_true]
    split_ifs <;> simp
  | table t => simp [edge_set_add]

/-- One insert into a set built by inserts.  Only an insert into the Empty set boxes
the record, and only then must the destination fit the payload. -/
theorem edge_set_add_represents (P : Platform) (set : edge_set_ptr) (L : List fsm_edge)
    (hL : ∀ x ∈ L, valid_edge P x) (hr : represents P set L) (e : fsm_edge)
    (he : valid_edge P e)
    (hbox : set = .null →
      CHAR_BIT + 1 ≤ P.uintptr_bits ∧ e.state ≤ SINGLETON_MAX_STATE P) :
    (edge_set_add P true set e.symbol e.state).1 = 1 ∧
      represents P (edge_set_add P true set e.symbol e.state).2 (e :: L) := by
  have hsb : 0 < P.state_bits := by
    have := state_bits_of_valid P he.2
    omega
  cases set with
  | null =>
    obtain ⟨hU, hmax⟩ := hbox rfl
    simp only [represents] at hr
    subst hr
    simp only [edge_set_add, represents, true_and]
    rw [singleton_decode_state_encode P hU he.1 (valid_state_lt P he.2) hmax,
      singleton_decode_symbol_encode P hU he.1 hmax]
  | singleton ptr =>
    simp only [represents] at hr
    have hprev : valid_edge P ⟨SINGLETON_DECODE_STATE P ptr, SINGLETON_DECODE_SYMBOL ptr⟩ :=
      hL _ (by rw [hr]; simp)
    obtain ⟨t1, h1, hf1, hp1, hc1, ht1⟩ := edge_set_add_table_fresh P hsb _
      (fresh_table_create P hsb) (SINGLETON_DECODE_SYMBOL ptr) _ hprev.2
    obtain ⟨t2, h2, hf2, hp2, hc2, ht2⟩ := edge_set_add_table_fresh P hsb t1 hf1
      e.symbol _ he.2
    simp only [edge_set_add, edge_set_create, if_true, h1, h2, represents, true_and]
    norm_num
    refine ⟨hf2, ?_, by simp only at hc1; omega, ht2 (ht1 (Or.inl rfl))⟩
    refine hp2.trans (List.Perm.cons _ ?_)
    rw [hr]
    simpa [live_records_replicate_unused] using hp1
  | table t =>
    simp only [represents] at hr
    obtain ⟨hf, hperm, h2, htight⟩ := hr
    obtain ⟨t1, h1, hf1, hp1, hc1, ht1⟩ := edge_set_add_table_fresh P hsb t hf
      e.symbol _ he.2
    simp only [edge_set_add, h1, represents, true_and]
    exact ⟨hf1, hp1.trans (List.Perm.cons _ hperm), by omega, ht1 htight⟩

/-- Successive inserts into a set built by inserts; the destination of the first record
must fit the payload of a boxed singleton when the set is Empty. -/
theorem add_all_represents (P : Platform) :
    ∀ (es : List fsm_edge) (set : edge_set_ptr) (L : List fsm_edge),
      (∀ x ∈ L, valid_edge P x) → (∀ x ∈ es, valid_edge P x) →
      (set = .null → CHAR_BIT + 1 ≤ P.uintptr_bits ∧
        ∀ x ∈ es.head?, x.state ≤ SINGLETON_MAX_STATE P) →
      represents P set L →
      (add_all P true set es).1 = List.replicate es.length 1 ∧
        represents P (add_all P true set es).2 (es.reverse ++ L) := by
  intro es
  induction es with
  | nil => intro set L _ _ _ hr; exact ⟨rfl, by simpa using hr⟩
  | cons e es ih =>
    intro set L hL hes hbox hr
    have he : valid_edge P e := hes e (by simp)
    obtain ⟨h1, h2⟩ := edge_set_add_represents P set L hL hr e he
      (fun h => ⟨(hbox h).1, (hbox h).2 e (by simp)⟩)
    obtain ⟨h3, h4⟩ := ih (edge_set_add P true set e.symbol e.state).2 (e :: L)
      (by
        intro x hx
        rcases List.mem_cons.mp hx with h | h
        · rw [h]; exact he
        · exact hL x h)
      (fun x hx => hes x (by simp [hx]))
      (fun h => absurd h (edge_set_add_ne_null P set e.symbol e.state)) h2
    constructor
    · simp only [add_all, h1, h3, List.length_cons, List.replicate_succ]
    · simpa [add_all] using h4

/-! ## Lookup, count and iteration on a well-formed table -/

theorem mem_live_records_iff (P : Platform) (b : List fsm_edge) (e : fsm_edge) :
    e ∈ live_records P b ↔ e ∈ b ∧ is_live P e = true := by
  simp [live_records]

/-- On a well-formed table with distinct symbols, `edge_set_find` returns the record
of the symbol. -/
theorem table_find_hit (P : Platform) (t : edge_set) (hok : table_ok P t)
    (hd : distinct_symbols P t.b) {e : fsm_edge} (he : e ∈ live_records P t.b) :
    edge_set_find P (.table t) e.symbol = some e := by
  obtain ⟨hmem, hlive⟩ := (mem_live_records_iff P t.b e).mp he
  obtain ⟨j, hj, hbj⟩ := exists_index_of_mem t.b hmem
  have hcount : t.count ≠ 0 := by
    rw [hok.cnt]
    exact List.length_pos.mp (List.length_pos_of_mem he) |> fun h => by
      intro h0; exact h (List.length_eq_zero.mp h0)
  rw [hok.len] at hj
  rw [← hbj] at hlive
  obtain ⟨i, hi, hij, hbefore⟩ := hok.chain j hj hlive
  have := find_probe_hit P t hok.len hd hj hlive t.ceil 0
    ⟨i, hi, by rw [Nat.zero_add]; exact hij, by intro k' hk'; rw [Nat.zero_add]; exact hbefore k' hk'⟩
  rw [hbj] at this
  simp only [edge_set_find, edge_set_empty, hcount, decide_False, Bool.false_eq_true, if_false]
  exact this

/-- When no record carries the symbol, `edge_set_find` on a table returns 0. -/
theorem table_find_miss (P : Platform) (t : edge_set) (hlen : t.b.length = t.ceil)
    (hpos : 0 < t.ceil) (symbol : Nat)
    (hno : ∀ e ∈ live_records P t.b, e.symbol ≠ symbol) :
    edge_set_find P (.table t) symbol = none := by
  have := find_probe_miss P t (t.ceil - 1) (hash symbol) symbol (by
    intro i hl
    apply hno
    rw [mem_live_records_iff]
    exact ⟨bucket_mem _ (by rw [hlen]; exact probe_lt _ _ t.ceil hpos), hl⟩) t.ceil 0
  simp only [edge_set_find, this]
  split_ifs <;> rfl

theorem slots_from_succ (t : edge_set) (i n : Nat) :
    slots_from t i (n + 1) = bucket t.b i :: slots_from t (i + 1) n := by
  simp [slots_from, List.range'_succ]

theorem slots_from_zero_eq (t : edge_set) (hlen : t.b.length = t.ceil) :
    slots_from t 0 t.ceil = t.b := by
  unfold slots_from
  rw [← List.range_eq_range', ← hlen]
  exact map_bucket_range t.b

/-- A cursor on a table at index `i` visits the records of the buckets from `i` on, in
bucket order. -/
theorem iterate_table_from (P : Platform) (t : edge_set) :
    ∀ n i fuel, i + n = t.ceil → (live_records P (slots_from t i n)).length < fuel →
      iterate_from P fuel { i := i, set := .table t } = live_records P (slots_from t i n) := by
  intro n
  induction n with
  | zero =>
    intro i fuel hi hfuel
    cases fuel with
    | zero => simp at hfuel
    | succ f =>
      have : t.ceil - i = 0 := by omega
      simp [iterate_from, edge_set_next, this, next_scan, live_records, slots_from]
  | succ n ih =>
    intro i fuel hi hfuel
    have hfuel1 : t.ceil - i = n + 1 := by omega
    have hfuel2 : t.ceil - (i + 1) = n := by omega
    rw [slots_from_succ] at hfuel ⊢
    cases fuel with
    | zero => simp at hfuel
    | succ f =>
      by_cases hl : is_live P (bucket t.b i) = true
      · have hl' := (is_live_iff P _).mp hl
        have hlr : live_records P (bucket t.b i :: slots_from t (i + 1) n)
            = bucket t.b i :: live_records P (slots_from t (i + 1) n) := by
          simp [live_records, List.filter_cons, hl]
        rw [hlr] at hfuel ⊢
        have hnext : edge_set_next P { i := i, set := .table t }
            = ({ i := i + 1, set := .table t }, some (bucket t.b i)) := by
          simp only [edge_set_next, hfuel1, next_scan]
          rw [if_pos (by omega), if_neg (by tauto)]
        rw [iterate_from, hnext]
        simp only
        rw [ih (i + 1) f (by omega) (by simpa using hfuel)]
      · have hl2 : is_live P (bucket t.b i) = false := by simpa using hl
        have hl' := (is_live_false_iff P _).mp hl2
        have hlr : live_records P (bucket t.b i :: slots_from t (i + 1) n)
            = live_records P (slots_from t (i + 1) n) := by
          simp [live_records, List.filter_cons, hl2]
        rw [hlr] at hfuel ⊢
        have hnext : edge_set_next P { i := i, set := .table t }
            = edge_set_next P { i := i + 1, set := .table t } := by
          simp only [edge_set_next, hfuel1, hfuel2]
          rw [next_scan, if_pos (by omega), if_pos hl']
        have := ih (i + 1) (f + 1) (by omega) hfuel
        rw [iterate_from] at this ⊢
        rw [hnext]
        exact this

/-- A fresh cursor on a table visits the records of the `ceil` buckets, in order. -/
theorem edge_set_iterate_slots (P : Platform) (t : edge_set) :
    edge_set_iterate P (.table t) = live_records P (slots_from t 0 t.ceil) := by
  have := iterate_table_from P t t.ceil 0 (t.ceil + 1) (by omega) (by
    have h1 : (live_records P (slots_from t 0 t.ceil)).length ≤ (slots_from t 0 t.ceil).length :=
      List.length_filter_le _ _
    have h2 : (slots_from t 0 t.ceil).length = t.ceil := by simp [slots_from]
    omega)
  simpa [edge_set_iterate, iterate_bound, edge_set_reset] using this

theorem edge_set_iterate_table (P : Platform) (t : edge_set) (hlen : t.b.length = t.ceil) :
    edge_set_iterate P (.table t) = live_records P t.b := by
  rw [edge_set_iterate_slots, slots_from_zero_eq t hlen]

theorem edge_set_iterate_singleton (P : Platform) (ptr : Nat) :
    edge_set_iterate P (.singleton ptr)
      = [{ state := SINGLETON_DECODE_STATE P ptr, symbol := SINGLETON_DECODE_SYMBOL ptr }] := by
  simp [edge_set_iterate, iterate_bound, edge_set_reset, iterate_from, edge_set_next]

theorem edge_set_iterate_null (P : Platform) : edge_set_iterate P .null = [] := by
  simp [edge_set_iterate, iterate_bound, edge_set_reset, iterate_from, edge_set_next]

/-! ## Queries on sets built by inserts -/

theorem represents_count (P : Platform) (set : edge_set_ptr) (L : List fsm_edge)
    (hr : represents P set L) : edge_set_count set = L.length := by
  cases set with
  | null => simp only [represents] at hr; subst hr; rfl
  | singleton ptr => simp only [represents] at hr; subst hr; rfl
  | table t =>
    simp only [represents] at hr
    simp only [edge_set_count]
    rw [hr.1.cnt, hr.2.1.length_eq]

theorem represents_iterate (P : Platform) (set : edge_set_ptr) (L : List fsm_edge)
    (hr : represents P set L) : (edge_set_iterate P set).Perm L := by
  cases set with
  | null => simp only [represents] at hr; subst hr; rw [edge_set_iterate_null]
  | singleton ptr =>
    simp only [represents] at hr; subst hr; rw [edge_set_iterate_singleton]
  | table t =>
    simp only [represents] at hr
    rw [edge_set_iterate_table P t hr.1.len]
    exact hr.2.1

/-! ## Removal from a fresh table -/

theorem size_dec_pos {P : Platform} {n : Nat} (h : n ≠ 0) : size_dec P n = n - 1 := by
  simp [size_dec, h]

/-- A set built from Empty by inserts of valid records holds the records inserted when
the destination of the first, the one that is boxed, is at most `SINGLETON_MAX_STATE`. -/
theorem represents_add_all_null (P : Platform) (hU : CHAR_BIT + 1 ≤ P.uintptr_bits)
    (es : List fsm_edge) (hvalid : ∀ e ∈ es, valid_edge P e)
    (hfit : ∀ e ∈ es.head?, e.state ≤ SINGLETON_MAX_STATE P) :
    (add_all P true .null es).1 = List.replicate es.length 1 ∧
      represents P (add_all P true .null es).2 es.reverse := by
  have := add_all_represents P es .null [] (by simp) hvalid
    (fun _ => ⟨hU, hfit⟩) (by simp [represents])
  simpa using this

/-- Whatever the widths and the destinations, a set built from Empty by inserts of
valid records holds as many valid records as were inserted: the first record is the
one the boxed singleton gives back, the others are the records inserted. -/
theorem represents_add_all_some (P : Platform) (es : List fsm_edge)
    (hvalid : ∀ e ∈ es, valid_edge P e) :
    (add_all P true .null es).1 = List.replicate es.length 1 ∧
    ∃ L, (∀ x ∈ L, valid_edge P x) ∧ L.length = es.length ∧
      represents P (add_all P true .null es).2 L := by
  cases es with
  | nil => exact ⟨rfl, [], by simp, rfl, by simp [add_all, represents]⟩
  | cons e rest =>
    have he := hvalid e (by simp)
    have hb : valid_edge P
        { state := SINGLETON_DECODE_STATE P (SINGLETON_ENCODE P e.symbol e.state),
          symbol := SINGLETON_DECODE_SYMBOL (SINGLETON_ENCODE P e.symbol e.state) } :=
      ⟨singleton_decode_symbol_lt _, valid_boxed P he.1 he.2⟩
    obtain ⟨h1, h2⟩ := add_all_represents P rest
      (.singleton (SINGLETON_ENCODE P e.symbol e.state)) [_]
      (by intro x hx; rw [List.mem_singleton.mp hx]; exact hb)
      (fun x hx => hvalid x (by simp [hx])) (fun h => by cases h) (by simp only [represents])
    refine ⟨by simp only [add_all, edge_set_add, h1, List.length_cons, List.replicate_succ],
      _, ?_, ?_, h2⟩
    · intro x hx
      rcases List.mem_append.mp hx with h | h
      · exact hvalid x (by simp [List.mem_reverse.mp h])
      · rw [List.mem_singleton.mp h]; exact hb
    · simp

/-! ## Claims about inserts, lookups and removals -/

theorem live_records_set_dead (P : Platform) (b : List fsm_edge) {j : Nat} (e : fsm_edge)
    (h : j < b.length) (hold : is_live P (bucket b j) = false) (hnew : is_live P e = false) :
    live_records P (b.set j e) = live_records P b := by
  have hb := list_split_at b h
  have hs := set_split_at b e h
  unfold live_records
  rw [hs]
  conv_rhs => rw [hb]
  simp only [List.filter_append, List.filter_cons, hold, hnew, Bool.false_eq_true, if_false]

/-- Removal right after an insertion: when `symbol` was put into the first bucket `p`
without a record on its probe sequence, with a state other than the unused marker, and
no record before `p` carries `symbol`, the removal loop reaches `p` and marks it. -/
theorem remove_probe_after_add (P : Platform) (t : edge_set) (mask h symbol e c k : Nat)
    (hp : probe h mask k < t.b.length)
    (hdead : is_live P (bucket t.b (probe h mask k)) = false)
    (hbefore : ∀ k', k' < k → is_live P (bucket t.b (probe h mask k')) = true ∧
      (bucket t.b (probe h mask k')).symbol ≠ symbol)
    (he : e ≠ BUCKET_UNUSED P) :
    ∀ fuel i, i ≤ k → k < i + fuel →
      remove_probe P
          { b := t.b.set (probe h mask k) { state := e, symbol := symbol }, count := c,
            ceil := t.ceil } mask h symbol fuel i
        = { b := t.b.set (probe h mask k) { state := BUCKET_TOMBSTONE P, symbol := symbol },
            count := size_dec P c, ceil := t.ceil } := by
  intro fuel
  induction fuel with
  | zero => intro i h1 h2; omega
  | succ n ih =>
    intro i h1 h2
    rw [remove_probe]
    by_cases hik : i = k
    · subst hik
      simp only [bucket_set_self t.b _ hp, he, if_false, if_true, List.set_set]
    · have hlt : i < k := by omega
      obtain ⟨hl, hsym⟩ := hbefore i hlt
      have hne : probe h mask k ≠ probe h mask i := by
        intro heq
        rw [heq, hl] at hdead
        cases hdead
      simp only [bucket_set_ne t.b _ hne, ((is_live_iff P _).mp hl).1, hsym, if_false]
      exact ih (i + 1) (by omega) (by omega)

/-- The table left by `add(s,d); add(t,e); remove(t)`, for `e` other than the unused
marker: well formed, with the single record `(s,d)`. -/
theorem table_after_add_add_remove (P : Platform) (hU : CHAR_BIT + 1 ≤ P.uintptr_bits)
    (s d t e : Nat) (hs : s < 256)
    (hd : valid_state P d) (hmax : d ≤ SINGLETON_MAX_STATE P)
    (he : e ≠ BUCKET_UNUSED P) (hts : t ≠ s) :
    ∃ t', edge_set_remove P
        (edge_set_add P true (edge_set_add P true .null s d).2 t e).2 t = .table t' ∧
      table_ok P t' ∧ live_records P t'.b = [⟨d, s⟩] ∧ t'.count = 1 ∧ 0 < t'.ceil := by
  have hsym := singleton_decode_symbol_encode P hU hs hmax
  have hst := singleton_decode_state_encode P hU hs (valid_state_lt P hd) hmax
  have hsb : 0 < P.state_bits := by
    have := state_bits_of_valid P hd
    omega
  -- the table holding `(s,d)` alone
  obtain ⟨t1, h1, hf1, hp1, hc1, _⟩ := edge_set_add_table_fresh P hsb _
    (fresh_table_create P hsb) s d hd
  simp only [live_records_replicate_unused] at hp1
  simp only [Nat.zero_add] at hc1
  have hlive1 : live_records P t1.b = [⟨d, s⟩] := List.perm_singleton.mp hp1
  have hbig := hf1.big
  unfold SET_INITIAL at hbig
  obtain ⟨m, hm⟩ := hf1.pow
  -- the insertion of `(t,e)`
  obtain ⟨j, hj, hdeadj⟩ := exists_dead_of_count_lt P t1.b (by
    rw [← hf1.cnt, hf1.len]; omega)
  obtain ⟨i, hi, hij⟩ := probe_surjective (hash t) m (j := j) (by rw [← hm, ← hf1.len]; exact hj)
  rw [← hm] at hi hij
  obtain ⟨k, hk, hdead, hbefore, hadd⟩ := add_probe_spec P t1 (t1.ceil - 1) (hash t) t e
    t1.ceil 0 ⟨i, hi, by rw [Nat.zero_add, hij]; exact hdeadj⟩
  simp only [Nat.zero_add] at hdead hbefore hadd
  have hp : probe (hash t) (t1.ceil - 1) k < t1.b.length := by
    rw [hf1.len]; exact probe_lt _ _ t1.ceil (by omega)
  have hadd2 : edge_set_add_table P true t1 t e
      = (1, { b := t1.b.set (probe (hash t) (t1.ceil - 1) k) { state := e, symbol := t },
              count := t1.count + 1, ceil := t1.ceil }) := by
    simp only [edge_set_add_table]
    rw [if_neg (by omega)]
    simp only [hadd]
  -- the removal of `t`
  have hrm := remove_probe_after_add P t1 (t1.ceil - 1) (hash t) t e (t1.count + 1) k hp hdead
    (by
      intro k' hk'
      refine ⟨hbefore k' hk', ?_⟩
      have hmem : bucket t1.b (probe (hash t) (t1.ceil - 1) k') ∈ live_records P t1.b := by
        rw [mem_live_records_iff]
        exact ⟨bucket_mem _ (by rw [hf1.len]; exact probe_lt _ _ t1.ceil (by omega)),
          hbefore k' hk'⟩
      rw [hlive1, List.mem_singleton] at hmem
      rw [hmem]
      exact fun h => hts h.symm)
    he t1.ceil 0 (by omega) (by omega)
  have hdeadT : is_live P { state := BUCKET_TOMBSTONE P, symbol := t } = false := by
    simp [is_live]
  refine ⟨{ b := t1.b.set (probe (hash t) (t1.ceil - 1) k)
              { state := BUCKET_TOMBSTONE P, symbol := t },
            count := size_dec P (t1.count + 1), ceil := t1.ceil }, ?_, ?_, ?_, ?_, by
              show 0 < t1.ceil
              omega⟩
  · have hrun : (edge_set_add P true (edge_set_add P true .null s d).2 t e).2
        = .table { b := t1.b.set (probe (hash t) (t1.ceil - 1) k) { state := e, symbol := t },
                   count := t1.count + 1, ceil := t1.ceil } := by
      simp only [edge_set_add, edge_set_create, if_true, hsym, hst, h1, hadd2]
      norm_num
    rw [hrun]
    simp only [edge_set_remove, edge_set_empty, Nat.add_one_ne_zero, decide_False,
      Bool.false_eq_true, if_false]
    rw [hrm]
  · refine { len := by simpa using hf1.len, pow := hf1.pow, cnt := ?_, chain := ?_ }
    · show size_dec P (t1.count + 1) = List.length (live_records P (t1.b.set _ _))
      rw [live_records_set_dead P t1.b _ hp hdead hdeadT, size_dec_pos (by omega), ← hf1.cnt]
      rfl
    · exact probe_chain_set P t1.b t1.ceil _ _ hf1.len (probe_lt _ _ t1.ceil (by omega))
        hf1.chain
        (fun h => unused_ne_tombstone P hsb h.symm) (fun h => by rw [hdeadT] at h; cases h)
  · show live_records P (t1.b.set _ _) = _
    rw [live_records_set_dead P t1.b _ hp hdead hdeadT, hlive1]
  · show size_dec P (t1.count + 1) = 1
    rw [size_dec_pos (by omega), hc1]

/-- C8 (amended): for symbols `s ≠ t`, a valid destination `d` that is at most
`SINGLETON_MAX_STATE` and a destination `e` other than the unused marker
`BUCKET_UNUSED` (`uintptr_t` of at least `CHAR_BIT + 1` bits), the Singleton obtained
by `add(s,d)` on Empty and the Table obtained by `add(s,d); add(t,e); remove(t)` answer
`edge_set_find` and `edge_set_contains` alike for every query symbol, both have
`edge_set_count` 1, and a fresh iteration of either yields exactly the record `(s,d)`. -/
theorem singleton_table_equivalent (P : Platform) (hU : CHAR_BIT + 1 ≤ P.uintptr_bits)
    (s d t e : Nat) (hs : s < 256)
    (hd : valid_state P d) (hmax : d ≤ SINGLETON_MAX_STATE P)
    (he : e ≠ BUCKET_UNUSED P) (hts : t ≠ s) :
    (∃ ptr, (edge_set_add P true .null s d).2 = .singleton ptr) ∧
    (∃ tb, edge_set_remove P
        (edge_set_add P true (edge_set_add P true .null s d).2 t e).2 t = .table tb) ∧
    (∀ q, edge_set_find P (edge_set_add P true .null s d).2 q
        = edge_set_find P (edge_set_remove P
            (edge_set_add P true (edge_set_add P true .null s d).2 t e).2 t) q) ∧
    (∀ q, edge_set_find P (edge_set_add P true .null s d).2 q
        = if q = s then some { state := d, symbol := s } else none) ∧
    (∀ q, edge_set_contains P (edge_set_add P true .null s d).2 q
        = edge_set_contains P (edge_set_remove P
            (edge_set_add P true (edge_set_add P true .null s d).2 t e).2 t) q) ∧
    edge_set_count (edge_set_add P true .null s d).2 = 1 ∧
    edge_set_count (edge_set_remove P
        (edge_set_add P true (edge_set_add P true .null s d).2 t e).2 t) = 1 ∧
    edge_set_iterate P (edge_set_add P true .null s d).2 = [{ state := d, symbol := s }] ∧
    edge_set_iterate P (edge_set_remove P
        (edge_set_add P true (edge_set_add P true .null s d).2 t e).2 t)
      = [{ state := d, symbol := s }] := by
  obtain ⟨t', hT, hok, hlive, hcount, hpos⟩ :=
    table_after_add_add_remove P hU s d t e hs hd hmax he hts
  have hsym := singleton_decode_symbol_encode P hU hs hmax
  have hst := singleton_decode_state_encode P hU hs (valid_state_lt P hd) hmax
  have hS : ∀ q, edge_set_find P (edge_set_add P true .null s d).2 q
      = if q = s then some { state := d, symbol := s } else none := by
    intro q
    simp only [edge_set_add, edge_set_find, edge_set_empty, Bool.false_eq_true, if_false,
      hsym, hst]
    by_cases hq : s = q
    · subst hq; simp
    · rw [if_neg hq, if_neg (fun h => hq h.symm)]
  have hTq : ∀ q, edge_set_find P (.table t') q
      = if q = s then some { state := d, symbol := s } else none := by
    intro q
    by_cases hq : q = s
    · subst hq
      rw [if_pos rfl]
      have := table_find_hit P t' hok
        (distinct_symbols_of_nodup P _ (by rw [hlive]; simp)) (e := ⟨d, q⟩)
        (by rw [hlive]; simp)
      exact this
    · rw [if_neg hq]
      apply table_find_miss P t' hok.len hpos
      intro x hx
      rw [hlive] at hx
      simp only [List.mem_singleton] at hx
      rw [hx]
      exact fun h => hq h.symm
  rw [hT]
  refine ⟨⟨_, rfl⟩, ⟨t', rfl⟩, ?_, hS, ?_, rfl, hcount, ?_, ?_⟩
  · intro q; rw [hS, hTq]
  · intro q; simp only [edge_set_contains]; rw [hS, hTq]
  · have := edge_set_iterate_singleton P (SINGLETON_ENCODE P s d)
    rw [hsym, hst] at this
    exact this
  · rw [edge_set_iterate_table P t' hok.len, hlive]

/-- An instance of the previous theorem: the symbols 97 and 105 collide in the initial
table. -/
theorem singleton_table_equivalent_witness :
    CHAR_BIT + 1 ≤ LP64.uintptr_bits ∧ 97 < 256 ∧
    valid_state LP64 1 ∧ 1 ≤ SINGLETON_MAX_STATE LP64 ∧ 2 ≠ BUCKET_UNUSED LP64 ∧ 105 ≠ 97 ∧
    ((∃ ptr, (edge_set_add LP64 true .null 97 1).2 = .singleton ptr) ∧
    (∃ tb, edge_set_remove LP64
        (edge_set_add LP64 true (edge_set_add LP64 true .null 97 1).2 105 2).2 105
          = .table tb) ∧
    (∀ q, edge_set_find LP64 (edge_set_add LP64 true .null 97 1).2 q
        = edge_set_find LP64 (edge_set_remove LP64
            (edge_set_add LP64 true (edge_set_add LP64 true .null 97 1).2 105 2).2 105) q) ∧
    (∀ q, edge_set_find LP64 (edge_set_add LP64 true .null 97 1).2 q
        = if q = 97 then some { state := 1, symbol := 97 } else none) ∧
    (∀ q, edge_set_contains LP64 (edge_set_add LP64 true .null 97 1).2 q
        = edge_set_contains LP64 (edge_set_remove LP64
            (edge_set_add LP64 true (edge_set_add LP64 true .null 97 1).2 105 2).2 105) q) ∧
    edge_set_count (edge_set_add LP64 true .null 97 1).2 = 1 ∧
    edge_set_count (edge_set_remove LP64
        (edge_set_add LP64 true (edge_set_add LP64 true .null 97 1).2 105 2).2 105) = 1 ∧
    edge_set_iterate LP64 (edge_set_add LP64 true .null 97 1).2 = [{ state := 1, symbol := 97 }] ∧
    edge_set_iterate LP64 (edge_set_remove LP64
        (edge_set_add LP64 true (edge_set_add LP64 true .null 97 1).2 105 2).2 105)
          = [{ state := 1, symbol := 97 }]) :=
  ⟨by decide, by decide, by decide, by decide, by decide, by decide,
   singleton_table_equivalent LP64 (by decide) 97 1 105 2 (by decide) (by decide)
     (by decide) (by decide) (by decide)⟩

/-- C8 as stated fails when the destination `e` is the unused marker: on a 64-bit
build, after `add(97,1); add(105,e); remove(105)` with `e = (fsm_state_t) -1` the bucket
written for 105 reads as unused, `edge_set_remove` stops at it without removing
anything, and `edge_set_count` of the table is 2, not 1 as for the Singleton.  It also
fails on the 32-bit build for the valid destination `d = 8388608`, one more than
`SINGLETON_MAX_STATE`: after `add(0,d)`, and after `add(0,d); add(1,5); remove(1)`, a
fresh iteration yields `(0,0)`, not `(0,d)`. -/
theorem singleton_table_unused_counterexample :
    edge_set_count (edge_set_add LP64 true .null 97 1).2 = 1 ∧
    edge_set_count (edge_set_remove LP64
      (edge_set_add LP64 true (edge_set_add LP64 true .null 97 1).2 105
        (BUCKET_UNUSED LP64)).2 105) = 2 ∧
    edge_set_iterate LP64 (edge_set_remove LP64
      (edge_set_add LP64 true (edge_set_add LP64 true .null 97 1).2 105
        (BUCKET_UNUSED LP64)).2 105) = [{ state := 1, symbol := 97 }] ∧
    valid_state ILP32 8388608 ∧
    edge_set_iterate ILP32 (edge_set_add ILP32 true .null 0 8388608).2
      = [{ state := 0, symbol := 0 }] ∧
    edge_set_iterate ILP32 (edge_set_remove ILP32
      (edge_set_add ILP32 true (edge_set_add ILP32 true .null 0 8388608).2 1 5).2 1)
      = [{ state := 0, symbol := 0 }] := by
  decide

theorem set_bucket_self (b : List fsm_edge) (i : Nat) : b.set i (bucket b i) = b := by
  by_cases h : i < b.length
  · rw [set_split_at b _ h]
    exact (list_split_at b h).symm
  · exact List.set_eq_of_length_le (by omega)

theorem bucket_append_length (l1 l2 : List fsm_edge) (x : fsm_edge) :
    bucket (l1 ++ x :: l2) l1.length = x := by
  unfold bucket
  rw [List.getD_eq_getElem?_getD, List.getElem?_append_right (le_refl _)]
  simp

theorem edge_set_eta (t : edge_set) : { b := t.b, count := t.count, ceil := t.ceil } = t := by
  cases t; rfl

/-- A loop over the buckets `0, ..., n-1` that rewrites each in place. -/
theorem foldl_pointwise (g : fsm_edge → fsm_edge) (c : Nat → fsm_edge → Nat) (t : edge_set) :
    ∀ n, n ≤ t.b.length →
      (List.range n).foldl (pointwise_step g c) t
        = { b := (t.b.take n).map g ++ t.b.drop n, count := (t.b.take n).foldl c t.count,
            ceil := t.ceil } := by
  intro n
  induction n with
  | zero => intro _; simp [edge_set_eta]
  | succ n ih =>
    intro hn
    have hlt : n < t.b.length := by omega
    rw [List.range_succ, List.foldl_append, ih (by omega)]
    simp only [List.foldl_cons, List.foldl_nil, pointwise_step]
    have hlenm : ((t.b.take n).map g).length = n := by simp; omega
    have hdrop : t.b.drop n = bucket t.b n :: t.b.drop (n + 1) := by
      rw [bucket_eq_getElem t.b hlt]
      exact List.drop_eq_getElem_cons hlt
    have htake : t.b.take (n + 1) = t.b.take n ++ [bucket t.b n] := by
      rw [bucket_eq_getElem t.b hlt]
      exact (List.take_concat_get' t.b n hlt).symm
    have hb : bucket ((t.b.take n).map g ++ t.b.drop n) n = bucket t.b n := by
      rw [hdrop]
      have := bucket_append_length ((t.b.take n).map g) (t.b.drop (n + 1)) (bucket t.b n)
      rwa [hlenm] at this
    rw [hb, List.set_append, if_neg (by omega), hlenm, hdrop, htake]
    simp [List.foldl_append]

theorem compact_step_eq (P : Platform) (no_state : Nat) (remap : Nat → Nat) :
    compact_step P no_state remap
      = pointwise_step (compact_bucket P no_state remap) (compact_count P no_state remap) := by
  funext set i
  unfold compact_step pointwise_step compact_bucket compact_count
  by_cases h1 : (bucket set.b i).state = BUCKET_UNUSED P ∨
      (bucket set.b i).state = BUCKET_TOMBSTONE P
  · simp only [h1, if_true, set_bucket_self, edge_set_eta]
  · simp only [h1, if_false]
    by_cases h2 : remap (bucket set.b i).state = no_state
    · simp only [h2, if_true]
    · simp only [h2, if_false]

/-- The table left by the loop of `edge_set_compact`. -/
theorem compact_fold_eq (P : Platform) (no_state : Nat) (remap : Nat → Nat) (t : edge_set)
    (hlen : t.b.length = t.ceil) :
    (List.range t.ceil).foldl (compact_step P no_state remap) t
      = { b := t.b.map (compact_bucket P no_state remap),
          count := t.b.foldl (compact_count P no_state remap) t.count, ceil := t.ceil } := by
  conv_lhs => rw [compact_step_eq, ← hlen, foldl_pointwise _ _ t t.b.length (le_refl _)]
  simp

/-- The records of the compacted buckets: the kept records, remapped. -/
theorem live_records_compact (P : Platform) (no_state : Nat) (remap : Nat → Nat)
    (b : List fsm_edge)
    (hremap : ∀ e ∈ live_records P b, remap e.state = no_state ∨ valid_state P (remap e.state)) :
    live_records P (b.map (compact_bucket P no_state remap))
      = (kept no_state remap (live_records P b)).map (remapped remap) := by
  induction b with
  | nil => rfl
  | cons e b ih =>
    have ih' := ih (by
      intro x hx
      apply hremap
      rw [mem_live_records_iff] at hx ⊢
      exact ⟨List.mem_cons_of_mem _ hx.1, hx.2⟩)
    unfold live_records kept at ih' ⊢
    rw [List.map_cons, List.filter_cons, List.filter_cons, ih']
    by_cases hl : is_live P e = true
    · have hl' := (is_live_iff P e).mp hl
      have hnd : ¬ (e.state = BUCKET_UNUSED P ∨ e.state = BUCKET_TOMBSTONE P) := by tauto
      rw [if_pos hl]
      by_cases hno : remap e.state = no_state
      · have hc : compact_bucket P no_state remap e = { e with state := BUCKET_TOMBSTONE P } := by
          unfold compact_bucket; rw [if_neg hnd, if_pos hno]
        have hdead : is_live P (compact_bucket P no_state remap e) = false := by
          rw [hc]; simp [is_live]
        rw [hdead, List.filter_cons]
        simp [hno]
      · have hc : compact_bucket P no_state remap e = remapped remap e := by
          unfold compact_bucket remapped; rw [if_neg hnd, if_neg hno]
        have hv : valid_state P (remap e.state) := by
          rcases hremap e (by rw [mem_live_records_iff]; exact ⟨by simp, hl⟩) with h | h
          · exact absurd h hno
          · exact h
        have hlive : is_live P (compact_bucket P no_state remap e) = true := by
          rw [hc]; exact is_live_of_valid P hv
        rw [hlive, List.filter_cons]
        simp [hno, hc]
    · have hl2 : is_live P e = false := by simpa using hl
      have hc : compact_bucket P no_state remap e = e := by
        unfold compact_bucket; rw [if_pos ((is_live_false_iff P e).mp hl2)]
      rw [hc, hl2]
      simp

/-- The counter after the loop of `edge_set_compact`: one less per dropped record. -/
theorem count_compact (P : Platform) (no_state : Nat) (remap : Nat → Nat) :
    ∀ (b : List fsm_edge) (count : Nat),
      (dropped no_state remap (live_records P b)).length ≤ count →
      b.foldl (compact_count P no_state remap) count
        + (dropped no_state remap (live_records P b)).length = count := by
  intro b
  induction b with
  | nil => intro count _; rfl
  | cons e b ih =>
    intro count hc
    rw [List.foldl_cons]
    unfold live_records dropped at hc ih ⊢
    rw [List.filter_cons] at hc ⊢
    by_cases hl : is_live P e = true
    · have hl' := (is_live_iff P e).mp hl
      have hnd : ¬ (e.state = BUCKET_UNUSED P ∨ e.state = BUCKET_TOMBSTONE P) := by tauto
      rw [if_pos hl] at hc ⊢
      rw [List.filter_cons] at hc ⊢
      by_cases hno : remap e.state = no_state
      · have hcc : compact_count P no_state remap count e = size_dec P count := by
          unfold compact_count; rw [if_neg hnd, if_pos hno]
        simp only [hno, decide_True, if_true, List.length_cons] at hc ⊢
        rw [hcc, size_dec_pos (by omega)]
        have := ih (count - 1) (by omega)
        omega
      · have hcc : compact_count P no_state remap count e = count := by
          unfold compact_count; rw [if_neg hnd, if_neg hno]
        simp only [hno, decide_False, Bool.false_eq_true, if_false] at hc ⊢
        rw [hcc]
        exact ih count hc
    · have hl2 : is_live P e = false := by simpa using hl
      have hcc : compact_count P no_state remap count e = count := by
        unfold compact_count; rw [if_pos ((is_live_false_iff P e).mp hl2)]
      rw [hl2] at hc ⊢
      simp only [Bool.false_eq_true, if_false] at hc ⊢
      rw [hcc]
      exact ih count hc

/-- Compaction of a set built by inserts, under a remap function that returns the
"no state" value or a valid state id that is at most `SINGLETON_MAX_STATE`. -/
theorem compact_represents (P : Platform) (hU : CHAR_BIT + 1 ≤ P.uintptr_bits)
    (no_state : Nat) (remap : Nat → Nat) (set : edge_set_ptr) (L : List fsm_edge)
    (hr : represents P set L)
    (hremap : ∀ e ∈ L, remap e.state = no_state ∨
      (valid_state P (remap e.state) ∧ remap e.state ≤ SINGLETON_MAX_STATE P)) :
    edge_set_iterate P (edge_set_compact P no_state set remap)
      = (kept no_state remap (edge_set_iterate P set)).map (remapped remap) ∧
    edge_set_count (edge_set_compact P no_state set remap)
      + (dropped no_state remap (edge_set_iterate P set)).length = edge_set_count set := by
  cases set with
  | null =>
    simp [edge_set_compact, edge_set_iterate_null, kept, dropped, edge_set_count]
  | singleton ptr =>
    simp only [represents] at hr
    have hrm := hremap ⟨SINGLETON_DECODE_STATE P ptr, SINGLETON_DECODE_SYMBOL ptr⟩
      (by rw [hr]; simp)
    simp only at hrm
    rw [edge_set_iterate_singleton]
    by_cases hno : remap (SINGLETON_DECODE_STATE P ptr) = no_state
    · simp [edge_set_compact, hno, edge_set_iterate_null, kept, dropped, edge_set_count]
    · have hv : valid_state P (remap (SINGLETON_DECODE_STATE P ptr)) ∧
          remap (SINGLETON_DECODE_STATE P ptr) ≤ SINGLETON_MAX_STATE P := by
        rcases hrm with h | h
        · exact absurd h hno
        · exact h
      simp only [edge_set_compact, hno, if_false, edge_set_iterate_singleton, kept, dropped,
        edge_set_count]
      rw [singleton_decode_symbol_encode P hU (singleton_decode_symbol_lt ptr) hv.2,
        singleton_decode_state_encode P hU (singleton_decode_symbol_lt ptr)
          (valid_state_lt P hv.1) hv.2]
      simp [hno, remapped]
  | table t =>
    simp only [represents] at hr
    obtain ⟨hf, hperm, h2, _⟩ := hr
    have hne : t.count ≠ 0 := by omega
    have hcomp : edge_set_compact P no_state (.table t) remap
        = .table { b := t.b.map (compact_bucket P no_state remap),
                   count := t.b.foldl (compact_count P no_state remap) t.count,
                   ceil := t.ceil } := by
      simp only [edge_set_compact, edge_set_empty, hne, decide_False, Bool.false_eq_true,
        if_false]
      rw [compact_fold_eq P no_state remap t hf.len]
    have hremap' : ∀ e ∈ live_records P t.b,
        remap e.state = no_state ∨ valid_state P (remap e.state) :=
      fun e he => (hremap e (hperm.mem_iff.mp he)).imp id (fun h => h.1)
    rw [hcomp, edge_set_iterate_table P t hf.len,
      edge_set_iterate_table P _ (by simpa using hf.len)]
    refine ⟨live_records_compact P no_state remap t.b hremap', ?_⟩
    simp only [edge_set_count]
    apply count_compact
    rw [hf.cnt]
    exact List.length_filter_le _ _

/-! ## Claim about compaction -/

/-- C7 (amended): for a set built from Empty by inserts of valid records and a remap
function that maps every destination held in the set to `FSM_STATE_REMAP_NO_STATE` or
to a valid state id that is at most `SINGLETON_MAX_STATE` (`uintptr_t` of at least
`CHAR_BIT + 1` bits), after `edge_set_compact` the records are the records
`(sym, remap d)` of the records `(sym, d)` held before with `remap d` not the
"no state" value, and `edge_set_count` has decreased by the number of records mapped
to "no state".  The set holds as many records as were inserted, and they are the
records inserted when the destination of the first, which is held boxed, is at most
`SINGLETON_MAX_STATE`. -/
theorem edge_set_compact_records (P : Platform) (hU : CHAR_BIT + 1 ≤ P.uintptr_bits)
    (no_state : Nat) (es : List fsm_edge) (hvalid : ∀ e ∈ es, valid_edge P e)
    (remap : Nat → Nat)
    (hremap : ∀ e ∈ edge_set_iterate P (add_all P true .null es).2,
      remap e.state = no_state ∨
        (valid_state P (remap e.state) ∧ remap e.state ≤ SINGLETON_MAX_STATE P)) :
    (edge_set_iterate P (add_all P true .null es).2).length = es.length ∧
    ((∀ e ∈ es.head?, e.state ≤ SINGLETON_MAX_STATE P) →
      (edge_set_iterate P (add_all P true .null es).2).Perm es) ∧
    edge_set_iterate P (edge_set_compact P no_state (add_all P true .null es).2 remap)
      = (kept no_state remap (edge_set_iterate P (add_all P true .null es).2)).map
          (remapped remap) ∧
    edge_set_count (edge_set_compact P no_state (add_all P true .null es).2 remap)
      + (dropped no_state remap (edge_set_iterate P (add_all P true .null es).2)).length
      = edge_set_count (add_all P true .null es).2 := by
  obtain ⟨_, L, _, hlen, hr⟩ := represents_add_all_some P es hvalid
  have hperm := represents_iterate P _ _ hr
  have h := compact_represents P hU no_state remap _ _ hr
    (fun e he => hremap e (hperm.mem_iff.mpr he))
  refine ⟨by rw [hperm.length_eq, hlen], ?_, h.1, h.2⟩
  intro hfit
  obtain ⟨_, hr'⟩ := represents_add_all_null P hU es hvalid hfit
  exact (represents_iterate P _ _ hr').trans (List.reverse_perm es)

/-- An instance of the previous theorem: three records, two of them on symbol 1; the
destination 6 is dropped, 5 and 7 are renumbered. -/
theorem edge_set_compact_records_witness :
    CHAR_BIT + 1 ≤ LP64.uintptr_bits ∧
    (∀ e ∈ renumbered_records, valid_edge LP64 e) ∧
    (∀ e ∈ edge_set_iterate LP64 (add_all LP64 true .null renumbered_records).2,
      drop_six e.state = BUCKET_UNUSED LP64 ∨
        (valid_state LP64 (drop_six e.state) ∧
          drop_six e.state ≤ SINGLETON_MAX_STATE LP64)) ∧
    ((edge_set_iterate LP64 (add_all LP64 true .null renumbered_records).2).length
        = renumbered_records.length ∧
      ((∀ e ∈ renumbered_records.head?, e.state ≤ SINGLETON_MAX_STATE LP64) →
        (edge_set_iterate LP64 (add_all LP64 true .null renumbered_records).2).Perm
          renumbered_records) ∧
      edge_set_iterate LP64 (edge_set_compact LP64 (BUCKET_UNUSED LP64)
          (add_all LP64 true .null renumbered_records).2 drop_six)
        = (kept (BUCKET_UNUSED LP64) drop_six
            (edge_set_iterate LP64 (add_all LP64 true .null renumbered_records).2)).map
            (remapped drop_six) ∧
      edge_set_count (edge_set_compact LP64 (BUCKET_UNUSED LP64)
          (add_all LP64 true .null renumbered_records).2 drop_six)
        + (dropped (BUCKET_UNUSED LP64) drop_six
            (edge_set_iterate LP64 (add_all LP64 true .null renumbered_records).2)).length
        = edge_set_count (add_all LP64 true .null renumbered_records).2) :=
  ⟨by decide, by decide, by decide,
   edge_set_compact_records LP64 (by decide) (BUCKET_UNUSED LP64) renumbered_records
     (by decide) drop_six (by decide)⟩

/-- C7 as stated fails for a remap function that returns the tombstone marker: on the
table built from the records `(1,1)` and `(2,2)`, with "no state" being
`(fsm_state_t) -1`, no destination is mapped to "no state", yet the compacted table
holds no record, not the two remapped ones, and its count is still 2.  It also fails
on the 32-bit build for a remap function that returns the valid state id `8388608`,
one more than `SINGLETON_MAX_STATE`: the singleton `(7,5)` holds `(7,0)` afterwards. -/
theorem edge_set_compact_tombstone_counterexample :
    dropped (BUCKET_UNUSED LP64) (fun _ => BUCKET_TOMBSTONE LP64)
      (edge_set_iterate LP64 (add_all LP64 true .null
        [{ state := 1, symbol := 1 }, { state := 2, symbol := 2 }]).2) = [] ∧
    edge_set_iterate LP64 (edge_set_compact LP64 (BUCKET_UNUSED LP64)
      (add_all LP64 true .null [{ state := 1, symbol := 1 }, { state := 2, symbol := 2 }]).2
      (fun _ => BUCKET_TOMBSTONE LP64)) = [] ∧
    edge_set_count (edge_set_compact LP64 (BUCKET_UNUSED LP64)
      (add_all LP64 true .null [{ state := 1, symbol := 1 }, { state := 2, symbol := 2 }]).2
      (fun _ => BUCKET_TOMBSTONE LP64)) = 2 ∧
    ¬ ((edge_set_iterate LP64 (edge_set_compact LP64 (BUCKET_UNUSED LP64)
          (add_all LP64 true .null [{ state := 1, symbol := 1 }, { state := 2, symbol := 2 }]).2
          (fun _ => BUCKET_TOMBSTONE LP64))).Perm
        ((kept (BUCKET_UNUSED LP64) (fun _ => BUCKET_TOMBSTONE LP64)
            (edge_set_iterate LP64 (add_all LP64 true .null
              [{ state := 1, symbol := 1 }, { state := 2, symbol := 2 }]).2)).map
          (remapped (fun _ => BUCKET_TOMBSTONE LP64)))) ∧
    valid_state ILP32 8388608 ∧
    edge_set_iterate ILP32 (add_all ILP32 true .null [{ state := 5, symbol := 7 }]).2
      = [{ state := 5, symbol := 7 }] ∧
    edge_set_iterate ILP32 (edge_set_compact ILP32 (BUCKET_UNUSED ILP32)
      (add_all ILP32 true .null [{ state := 5, symbol := 7 }]).2 (fun _ => 8388608))
      = [{ state := 0, symbol := 7 }] := by
  decide

theorem live_records_cons (P : Platform) (e : fsm_edge) (l : List fsm_edge) :
    live_records P (e :: l) = if is_live P e = true then e :: live_records P l
      else live_records P l := by
  unfold live_records
  rw [List.filter_cons]

/-- The scan reports a duplicate as soon as a symbol of the scanned records is
already marked. -/
theorem nondeterminism_scan_marked (P : Platform) (t : edge_set) :
    ∀ n i m, (∃ e ∈ live_records P (slots_from t i n), bm_get m e.symbol = true) →
      (nondeterminism_scan P t n i m).1 = 1 := by
  intro n
  induction n with
  | zero => intro i m ⟨e, he, _⟩; simp [slots_from, live_records] at he
  | succ n ih =>
    intro i m ⟨e, he, hm⟩
    rw [slots_from_succ, live_records_cons] at he
    rw [nondeterminism_scan]
    by_cases hl : is_live P (bucket t.b i) = true
    · have hl' := (is_live_iff P _).mp hl
      rw [if_pos hl] at he
      rw [if_neg (by tauto)]
      by_cases hget : bm_get m (bucket t.b i).symbol = true
      · rw [if_pos hget]
      · rw [if_neg hget]
        rcases List.mem_cons.mp he with h | h
        · rw [h] at hm; exact absurd hm hget
        · apply ih
          refine ⟨e, h, ?_⟩
          simp only [bm_get, bm_set] at hm ⊢
          split_ifs
          · rfl
          · exact hm
    · have hl2 : is_live P (bucket t.b i) = false := by simpa using hl
      rw [if_neg hl] at he
      rw [if_pos ((is_live_false_iff P _).mp hl2)]
      exact ih _ _ ⟨e, he, hm⟩

/-- The scan never clears a bit. -/
theorem nondeterminism_scan_mono (P : Platform) (t : edge_set) (s : Nat) :
    ∀ n i m, bm_get m s = true → bm_get (nondeterminism_scan P t n i m).2 s = true := by
  intro n
  induction n with
  | zero => intro i m h; exact h
  | succ n ih =>
    intro i m h
    rw [nondeterminism_scan]
    split_ifs
    · exact ih _ _ h
    · exact h
    · apply ih
      simp only [bm_get, bm_set] at h ⊢
      split_ifs
      · rfl
      · exact h

/-- The scan of records with pairwise distinct, unmarked symbols returns 0 and marks
exactly their symbols. -/
theorem nondeterminism_scan_fresh (P : Platform) (t : edge_set) :
    ∀ n i m, ((live_records P (slots_from t i n)).map fsm_edge.symbol).Nodup →
      (∀ e ∈ live_records P (slots_from t i n), bm_get m e.symbol = false) →
      (nondeterminism_scan P t n i m).1 = 0 ∧
      ∀ e ∈ live_records P (slots_from t i n),
        bm_get (nondeterminism_scan P t n i m).2 e.symbol = true := by
  intro n
  induction n with
  | zero =>
    intro i m _ _
    exact ⟨rfl, by intro e he; simp [slots_from, live_records] at he⟩
  | succ n ih =>
    intro i m hnd hun
    rw [slots_from_succ, live_records_cons] at hnd hun ⊢
    rw [nondeterminism_scan]
    by_cases hl : is_live P (bucket t.b i) = true
    · have hl' := (is_live_iff P _).mp hl
      rw [if_pos hl] at hnd hun ⊢
      rw [if_neg (by tauto)]
      have hget : bm_get m (bucket t.b i).symbol = false := hun _ (by simp)
      rw [hget]
      simp only [Bool.false_eq_true, if_false]
      rw [List.map_cons, List.nodup_cons] at hnd
      obtain ⟨h0, hrest⟩ := ih (i + 1) (bm_set m (bucket t.b i).symbol) hnd.2 (by
        intro e he
        have hne : e.symbol ≠ (bucket t.b i).symbol := by
          intro heq
          exact hnd.1 (heq ▸ List.mem_map_of_mem _ he)
        have := hun e (List.mem_cons_of_mem _ he)
        simp only [bm_get, bm_set] at this ⊢
        rw [if_neg hne]
        exact this)
      refine ⟨h0, ?_⟩
      intro e he
      rcases List.mem_cons.mp he with h | h
      · rw [h]
        apply nondeterminism_scan_mono
        simp [bm_get, bm_set]
      · exact hrest e h
    · have hl2 : is_live P (bucket t.b i) = false := by simpa using hl
      rw [if_neg hl] at hnd hun ⊢
      rw [if_pos ((is_live_false_iff P _).mp hl2)]
      exact ih _ _ hnd hun

/-- The first call on a reset bitmap: a set without duplicate symbols is reported
deterministic and its symbols are marked. -/
theorem hasnondeterminism_first (P : Platform) (A : edge_set_ptr)
    (hA : edge_set_count A = (edge_set_iterate P A).length)
    (hdet : ((edge_set_iterate P A).map fsm_edge.symbol).Nodup) :
    (edge_set_hasnondeterminism P A bm_reset).1 = 0 ∧
    ∀ e ∈ edge_set_iterate P A,
      bm_get (edge_set_hasnondeterminism P A bm_reset).2 e.symbol = true := by
  cases A with
  | null => simp [edge_set_hasnondeterminism, edge_set_empty, edge_set_iterate_null]
  | singleton ptr =>
    simp [edge_set_hasnondeterminism, edge_set_empty, edge_set_iterate_singleton, bm_get,
      bm_set, bm_reset]
  | table t =>
    by_cases hc : t.count = 0
    · have hnil : edge_set_iterate P (.table t) = [] := by
        apply List.length_eq_zero.mp
        rw [← hA]
        exact hc
      simp [edge_set_hasnondeterminism, edge_set_empty, hc, hnil]
    · rw [edge_set_iterate_slots] at hdet ⊢
      have := nondeterminism_scan_fresh P t t.ceil 0 bm_reset hdet (by
        intro e _; rfl)
      simpa [edge_set_hasnondeterminism, edge_set_empty, hc] using this

/-- A later call on a set holding a record whose symbol is already marked reports
nondeterminism. -/
theorem hasnondeterminism_marked (P : Platform) (B : edge_set_ptr) (m : bm)
    (hB : edge_set_count B = (edge_set_iterate P B).length)
    {e : fsm_edge} (he : e ∈ edge_set_iterate P B) (hm : bm_get m e.symbol = true) :
    (edge_set_hasnondeterminism P B m).1 = 1 := by
  cases B with
  | null => simp [edge_set_iterate_null] at he
  | singleton ptr =>
    rw [edge_set_iterate_singleton, List.mem_singleton] at he
    subst he
    simp only at hm
    simp [edge_set_hasnondeterminism, edge_set_empty, hm]
  | table t =>
    have hc : t.count ≠ 0 := by
      intro h0
      have : (edge_set_iterate P (.table t)).length = 0 := by rw [← hB]; exact h0
      rw [List.length_eq_zero.mp this] at he
      simp at he
    rw [edge_set_iterate_slots] at he
    have := nondeterminism_scan_marked P t t.ceil 0 m ⟨e, he, hm⟩
    simpa [edge_set_hasnondeterminism, edge_set_empty, hc] using this

/-! ## Claim about nondeterminism detection -/

/-- C9 (amended): for edge sets `A` and `B` whose count is the number of their records,
both holding a record with symbol `a`, where no two records of `A` share a symbol, and a
freshly reset bitmap shared by both calls: `edge_set_hasnondeterminism` returns 0 on `A`
and then 1 on `B`. -/
theorem edge_set_hasnondeterminism_shared (P : Platform) (A B : edge_set_ptr) (a : Nat)
    (hA : edge_set_count A = (edge_set_iterate P A).length)
    (hB : edge_set_count B = (edge_set_iterate P B).length)
    (haA : a ∈ (edge_set_iterate P A).map fsm_edge.symbol)
    (haB : a ∈ (edge_set_iterate P B).map fsm_edge.symbol)
    (hdet : ((edge_set_iterate P A).map fsm_edge.symbol).Nodup) :
    (edge_set_hasnondeterminism P A bm_reset).1 = 0 ∧
    (edge_set_hasnondeterminism P B (edge_set_hasnondeterminism P A bm_reset).2).1 = 1 := by
  obtain ⟨h0, hmarks⟩ := hasnondeterminism_first P A hA hdet
  refine ⟨h0, ?_⟩
  obtain ⟨ea, hea, hsa⟩ := List.mem_map.mp haA
  obtain ⟨eb, heb, hsb⟩ := List.mem_map.mp haB
  apply hasnondeterminism_marked P B _ hB heb
  rw [hsb, ← hsa]
  exact hmarks ea hea

/-- An instance of the previous theorem: two sets of two records sharing symbol 97. -/
theorem edge_set_hasnondeterminism_shared_witness :
    edge_set_count set_a_b = (edge_set_iterate LP64 set_a_b).length ∧
    edge_set_count set_c_a = (edge_set_iterate LP64 set_c_a).length ∧
    97 ∈ (edge_set_iterate LP64 set_a_b).map fsm_edge.symbol ∧
    97 ∈ (edge_set_iterate LP64 set_c_a).map fsm_edge.symbol ∧
    ((edge_set_iterate LP64 set_a_b).map fsm_edge.symbol).Nodup ∧
    ((edge_set_hasnondeterminism LP64 set_a_b bm_reset).1 = 0 ∧
      (edge_set_hasnondeterminism LP64 set_c_a
        (edge_set_hasnondeterminism LP64 set_a_b bm_reset).2).1 = 1) :=
  ⟨by decide, by decide, by decide, by decide, by decide,
   edge_set_hasnondeterminism_shared LP64 set_a_b set_c_a 97 (by decide) (by decide)
     (by decide) (by decide) (by decide)⟩

/-- C9 as stated fails when `A` itself holds two records with the same symbol: for `A`
built by `add(97,1); add(97,2)` and `B` built by `add(97,3)`, both hold a record with
symbol 97, yet the first call, on `A` with a reset bitmap, already returns 1. -/
theorem edge_set_hasnondeterminism_duplicate_counterexample :
    97 ∈ (edge_set_iterate LP64 set_a_a).map fsm_edge.symbol ∧
    97 ∈ (edge_set_iterate LP64 set_a).map fsm_edge.symbol ∧
    (edge_set_hasnondeterminism LP64 set_a_a bm_reset).1 = 1 ∧
    ¬ ((edge_set_hasnondeterminism LP64 set_a_a bm_reset).1 = 0 ∧
       (edge_set_hasnondeterminism LP64 set_a
          (edge_set_hasnondeterminism LP64 set_a_a bm_reset).2).1 = 1) := by
  decide

/-! ## Reading and writing states -/

theorem set_getD_self {α : Type} (l : List α) (i : Nat) (d : α) : l.set i (l.getD i d) = l := by
  induction l generalizing i with
  | nil => rfl
  | cons a l ih =>
    cases i with
    | zero => rfl
    | succ i => simp only [List.set_cons_succ, List.getD_cons_succ, ih]

theorem state_at_update_self (f : fsm) (s : Nat) (g : fsm_state → fsm_state)
    (h : s < f.states.length) : state_at (update_state f s g) s = g (state_at f s) := by
  have hlen : s < (f.states.set s (g (state_at f s))).length := by simpa using h
  show (f.states.set s (g (state_at f s))).getD s blank_state = g (state_at f s)
  rw [List.getD_eq_getElem _ _ hlen]
  simp

theorem state_at_update_ne (f : fsm) (s s' : Nat) (g : fsm_state → fsm_state) (h : s ≠ s') :
    state_at (update_state f s g) s' = state_at f s' := by
  unfold state_at update_state
  simp only
  rw [List.getD_eq_getElem?_getD, List.getD_eq_getElem?_getD, List.getElem?_set]
  simp [h]

theorem length_update_state (f : fsm) (s : Nat) (g : fsm_state → fsm_state) :
    (update_state f s g).states.length = f.states.length := by
  simp [update_state]

theorem update_state_id (f : fsm) (s : Nat) : update_state f s (fun st => st) = f := by
  unfold update_state state_at
  simp only [set_getD_self]

theorem update_update_state (f : fsm) (s : Nat) (g1 g2 : fsm_state → fsm_state) :
    update_state (update_state f s g1) s g2 = update_state f s (fun st => g2 (g1 st)) := by
  by_cases h : s < f.states.length
  · have := state_at_update_self f s g1 h
    unfold update_state at this ⊢
    simp only at this ⊢
    rw [this, List.set_set]
  · unfold update_state state_at
    simp only
    rw [List.set_eq_of_length_le (l := f.states) (by omega),
      List.set_eq_of_length_le (l := f.states) (by omega),
      List.set_eq_of_length_le (l := f.states) (by omega)]

theorem state_at_append_left (l1 l2 : List fsm_state) (s : Nat) (h : s < l1.length) :
    state_at { states := l1 ++ l2 } s = state_at { states := l1 } s := by
  unfold state_at
  simp only
  rw [List.getD_eq_getElem?_getD, List.getD_eq_getElem?_getD, List.getElem?_append_left h]

/-! ## The loops, allocation succeeding -/

theorem copy_epsilons_eq (os oe ns ind : Nat) :
    ∀ (l : List Nat) (f : fsm),
      copy_epsilons true os oe ns ind l f
        = .ok (update_state f ind
            (fun st => { st with epsilons := eps_fold os oe ns l st.epsilons })) := by
  intro l
  induction l with
  | nil => intro f; simp [copy_epsilons, eps_fold, update_state_id]
  | cons d l ih =>
    intro f
    rw [copy_epsilons]
    by_cases hout : d < os ∨ d ≥ oe
    · rw [if_pos hout, ih]
      simp [eps_fold, hout]
    · rw [if_neg hout]
      simp only [fsm_addedge_epsilon, if_true]
      rw [ih, update_update_state]
      simp [eps_fold, hout]

theorem copy_destinations_eq (os oe ns ind symbol : Nat) :
    ∀ (l : List Nat) (f : fsm),
      copy_destinations true os oe ns ind symbol l f
        = .ok (update_state f ind
            (fun st => { st with edges := lit_fold os oe ns symbol l st.edges })) := by
  intro l
  induction l with
  | nil => intro f; simp [copy_destinations, lit_fold, update_state_id]
  | cons d l ih =>
    intro f
    rw [copy_destinations]
    by_cases hout : d < os ∨ d ≥ oe
    · rw [if_pos hout, ih]
      simp [lit_fold, hout]
    · rw [if_neg hout]
      simp only [fsm_addedge_literal, if_true]
      rw [ih, update_update_state]
      simp [lit_fold, hout]

theorem copy_literals_eq (os oe ns ind : Nat) :
    ∀ (es : List literal_edge) (f : fsm),
      copy_literals true os oe ns ind es f
        = .ok (update_state f ind
            (fun st => { st with edges := edges_fold os oe ns es st.edges })) := by
  intro es
  induction es with
  | nil => intro f; simp [copy_literals, edges_fold, update_state_id]
  | cons e es ih =>
    intro f
    rw [copy_literals, copy_destinations_eq]
    simp only
    rw [ih, update_update_state]
    simp [edges_fold]

/-- One round of the loop "allocate edges", for a new state other than its source. -/
theorem copy_edges_round (os oe ns ind src : Nat) (f : fsm) (hne : ind ≠ src) :
    (match copy_epsilons true os oe ns ind (state_at f src).epsilons f with
      | .error f1 => Except.error f1
      | .ok f1 => copy_literals true os oe ns ind (state_at f1 src).edges f1)
      = .ok (update_state f ind (dup_state os oe ns (state_at f src))) := by
  rw [copy_epsilons_eq]
  simp only
  rw [state_at_update_ne _ _ _ _ hne, copy_literals_eq, update_update_state]
  rfl

/-- The loop "allocate edges" over `k` new states from `ns + a` on, whose sources
`os + a, ...` all lie below `ns`: the new states receive their copies, nothing else
changes. -/
theorem copy_edges_spec (os oe ns : Nat) :
    ∀ (k a : Nat) (f : fsm), os + a + k ≤ ns → ns + a + k ≤ f.states.length →
      ∃ f', copy_edges true os oe ns k (ns + a) f = .ok f' ∧
        f'.states.length = f.states.length ∧
        (∀ s, s < ns + a ∨ ns + a + k ≤ s → state_at f' s = state_at f s) ∧
        (∀ j, j < k → state_at f' (ns + a + j)
          = dup_state os oe ns (state_at f (os + a + j)) (state_at f (ns + a + j))) := by
  intro k
  induction k with
  | zero =>
    intro a f _ _
    exact ⟨f, rfl, rfl, fun _ _ => rfl, fun j hj => by omega⟩
  | succ k ih =>
    intro a f hsrc hlen
    have hround := copy_edges_round os oe ns (ns + a) (os + a) f (by omega)
    obtain ⟨f', hrun, hl, hout, hin⟩ := ih (a + 1)
      (update_state f (ns + a) (dup_state os oe ns (state_at f (os + a))))
      (by omega) (by rw [length_update_state]; omega)
    refine ⟨f', ?_, ?_, ?_, ?_⟩
    · rw [copy_edges]
      simp only [Nat.add_sub_cancel_left]
      rw [copy_epsilons_eq] at hround ⊢
      simp only at hround ⊢
      rw [hround]
      simp only
      rw [← hrun]
      rfl
    · rw [hl, length_update_state]
    · intro s hs
      rw [hout s (by omega), state_at_update_ne _ _ _ _ (by omega)]
    · intro j hj
      cases j with
      | zero =>
        rw [Nat.add_zero, Nat.add_zero, hout (ns + a) (by omega),
          state_at_update_self _ _ _ (by omega)]
      | succ j =>
        have := hin j (by omega)
        rw [state_at_update_ne _ _ _ _ (by omega), state_at_update_ne _ _ _ _ (by omega)] at this
        rw [show ns + a + (j + 1) = ns + (a + 1) + j by omega,
          show os + a + (j + 1) = os + (a + 1) + j by omega]
        exact this

theorem to_state_of_lt (P : Platform) {x : Nat} (h : x < 2 ^ P.state_bits) :
    to_state P x = x := Nat.mod_eq_of_lt h

/-- The loop "allocate new states" over `k` old states from `ind` on: `k` states are
appended, each with the end flag of its old state. -/
theorem allocate_states_spec (P : Platform) (os : Nat) :
    ∀ (k ind : Nat) (f : fsm) (new_start new_end : Nat),
      ind + k ≤ f.states.length → f.states.length + k ≤ BUCKET_TOMBSTONE P →
      ∃ f', allocate_states P true os k ind f new_start new_end
          = .ok (f', (if ind ≤ os ∧ os < ind + k then f.states.length + (os - ind)
                      else new_start),
                     (if k = 0 then new_end else f.states.length + k)) ∧
        f'.states.length = f.states.length + k ∧
        (∀ s, s < f.states.length → state_at f' s = state_at f s) ∧
        (∀ j, j < k → state_at f' (f.states.length + j)
          = { blank_state with end_flag := (state_at f (ind + j)).end_flag }) := by
  intro k
  induction k with
  | zero =>
    intro ind f new_start new_end _ _
    refine ⟨f, ?_, rfl, fun _ _ => rfl, fun j hj => by omega⟩
    rw [allocate_states, if_neg (by omega), if_pos rfl]
  | succ k ih =>
    intro ind f new_start new_end hind hroom
    have hvalid : valid_state P f.states.length := by
      show f.states.length < BUCKET_TOMBSTONE P
      omega
    have hlt : f.states.length + 1 < 2 ^ P.state_bits := by
      unfold BUCKET_TOMBSTONE at hroom
      omega
    obtain ⟨f', hrun, hl, hold, hnew⟩ := ih (ind + 1)
      (fsm_setend { states := f.states ++ [blank_state] } f.states.length
        (fsm_isend { states := f.states ++ [blank_state] } ind))
      (if ind = os then f.states.length else new_start) (to_state P (f.states.length + 1))
      (by simp only [fsm_setend, length_update_state, List.length_append,
            List.length_singleton]; omega)
      (by simp only [fsm_setend, length_update_state, List.length_append,
            List.length_singleton]; omega)
    simp only [fsm_setend, length_update_state, List.length_append, List.length_singleton]
      at hrun hl hold hnew
    have hsame : ∀ s, s < f.states.length →
        state_at (update_state { states := f.states ++ [blank_state] } f.states.length
          (fun st => { st with
            end_flag := fsm_isend { states := f.states ++ [blank_state] } ind })) s
          = state_at f s := by
      intro s hs
      rw [state_at_update_ne _ _ _ _ (by omega), state_at_append_left _ _ _ hs]
    refine ⟨f', ?_, by omega, ?_, ?_⟩
    · rw [allocate_states]
      simp only [fsm_addstate, hvalid, and_self, if_true, fsm_setend]
      rw [hrun]
      refine congrArg Except.ok (Prod.ext rfl (Prod.ext ?_ ?_))
      · show (if ind + 1 ≤ os ∧ os < ind + 1 + k then f.states.length + 1 + (os - (ind + 1))
            else if ind = os then f.states.length else new_start)
          = if ind ≤ os ∧ os < ind + (k + 1) then f.states.length + (os - ind) else new_start
        by_cases h1 : ind = os
        · subst h1
          rw [if_neg (by omega), if_pos rfl, if_pos (by omega)]
          omega
        · rw [if_neg h1]
          by_cases h2 : ind + 1 ≤ os ∧ os < ind + 1 + k
          · rw [if_pos h2, if_pos (by omega)]
            omega
          · rw [if_neg h2, if_neg (by omega)]
      · show (if k = 0 then to_state P (f.states.length + 1) else f.states.length + 1 + k)
          = if k + 1 = 0 then new_end else f.states.length + (k + 1)
        by_cases hk : k = 0
        · subst hk
          simp [to_state_of_lt P hlt]
        · simp only [hk, if_false, Nat.add_one_ne_zero]
          omega
    · intro s hs
      rw [hold s (by omega), hsame s hs]
    · intro j hj
      cases j with
      | zero =>
        rw [Nat.add_zero, Nat.add_zero, hold _ (by omega),
          state_at_update_self _ _ _ (by simp)]
        have h1 : state_at { states := f.states ++ [blank_state] } f.states.length
            = blank_state := by
          unfold state_at
          simp [List.getD_eq_getElem?_getD]
        have h2 : fsm_isend { states := f.states ++ [blank_state] } ind
            = (state_at f ind).end_flag := by
          unfold fsm_isend
          rw [state_at_append_left _ _ _ (by omega)]
        rw [h1, h2]
      | succ j =>
        have := hnew j (by omega)
        rw [hsame _ (by omega)] at this
        rw [show f.states.length + (j + 1) = f.states.length + 1 + j by omega,
          show ind + (j + 1) = ind + 1 + j by omega]
        exact this

/-! ## Membership in the copied edges -/

theorem mem_state_set_add (s : List Nat) (x t : Nat) :
    t ∈ state_set_add s x ↔ t ∈ s ∨ t = x := by
  unfold state_set_add
  split_ifs with h
  · constructor
    · exact Or.inl
    · rintro (h1 | h1)
      · exact h1
      · rw [h1]; exact h
  · simp

theorem mem_eps_fold (os oe ns t : Nat) :
    ∀ (l acc : List Nat),
      t ∈ eps_fold os oe ns l acc ↔
        t ∈ acc ∨ ∃ d ∈ l, os ≤ d ∧ d < oe ∧ t = ns + (d - os) := by
  intro l
  induction l with
  | nil => intro acc; simp [eps_fold]
  | cons d l ih =>
    intro acc
    have hstep : eps_fold os oe ns (d :: l) acc
        = eps_fold os oe ns l
            (if d < os ∨ d ≥ oe then acc else state_set_add acc (ns + (d - os))) := rfl
    rw [hstep, ih]
    by_cases hout : d < os ∨ d ≥ oe
    · rw [if_pos hout]
      constructor
      · rintro (h | ⟨d', hd', h⟩)
        · exact Or.inl h
        · exact Or.inr ⟨d', List.mem_cons_of_mem _ hd', h⟩
      · rintro (h | ⟨d', hd', h1, h2, h3⟩)
        · exact Or.inl h
        · rcases List.mem_cons.mp hd' with heq | hmem
          · subst heq; omega
          · exact Or.inr ⟨d', hmem, h1, h2, h3⟩
    · rw [if_neg hout, mem_state_set_add]
      constructor
      · rintro ((h | h) | ⟨d', hd', h⟩)
        · exact Or.inl h
        · exact Or.inr ⟨d, by simp, by omega, by omega, h⟩
        · exact Or.inr ⟨d', List.mem_cons_of_mem _ hd', h⟩
      · rintro (h | ⟨d', hd', h1, h2, h3⟩)
        · exact Or.inl (Or.inl h)
        · rcases List.mem_cons.mp hd' with heq | hmem
          · subst heq; exact Or.inl (Or.inr h3)
          · exact Or.inr ⟨d', hmem, h1, h2, h3⟩

theorem lit_mem_cons (e : literal_edge) (es : List literal_edge) (c d : Nat) :
    lit_mem (e :: es) c d ↔ (e.symbol = c ∧ d ∈ e.sl) ∨ lit_mem es c d := by
  simp [lit_mem]

theorem lit_mem_literal_add (c' d' c d : Nat) :
    ∀ es : List literal_edge,
      lit_mem (literal_add c' d' es) c d ↔ lit_mem es c d ∨ (c = c' ∧ d = d') := by
  intro es
  induction es with
  | nil =>
    simp only [literal_add, lit_mem_cons]
    simp only [lit_mem, List.not_mem_nil, false_and, exists_false, or_false, false_or,
      List.mem_singleton]
    constructor
    · rintro ⟨h1, h2⟩; exact ⟨h1.symm, h2⟩
    · rintro ⟨h1, h2⟩; exact ⟨h1.symm, h2⟩
  | cons e es ih =>
    rw [literal_add]
    by_cases hs : e.symbol = c'
    · rw [if_pos hs, lit_mem_cons, lit_mem_cons]
      simp only [mem_state_set_add]
      constructor
      · rintro (⟨h1, h2 | h2⟩ | h)
        · exact Or.inl (Or.inl ⟨h1, h2⟩)
        · exact Or.inr ⟨by rw [← h1, hs], h2⟩
        · exact Or.inl (Or.inr h)
      · rintro ((⟨h1, h2⟩ | h) | ⟨h1, h2⟩)
        · exact Or.inl ⟨h1, Or.inl h2⟩
        · exact Or.inr h
        · exact Or.inl ⟨by rw [hs, h1], Or.inr h2⟩
    · rw [if_neg hs, lit_mem_cons, lit_mem_cons, ih]
      tauto

theorem lit_mem_lit_fold (os oe ns symbol c t : Nat) :
    ∀ (l : List Nat) (acc : List literal_edge),
      lit_mem (lit_fold os oe ns symbol l acc) c t ↔
        lit_mem acc c t ∨ (c = symbol ∧ ∃ d ∈ l, os ≤ d ∧ d < oe ∧ t = ns + (d - os)) := by
  intro l
  induction l with
  | nil => intro acc; simp [lit_fold]
  | cons d l ih =>
    intro acc
    have hstep : lit_fold os oe ns symbol (d :: l) acc
        = lit_fold os oe ns symbol l
            (if d < os ∨ d ≥ oe then acc else literal_add symbol (ns + (d - os)) acc) := rfl
    rw [hstep, ih]
    by_cases hout : d < os ∨ d ≥ oe
    · rw [if_pos hout]
      constructor
      · rintro (h | ⟨hc, d', hd', h⟩)
        · exact Or.inl h
        · exact Or.inr ⟨hc, d', List.mem_cons_of_mem _ hd', h⟩
      · rintro (h | ⟨hc, d', hd', h1, h2, h3⟩)
        · exact Or.inl h
        · rcases List.mem_cons.mp hd' with heq | hmem
          · subst heq; omega
          · exact Or.inr ⟨hc, d', hmem, h1, h2, h3⟩
    · rw [if_neg hout, lit_mem_literal_add]
      constructor
      · rintro ((h | ⟨hc, h⟩) | ⟨hc, d', hd', h⟩)
        · exact Or.inl h
        · exact Or.inr ⟨hc, d, by simp, by omega, by omega, h⟩
        · exact Or.inr ⟨hc, d', List.mem_cons_of_mem _ hd', h⟩
      · rintro (h | ⟨hc, d', hd', h1, h2, h3⟩)
        · exact Or.inl (Or.inl h)
        · rcases List.mem_cons.mp hd' with heq | hmem
          · subst heq; exact Or.inl (Or.inr ⟨hc, h3⟩)
          · exact Or.inr ⟨hc, d', hmem, h1, h2, h3⟩

theorem lit_mem_edges_fold (os oe ns c t : Nat) :
    ∀ (es acc : List literal_edge),
      lit_mem (edges_fold os oe ns es acc) c t ↔
        lit_mem acc c t ∨ ∃ d, lit_mem es c d ∧ os ≤ d ∧ d < oe ∧ t = ns + (d - os) := by
  intro es
  induction es with
  | nil => intro acc; simp [edges_fold, lit_mem]
  | cons e es ih =>
    intro acc
    have hstep : edges_fold os oe ns (e :: es) acc
        = edges_fold os oe ns es (lit_fold os oe ns e.symbol e.sl acc) := rfl
    rw [hstep, ih, lit_mem_lit_fold]
    constructor
    · rintro ((h | ⟨hc, d, hd, h⟩) | ⟨d, hd, h⟩)
      · exact Or.inl h
      · exact Or.inr ⟨d, (lit_mem_cons _ _ _ _).mpr (Or.inl ⟨hc.symm, hd⟩), h⟩
      · exact Or.inr ⟨d, (lit_mem_cons _ _ _ _).mpr (Or.inr hd), h⟩
    · rintro (h | ⟨d, hd, h⟩)
      · exact Or.inl (Or.inl h)
      · rcases (lit_mem_cons _ _ _ _).mp hd with ⟨h1, h2⟩ | h1
        · exact Or.inl (Or.inr ⟨h1.symm, d, h2, h⟩)
        · exact Or.inr ⟨d, h1, h⟩

/-! ## Claim about `fsm_capture_duplicate` -/

/-- C10: for an automaton `f` with `n` states and a capture range `[start, end)` with
`start < end ≤ n`, allocation succeeding (the `end - start` new ids being valid state
ids): `fsm_capture_duplicate` returns 1 with `*q = n`, the automaton then has
`n + (end - start)` states, the new state `n + i` has the end flag of `start + i`, an
epsilon edge to `t` exactly when `t = n + (d - start)` for an epsilon destination `d` of
`start + i` inside the range, and a literal edge on `c` to `t` exactly when
`t = n + (d - start)` for a literal edge `(c, d)` of `start + i` with `d` inside the
range; the states `0..n-1` are unchanged. -/
theorem fsm_capture_duplicate_copies_range (P : Platform) (f : fsm) (capture : fsm_capture)
    (x : Option Nat) (q : Nat)
    (hrange : capture.start < capture.end_) (hend : capture.end_ ≤ f.states.length)
    (halloc : f.states.length + (capture.end_ - capture.start) ≤ BUCKET_TOMBSTONE P) :
    ∃ f', fsm_capture_duplicate P true f capture x q
        = { ret := 1, fsm := f',
            x := x.map (fun old_x =>
              if old_x ≥ capture.start ∧ old_x < capture.end_ then
                f.states.length + (old_x - capture.start)
              else old_x),
            q := f.states.length } ∧
      f'.states.length = f.states.length + (capture.end_ - capture.start) ∧
      (∀ i, i < capture.end_ - capture.start →
        (state_at f' (f.states.length + i)).end_flag
          = (state_at f (capture.start + i)).end_flag ∧
        (∀ t, t ∈ (state_at f' (f.states.length + i)).epsilons ↔
          ∃ d ∈ (state_at f (capture.start + i)).epsilons,
            capture.start ≤ d ∧ d < capture.end_ ∧
            t = f.states.length + (d - capture.start)) ∧
        (∀ c t, has_literal (state_at f' (f.states.length + i)) c t ↔
          ∃ d, has_literal (state_at f (capture.start + i)) c d ∧
            capture.start ≤ d ∧ d < capture.end_ ∧
            t = f.states.length + (d - capture.start))) ∧
      (∀ s, s < f.states.length → state_at f' s = state_at f s) := by
  obtain ⟨f1, hrun1, hl1, hold1, hnew1⟩ := allocate_states_spec P capture.start
    (capture.end_ - capture.start) capture.start f 0 0 (by omega) halloc
  rw [if_pos (by omega), if_neg (by omega), Nat.sub_self, Nat.add_zero] at hrun1
  obtain ⟨f2, hrun2, hl2, hold2, hnew2⟩ := copy_edges_spec capture.start capture.end_
    f.states.length (capture.end_ - capture.start) 0 f1 (by omega) (by omega)
  simp only [Nat.add_zero] at hrun2 hold2 hnew2
  refine ⟨f2, ?_, by omega, ?_, ?_⟩
  · unfold fsm_capture_duplicate
    simp only
    rw [if_neg (by omega), hrun1]
    simp only
    rw [if_neg (by omega), Nat.add_sub_cancel_left, hrun2]
  · intro i hi
    have hst := hnew2 i hi
    rw [hold1 _ (by omega), hnew1 i hi] at hst
    rw [hst]
    refine ⟨rfl, ?_, ?_⟩
    · intro t
      simp only [dup_state, blank_state]
      rw [mem_eps_fold]
      simp
    · intro c t
      simp only [has_literal, dup_state, blank_state]
      have := lit_mem_edges_fold capture.start capture.end_ f.states.length c t
        (state_at f (capture.start + i)).edges []
      simp only [lit_mem, List.not_mem_nil, false_and, exists_false, false_or] at this
      exact this
  · intro s hs
    rw [hold2 s (Or.inl hs), hold1 s hs]

/-- An instance of the previous theorem: duplicating the range `[1, 3)` of the sample
automaton, with `*x = 2`. -/
theorem fsm_capture_duplicate_copies_range_witness :
    sample_capture.start < sample_capture.end_ ∧
    sample_capture.end_ ≤ sample_fsm.states.length ∧
    sample_fsm.states.length + (sample_capture.end_ - sample_capture.start)
      ≤ BUCKET_TOMBSTONE LP64 ∧
    ∃ f', fsm_capture_duplicate LP64 true sample_fsm sample_capture (some 2) 0
        = { ret := 1, fsm := f',
            x := (some 2).map (fun old_x =>
              if old_x ≥ sample_capture.start ∧ old_x < sample_capture.end_ then
                sample_fsm.states.length + (old_x - sample_capture.start)
              else old_x),
            q := sample_fsm.states.length } ∧
      f'.states.length
        = sample_fsm.states.length + (sample_capture.end_ - sample_capture.start) ∧
      (∀ i, i < sample_capture.end_ - sample_capture.start →
        (state_at f' (sample_fsm.states.length + i)).end_flag
          = (state_at sample_fsm (sample_capture.start + i)).end_flag ∧
        (∀ t, t ∈ (state_at f' (sample_fsm.states.length + i)).epsilons ↔
          ∃ d ∈ (state_at sample_fsm (sample_capture.start + i)).epsilons,
            sample_capture.start ≤ d ∧ d < sample_capture.end_ ∧
            t = sample_fsm.states.length + (d - sample_capture.start)) ∧
        (∀ c t, has_literal (state_at f' (sample_fsm.states.length + i)) c t ↔
          ∃ d, has_literal (state_at sample_fsm (sample_capture.start + i)) c d ∧
            sample_capture.start ≤ d ∧ d < sample_capture.end_ ∧
            t = sample_fsm.states.length + (d - sample_capture.start))) ∧
      (∀ s, s < sample_fsm.states.length → state_at f' s = state_at sample_fsm s) :=
  ⟨by decide, by decide, by decide,
   fsm_capture_duplicate_copies_range LP64 sample_fsm sample_capture (some 2) 0
     (by decide) (by decide) (by decide)⟩

/-- The sample duplication, evaluated: the new states 3 and 4 copy 1 and 2, the edges
of state 1 to state 0 are dropped, and `*x = 2` becomes 4. -/
theorem fsm_capture_duplicate_sample :
    (fsm_capture_duplicate LP64 true sample_fsm sample_capture (some 2) 0).ret = 1 ∧
    (fsm_capture_duplicate LP64 true sample_fsm sample_capture (some 2) 0).q = 3 ∧
    (fsm_capture_duplicate LP64 true sample_fsm sample_capture (some 2) 0).x = some 4 ∧
    (fsm_capture_duplicate LP64 true sample_fsm sample_capture (some 2) 0).fsm
      = { states := sample_fsm.states ++ [
            { end_flag := false, epsilons := [4], edges := [{ symbol := 120, sl := [4] }] },
            { end_flag := true, epsilons := [], edges := [{ symbol := 121, sl := [3] }] }] } := by
  decide

/-- The duplication example of the specification: states `0, 1, 2` with an epsilon edge
`0 -> 1`, a literal edge `1 -> 2` on `'x'`, and `2` an end state; duplicating `[0, 3)`
gives the states `3, 4, 5` with epsilon `3 -> 4`, literal `4 -> 5` on `'x'`, `5` an end
state, and leaves `0, 1, 2` as they were. -/
theorem fsm_capture_duplicate_example :
    (fsm_capture_duplicate LP64 true spec_example_fsm { start := 0, end_ := 3 } none 0).ret = 1 ∧
    (fsm_capture_duplicate LP64 true spec_example_fsm { start := 0, end_ := 3 } none 0).q = 3 ∧
    (fsm_capture_duplicate LP64 true spec_example_fsm { start := 0, end_ := 3 } none 0).fsm
      = { states := spec_example_fsm.states ++ [
            { end_flag := false, epsilons := [4], edges := [] },
            { end_flag := false, epsilons := [], edges := [{ symbol := 120, sl := [5] }] },
            { end_flag := true, epsilons := [], edges := [] }] } := by
  decide

/-! ## The removal loop and tombstones

`edge_set_remove` compares the symbol of every bucket that is not unused, tombstones
included, where `edge_set_find` skips tombstones.  Removing a symbol a second time
therefore matches the tombstone left by the first removal and decrements `count` again. -/

/-- C1 (failing input): after `add(97,1); add(98,2); remove(97)` the set does not
contain 97, has count 1 and finds 98; a further `remove(97)` is not a no-op: the count
drops to 0 and 98 is no longer found. -/
theorem edge_set_remove_absent_decrements :
    edge_set_contains LP64 (run_ops LP64 (BUCKET_UNUSED LP64) .null removed_once) 97 = false ∧
    edge_set_count (run_ops LP64 (BUCKET_UNUSED LP64) .null removed_once) = 1 ∧
    edge_set_find LP64 (run_ops LP64 (BUCKET_UNUSED LP64) .null removed_once) 98
      = some { state := 2, symbol := 98 } ∧
    edge_set_count
      (edge_set_remove LP64 (run_ops LP64 (BUCKET_UNUSED LP64) .null removed_once) 97) = 0 ∧
    edge_set_find LP64
      (edge_set_remove LP64 (run_ops LP64 (BUCKET_UNUSED LP64) .null removed_once) 97) 98
      = none := by
  decide

/-- C3 (failing input): repeated `remove(0)` on the tombstone of symbol 0 keeps `count`
below `ceil / 2` while the symbols 1 to 8 fill all eight buckets, so the table never
grows; `edge_set_add(9, 7)` then finds no free bucket and returns 0, through the branch
marked unreachable, although allocation succeeds. -/
theorem edge_set_add_fails_on_full_table :
    (edge_set_iterate LP64 (run_ops LP64 (BUCKET_UNUSED LP64) .null filling_calls)).map
      fsm_edge.symbol = [8, 1, 2, 3, 4, 5, 6, 7] ∧
    edge_set_count (run_ops LP64 (BUCKET_UNUSED LP64) .null filling_calls) = 2 ∧
    (∃ t, run_ops LP64 (BUCKET_UNUSED LP64) .null filling_calls = .table t ∧ t.ceil = 8) ∧
    (edge_set_add LP64 true (run_ops LP64 (BUCKET_UNUSED LP64) .null filling_calls) 9 7).1
      = 0 := by
  refine ⟨by decide, by decide, ⟨_, rfl, by decide⟩, by decide⟩

/-- C4 (failing input): after `add(97,1); add(98,2); remove(97); remove(97)` the set is
a table with `edge_set_count` 0, while a fresh iteration still yields the record
`(98, 2)`. -/
theorem edge_set_count_below_records :
    edge_set_count (run_ops LP64 (BUCKET_UNUSED LP64) .null removed_twice) = 0 ∧
    edge_set_iterate LP64 (run_ops LP64 (BUCKET_UNUSED LP64) .null removed_twice)
      = [{ state := 2, symbol := 98 }] := by
  decide

/-! ## The empty capture range -/

/-- C11: for every automaton and every capture descriptor with `start >= end`,
`fsm_capture_duplicate` returns 0 and leaves the automaton and the outputs `*x` and
`*q` as they were, whether or not allocation would succeed. -/
theorem fsm_capture_duplicate_empty_range (P : Platform) (alloc : Bool) (f : fsm)
    (capture : fsm_capture) (x : Option Nat) (q : Nat) (h : capture.start ≥ capture.end_) :
    fsm_capture_duplicate P alloc f capture x q = { ret := 0, fsm := f, x := x, q := q } := by
  unfold fsm_capture_duplicate
  simp only [if_pos h]

/-- An instance of the previous theorem: the inverted range `[2, 1)` on the sample
automaton. -/
theorem fsm_capture_duplicate_empty_range_witness :
    ({ start := 2, end_ := 1 } : fsm_capture).start
        ≥ ({ start := 2, end_ := 1 } : fsm_capture).end_ ∧
    fsm_capture_duplicate LP64 true sample_fsm { start := 2, end_ := 1 } (some 2) 9
      = { ret := 0, fsm := sample_fsm, x := some 2, q := 9 } :=
  ⟨by decide,
   fsm_capture_duplicate_empty_range LP64 true sample_fsm { start := 2, end_ := 1 } (some 2) 9
     (by decide)⟩

/-! ## Inserts into tables with tombstones -/

theorem fresh_table_consistent {P : Platform} {t : edge_set} (hf : fresh_table P t) :
    consistent_table P t :=
  { len := hf.len, pow := hf.pow, big := hf.big, cnt := hf.cnt, half := hf.half }

/-- The function `grow_buckets` rehashes the records of a consistent table into a fresh
table of twice the capacity; the tombstones are left behind. -/
theorem grow_buckets_consistent (P : Platform) (hP : 0 < P.state_bits) (t : edge_set)
    (hc : consistent_table P t) :
    ∃ t', grow_buckets P true t = some t' ∧ fresh_table P t' ∧
      (live_records P t'.b).Perm (live_records P t.b) ∧
      t'.ceil = 2 * t.ceil ∧ t'.count = t.count := by
  obtain ⟨k, hk⟩ := hc.pow
  have hbig := hc.big
  have hhalf := hc.half
  unfold SET_INITIAL at hbig
  have hpow2 : 2 * t.ceil = 2 ^ (k + 1) := by rw [Nat.pow_succ, hk]; omega
  have hfold : (List.range t.ceil).foldl (grow_step P t.b (2 * t.ceil))
      (List.replicate (2 * t.ceil) (unused_bucket P))
      = t.b.foldl (grow_body P (2 * t.ceil)) (List.replicate (2 * t.ceil) (unused_bucket P)) := by
    rw [grow_step_eq, ← hc.len]
    exact foldl_range_bucket (grow_body P (2 * t.b.length)) t.b _
  have hunused : ∀ e ∈ List.replicate (2 * t.ceil) (unused_bucket P),
      e.state ≠ BUCKET_TOMBSTONE P := by
    intro e he
    rw [List.eq_of_mem_replicate he]
    exact unused_ne_tombstone P hP
  have hchain0 : probe_chain P (List.replicate (2 * t.ceil) (unused_bucket P)) (2 * t.ceil) := by
    intro j hj hl
    have hj' : j < (List.replicate (2 * t.ceil) (unused_bucket P)).length := by simpa using hj
    have hmem := bucket_mem _ hj'
    rw [List.eq_of_mem_replicate hmem] at hl
    simp [is_live, unused_bucket] at hl
  obtain ⟨r1, r2, r3, r4⟩ := grow_fold_spec P (2 * t.ceil) (k + 1) hpow2 t.b
    (List.replicate (2 * t.ceil) (unused_bucket P)) [] (by simp) hunused hchain0
    (by rw [live_records_replicate_unused])
    (by simp only [List.length_nil, Nat.zero_add]; rw [hc.len]; omega)
  simp only [List.append_nil] at r4
  refine ⟨{ b := (List.range t.ceil).foldl (grow_step P t.b (2 * t.ceil))
                 (List.replicate (2 * t.ceil) (unused_bucket P)),
            count := t.count, ceil := 2 * t.ceil },
    by simp only [grow_buckets, if_true], ?_, ?_, rfl, rfl⟩
  · refine { len := ?_, pow := ⟨k + 1, hpow2⟩, cnt := ?_, chain := ?_,
             no_tombstone := ?_, half := ?_, big := ?_ }
    · show List.length (List.foldl _ _ _) = _
      rw [hfold]; exact r1
    · show _ = List.length (live_records P (List.foldl _ _ _))
      rw [hfold, r4.length_eq]; exact hc.cnt
    · show probe_chain P (List.foldl _ _ _) _
      rw [hfold]; exact r3
    · show ∀ e ∈ List.foldl _ _ _, _
      rw [hfold]; exact r2
    · show 2 * t.count ≤ 2 * t.ceil
      omega
    · show SET_INITIAL ≤ 2 * t.ceil
      unfold SET_INITIAL; omega
  · show List.Perm (live_records P (List.foldl _ _ _)) _
    rw [hfold]; exact r4

/-- Insertion into a consistent table with room left: the record goes into the first
bucket of its probe sequence that is unused or a tombstone. -/
theorem add_probe_consistent (P : Platform) (t : edge_set) (hc : consistent_table P t)
    (hroom : 2 * t.count < t.ceil) (symbol state : Nat) (hv : valid_state P state) :
    ∃ t', add_probe P t (t.ceil - 1) (hash symbol) symbol state t.ceil 0 = some t' ∧
      consistent_table P t' ∧
      (live_records P t'.b).Perm ({ state := state, symbol := symbol } :: live_records P t.b) ∧
      t'.ceil = t.ceil ∧ t'.count = t.count + 1 := by
  obtain ⟨k, hk⟩ := hc.pow
  have hlive := is_live_of_valid P (s := symbol) hv
  have hcount : (live_records P t.b).length < t.b.length := by
    rw [← hc.cnt, hc.len]; omega
  obtain ⟨j, hj, hdead⟩ := exists_dead_of_count_lt P t.b hcount
  obtain ⟨i, hi, hij⟩ := probe_surjective (hash symbol) k (j := j) (by rw [← hk, ← hc.len]; exact hj)
  rw [← hk] at hi hij
  obtain ⟨k1, hk1, hf1, hb1, heq⟩ := add_probe_spec P t (t.ceil - 1) (hash symbol) symbol state
    t.ceil 0 ⟨i, hi, by rw [Nat.zero_add, hij]; exact hdead⟩
  simp only [Nat.zero_add] at hf1 hb1 heq
  have hp : probe (hash symbol) (t.ceil - 1) k1 < t.ceil := probe_lt _ _ t.ceil (by omega)
  have hperm := live_records_set_of_dead P t.b { state := state, symbol := symbol }
    (by rw [hc.len]; exact hp) hf1 hlive
  refine ⟨_, heq, ?_, hperm, rfl, rfl⟩
  refine { len := ?_, pow := hc.pow, big := hc.big, cnt := ?_, half := ?_ }
  · simpa using hc.len
  · show t.count + 1 = _
    rw [hperm.length_eq, List.length_cons, hc.cnt]
  · show 2 * (t.count + 1) ≤ t.ceil
    obtain ⟨m, hm⟩ := even_of_pow_big hc.pow hc.big
    omega

/-- Adding a valid record to a consistent table succeeds and keeps it consistent. -/
theorem edge_set_add_table_consistent (P : Platform) (hP : 0 < P.state_bits) (t : edge_set)
    (hc : consistent_table P t) (symbol state : Nat) (hv : valid_state P state) :
    ∃ t', edge_set_add_table P true t symbol state = (1, t') ∧ consistent_table P t' ∧
      (live_records P t'.b).Perm ({ state := state, symbol := symbol } :: live_records P t.b) ∧
      t'.count = t.count + 1 := by
  obtain ⟨m, hm⟩ := even_of_pow_big hc.pow hc.big
  have hbig := hc.big
  have hhalf := hc.half
  unfold SET_INITIAL at hbig
  by_cases hfull : t.count = t.ceil / 2
  · obtain ⟨t1, hg, hf1, hperm1, hceil1, hcount1⟩ := grow_buckets_consistent P hP t hc
    obtain ⟨t2, ha, hc2, hperm2, hceil2, hcount2⟩ := add_probe_consistent P t1 (fresh_table_consistent hf1)
      (by rw [hceil1, hcount1]; omega) symbol state hv
    refine ⟨t2, ?_, hc2, hperm2.trans (List.Perm.cons _ hperm1), by omega⟩
    simp only [edge_set_add_table, hfull, if_true, hg, ha]
  · obtain ⟨t2, ha, hc2, hperm2, hceil2, hcount2⟩ := add_probe_consistent P t hc
      (by omega) symbol state hv
    refine ⟨t2, ?_, hc2, hperm2, hcount2⟩
    simp only [edge_set_add_table, hfull, if_false, ha]

/-- One insert of a valid record into a consistent set, in any representation.  Only an
insert into the Empty set boxes the record, and only then must the destination fit the
payload. -/
theorem edge_set_add_consistent (P : Platform)
    (set : edge_set_ptr) (hc : consistent P set) (e : fsm_edge) (he : valid_edge P e)
    (hbox : set = .null →
      CHAR_BIT + 1 ≤ P.uintptr_bits ∧ e.state ≤ SINGLETON_MAX_STATE P) :
    (edge_set_add P true set e.symbol e.state).1 = 1 ∧
    consistent P (edge_set_add P true set e.symbol e.state).2 ∧
    (edge_set_iterate P (edge_set_add P true set e.symbol e.state).2).Perm
      (e :: edge_set_iterate P set) ∧
    edge_set_count (edge_set_add P true set e.symbol e.state).2 = edge_set_count set + 1 := by
  have hsb : 0 < P.state_bits := by
    have := state_bits_of_valid P he.2
    omega
  cases set with
  | null =>
    obtain ⟨hU, hmax⟩ := hbox rfl
    simp only [edge_set_add, consistent, edge_set_iterate_singleton, edge_set_iterate_null,
      edge_set_count, true_and]
    rw [singleton_decode_state_encode P hU he.1 (valid_state_lt P he.2) hmax,
      singleton_decode_symbol_encode P hU he.1 hmax]
    exact ⟨he.2, List.Perm.refl _, trivial⟩
  | singleton ptr =>
    simp only [consistent] at hc
    obtain ⟨t1, h1, hc1, hp1, hn1⟩ := edge_set_add_table_consistent P hsb _
      (fresh_table_consistent (fresh_table_create P hsb)) (SINGLETON_DECODE_SYMBOL ptr) _ hc
    obtain ⟨t2, h2, hc2, hp2, hn2⟩ := edge_set_add_table_consistent P hsb t1 hc1
      e.symbol _ he.2
    simp only [edge_set_add, edge_set_create, if_true, h1, h2, consistent, edge_set_count]
    norm_num
    refine ⟨hc2, ?_, by simp only at hn1; omega⟩
    rw [edge_set_iterate_table P t2 hc2.len, edge_set_iterate_singleton]
    refine hp2.trans (List.Perm.cons _ ?_)
    simpa [live_records_replicate_unused] using hp1
  | table t =>
    simp only [consistent] at hc
    obtain ⟨t1, h1, hc1, hp1, hn1⟩ := edge_set_add_table_consistent P hsb t hc
      e.symbol _ he.2
    simp only [edge_set_add, h1, consistent, edge_set_count, true_and]
    rw [edge_set_iterate_table P t1 hc1.len, edge_set_iterate_table P t hc.len]
    exact ⟨hc1, hp1, hn1⟩

/-- Inserting valid records one after the other into a consistent set never fails. -/
theorem add_until_fail_consistent (P : Platform) (hU : CHAR_BIT + 1 ≤ P.uintptr_bits) :
    ∀ (es : List fsm_edge) (dst : edge_set_ptr),
      consistent P dst → (∀ x ∈ es, valid_edge P x) →
      (∀ x ∈ es, x.state ≤ SINGLETON_MAX_STATE P) →
      (add_until_fail P true dst es).1 = 1 ∧
      consistent P (add_until_fail P true dst es).2 ∧
      (edge_set_iterate P (add_until_fail P true dst es).2).Perm
        (edge_set_iterate P dst ++ es) ∧
      edge_set_count (add_until_fail P true dst es).2 = edge_set_count dst + es.length := by
  intro es
  induction es with
  | nil => intro dst hc _ _; exact ⟨rfl, hc, by simp [add_until_fail], rfl⟩
  | cons e es ih =>
    intro dst hc hes hfit
    obtain ⟨h1, h2, h3, h4⟩ := edge_set_add_consistent P dst hc e (hes e (by simp))
      (fun _ => ⟨hU, hfit e (by simp)⟩)
    obtain ⟨i1, i2, i3, i4⟩ := ih _ h2 (fun x hx => hes x (by simp [hx]))
      (fun x hx => hfit x (by simp [hx]))
    have hne : ¬ ((edge_set_add P true dst e.symbol e.state).1 = 0) := by rw [h1]; decide
    simp only [add_until_fail, hne, if_false]
    refine ⟨i1, i2, ?_, ?_⟩
    · refine i3.trans ?_
      refine (List.Perm.append_right es h3).trans ?_
      exact List.perm_middle.symm
    · rw [i4, h4, List.length_cons]
      omega

/-! ## Copying -/

/-- The loop of `edge_set_copy` inserts the records the cursor visits, in that order,
and ends within the iterations allowed once the cursor ends within them. -/
theorem copy_loop_eq (P : Platform) (alloc : Bool) :
    ∀ fuel jt dst, (iterate_from P fuel jt).length < fuel →
      copy_loop P alloc fuel jt dst
        = some (add_until_fail P alloc dst (iterate_from P fuel jt)) := by
  intro fuel
  induction fuel with
  | zero => intro jt dst h; simp at h
  | succ n ih =>
    intro jt dst h
    rw [copy_loop]
    rw [iterate_from] at h ⊢
    rcases hnext : edge_set_next P jt with ⟨jt1, _ | e⟩
    · simp only [add_until_fail]
    · rw [hnext] at h
      simp only [List.length_cons, Nat.add_lt_add_iff_right] at h
      simp only [add_until_fail]
      split_ifs
      · rfl
      · exact ih jt1 _ h

theorem edge_set_iterate_length_lt (P : Platform) (set : edge_set_ptr) :
    (edge_set_iterate P set).length < iterate_bound set := by
  cases set with
  | null => rw [edge_set_iterate_null]; simp [iterate_bound]
  | singleton ptr => rw [edge_set_iterate_singleton]; simp [iterate_bound]
  | table t =>
    rw [edge_set_iterate_slots]
    have h1 : (live_records P (slots_from t 0 t.ceil)).length ≤ (slots_from t 0 t.ceil).length :=
      List.length_filter_le _ _
    have h2 : (slots_from t 0 t.ceil).length = t.ceil := by simp [slots_from]
    simp only [iterate_bound]
    omega

/-- On a source built by inserts `edge_set_copy` inserts the records of the source, in
the order a cursor visits them. -/
theorem edge_set_copy_eq (P : Platform) (alloc : Bool) (dst src : edge_set_ptr)
    (L : List fsm_edge) (hr : represents P src L) :
    edge_set_copy P alloc dst src
      = some (add_until_fail P alloc dst (edge_set_iterate P src)) := by
  cases src with
  | null => simp [edge_set_copy, edge_set_empty, edge_set_iterate_null, add_until_fail]
  | singleton ptr =>
    simp only [edge_set_copy, edge_set_empty, Bool.false_eq_true, if_false,
      edge_set_iterate_singleton, add_until_fail]
    split_ifs <;> rfl
  | table t =>
    simp only [represents] at hr
    obtain ⟨_, _, h2, _⟩ := hr
    have hne : edge_set_empty (.table t) = false := by
      simp only [edge_set_empty, decide_eq_false_iff_not]
      omega
    simp only [edge_set_copy, hne, Bool.false_eq_true, if_false]
    exact copy_loop_eq P alloc _ _ dst (edge_set_iterate_length_lt P (.table t))

/-- Copying into a consistent destination: for a source built from Empty by inserts of
valid records whose destinations are at most `SINGLETON_MAX_STATE` and a destination in
any of the three representations whose contents are consistent (tombstones allowed),
allocation succeeding: `edge_set_copy` returns 1; the records of the destination
afterwards are its records before together with the records of the source, as
multisets, and its count is the sum of the two counts; copying into the Empty set gives
the records and the count of the source, and copying from the Empty set leaves the
destination as it was. -/
theorem edge_set_copy_consistent (P : Platform) (hU : CHAR_BIT + 1 ≤ P.uintptr_bits)
    (es : List fsm_edge) (hvalid : ∀ e ∈ es, valid_edge P e)
    (hfit : ∀ e ∈ es, e.state ≤ SINGLETON_MAX_STATE P)
    (dst : edge_set_ptr) (hdst : consistent P dst) :
    ∃ dst', edge_set_copy P true dst (add_all P true .null es).2 = some (1, dst') ∧
      consistent P dst' ∧
      (edge_set_iterate P dst').Perm
        (edge_set_iterate P dst ++ edge_set_iterate P (add_all P true .null es).2) ∧
      edge_set_count dst' = edge_set_count dst + edge_set_count (add_all P true .null es).2 ∧
      (dst = .null →
        (edge_set_iterate P dst').Perm (edge_set_iterate P (add_all P true .null es).2) ∧
        edge_set_count dst' = edge_set_count (add_all P true .null es).2) ∧
      (es = [] → dst' = dst) := by
  obtain ⟨_, hr⟩ := represents_add_all_null P hU es hvalid
    (fun x hx => hfit x (List.mem_of_mem_head? hx))
  have hperm := represents_iterate P _ _ hr
  have hv : ∀ x ∈ edge_set_iterate P (add_all P true .null es).2, valid_edge P x :=
    fun x hx => hvalid x (List.mem_reverse.mp (hperm.mem_iff.mp hx))
  have hv2 : ∀ x ∈ edge_set_iterate P (add_all P true .null es).2,
      x.state ≤ SINGLETON_MAX_STATE P :=
    fun x hx => hfit x (List.mem_reverse.mp (hperm.mem_iff.mp hx))
  obtain ⟨h1, h2, h3, h4⟩ := add_until_fail_consistent P hU _ dst hdst hv hv2
  have hcount : (edge_set_iterate P (add_all P true .null es).2).length
      = edge_set_count (add_all P true .null es).2 := by
    rw [represents_count P _ _ hr, hperm.length_eq]
  refine ⟨(add_until_fail P true dst (edge_set_iterate P (add_all P true .null es).2)).2,
    ?_, h2, h3, by rw [h4, hcount], ?_, ?_⟩
  · rw [edge_set_copy_eq P true dst _ _ hr, ← h1]
  · rintro rfl
    rw [edge_set_iterate_null] at h3
    have h0 : edge_set_count .null = 0 := rfl
    rw [h0, Nat.zero_add] at h4
    exact ⟨by simpa using h3, by rw [h4, hcount]⟩
  · rintro rfl
    simp [add_all, edge_set_iterate_null, add_until_fail]

theorem consistent_tombstoned_set : consistent LP64 tombstoned_set :=
  show consistent_table LP64 _ from
    { len := by decide, pow := ⟨3, by decide⟩, big := by decide, cnt := by decide,
      half := by decide }

/-- An instance of the previous theorem: the five sample records are copied into a
table that holds one record and one tombstone. -/
theorem edge_set_copy_consistent_instance :
    CHAR_BIT + 1 ≤ LP64.uintptr_bits ∧
    (∀ e ∈ sample_records, valid_edge LP64 e) ∧
    (∀ e ∈ sample_records, e.state ≤ SINGLETON_MAX_STATE LP64) ∧
    consistent LP64 tombstoned_set ∧
    ∃ dst', edge_set_copy LP64 true tombstoned_set (add_all LP64 true .null sample_records).2
        = some (1, dst') ∧
      consistent LP64 dst' ∧
      (edge_set_iterate LP64 dst').Perm
        (edge_set_iterate LP64 tombstoned_set
          ++ edge_set_iterate LP64 (add_all LP64 true .null sample_records).2) ∧
      edge_set_count dst' = edge_set_count tombstoned_set
        + edge_set_count (add_all LP64 true .null sample_records).2 ∧
      (tombstoned_set = .null →
        (edge_set_iterate LP64 dst').Perm
          (edge_set_iterate LP64 (add_all LP64 true .null sample_records).2) ∧
        edge_set_count dst' = edge_set_count (add_all LP64 true .null sample_records).2) ∧
      (sample_records = [] → dst' = tombstoned_set) :=
  ⟨by decide, by decide, by decide, consistent_tombstoned_set,
   edge_set_copy_consistent LP64 (by decide) sample_records (by decide) (by decide)
     tombstoned_set consistent_tombstoned_set⟩

/-- The copy of the previous instance, evaluated: `edge_set_copy` returns 1 and the
destination holds six records afterwards, in a table grown to 16 buckets. -/
theorem edge_set_copy_sample :
    (edge_set_copy LP64 true tombstoned_set (add_all LP64 true .null sample_records).2).map
      (fun r => (r.1, edge_set_count r.2, capacity r.2)) = some (1, 6, 16) := by
  decide

/-- C12 (failing input): the destination is the table that `filling_calls` leaves, all
eight buckets holding records while `count` is 2; the source is the singleton built by
`add(97,3)`, or the table built by `add(97,1); add(98,2)`.  `edge_set_copy` returns 0
although allocation succeeds, because the `edge_set_add` it calls finds no free bucket. -/
theorem edge_set_copy_fails_on_full_table :
    edge_set_iterate LP64 set_a = [{ state := 3, symbol := 97 }] ∧
    (edge_set_iterate LP64 (run_ops LP64 (BUCKET_UNUSED LP64) .null filling_calls)).length
      = 8 ∧
    capacity (run_ops LP64 (BUCKET_UNUSED LP64) .null filling_calls) = 8 ∧
    edge_set_count (run_ops LP64 (BUCKET_UNUSED LP64) .null filling_calls) = 2 ∧
    (edge_set_copy LP64 true
      (run_ops LP64 (BUCKET_UNUSED LP64) .null filling_calls) set_a).map Prod.fst = some 0 ∧
    (edge_set_copy LP64 true
      (run_ops LP64 (BUCKET_UNUSED LP64) .null filling_calls) set_a_b).map Prod.fst
      = some 0 := by
  decide

/-! ## Cursors, call by call -/

theorem records_in_bucket_order_table (P : Platform) (t : edge_set) :
    records_in_bucket_order P (.table t) = live_records P (slots_from t 0 t.ceil) := by
  simp only [records_in_bucket_order, live_records, slots_from, ← List.range_eq_range',
    List.filter_map]
  rfl

theorem take_map_some_append {α : Type} (x : α) (l : List α) (m : Nat) :
    ((((x :: l).map some) ++ List.replicate (m + 1) none).take (m + 1))
      = some x :: ((l.map some ++ List.replicate m none).take m) := by
  simp only [List.map_cons, List.cons_append, List.take_succ_cons, List.cons.injEq, true_and]
  rw [List.replicate_succ', ← List.append_assoc, List.take_append_of_le_length]
  simp

/-- Successive calls on a cursor at bucket `i` of a table return the records of the
buckets from `i` on, in bucket order, and 0 from then on. -/
theorem next_results_table_from (P : Platform) (t : edge_set) :
    ∀ n i, i + n = t.ceil → ∀ m,
      next_results P m { i := i, set := .table t }
        = (((live_records P (slots_from t i n)).map some) ++ List.replicate m none).take m ∧
      (cursor_after P m { i := i, set := .table t }).set = .table t := by
  intro n
  induction n with
  | zero =>
    intro i hi m
    have h0 : t.ceil - i = 0 := by omega
    have hnext : ∀ j, t.ceil ≤ j → edge_set_next P { i := j, set := .table t }
        = ({ i := j, set := .table t }, none) := by
      intro j hj
      have : t.ceil - j = 0 := by omega
      simp [edge_set_next, this, next_scan]
    induction m with
    | zero => exact ⟨rfl, rfl⟩
    | succ m ihm =>
      simp only [next_results, cursor_after, hnext i (by omega)]
      refine ⟨?_, ihm.2⟩
      rw [ihm.1]
      simp [slots_from, live_records, List.replicate_succ]
  | succ n ih =>
    intro i hi m
    have hfuel1 : t.ceil - i = n + 1 := by omega
    have hfuel2 : t.ceil - (i + 1) = n := by omega
    rw [slots_from_succ]
    cases m with
    | zero => exact ⟨rfl, rfl⟩
    | succ m =>
      by_cases hl : is_live P (bucket t.b i) = true
      · have hl' := (is_live_iff P _).mp hl
        have hlr : live_records P (bucket t.b i :: slots_from t (i + 1) n)
            = bucket t.b i :: live_records P (slots_from t (i + 1) n) := by
          simp [live_records, List.filter_cons, hl]
        have hnext : edge_set_next P { i := i, set := .table t }
            = ({ i := i + 1, set := .table t }, some (bucket t.b i)) := by
          simp only [edge_set_next, hfuel1, next_scan]
          rw [if_pos (by omega), if_neg (by tauto)]
        simp only [next_results, cursor_after, hnext]
        rw [hlr, take_map_some_append, (ih (i + 1) (by omega) m).1]
        exact ⟨rfl, (ih (i + 1) (by omega) m).2⟩
      · have hl2 : is_live P (bucket t.b i) = false := by simpa using hl
        have hl' := (is_live_false_iff P _).mp hl2
        have hlr : live_records P (bucket t.b i :: slots_from t (i + 1) n)
            = live_records P (slots_from t (i + 1) n) := by
          simp [live_records, List.filter_cons, hl2]
        have hnext : edge_set_next P { i := i, set := .table t }
            = edge_set_next P { i := i + 1, set := .table t } := by
          simp only [edge_set_next, hfuel1, hfuel2]
          rw [next_scan, if_pos (by omega), if_pos hl']
        have h := ih (i + 1) (by omega) (m + 1)
        simp only [next_results, cursor_after] at h ⊢
        rw [hnext, hlr]
        exact h

theorem next_results_null (P : Platform) (i : Nat) :
    ∀ m, next_results P m { i := i, set := .null } = List.replicate m none ∧
      (cursor_after P m { i := i, set := .null }).set = .null := by
  intro m
  induction m with
  | zero => exact ⟨rfl, rfl⟩
  | succ m ih =>
    simp only [next_results, cursor_after, edge_set_next, List.replicate_succ]
    exact ⟨by rw [ih.1], ih.2⟩

theorem next_results_singleton_done (P : Platform) (ptr i : Nat) (hi : 1 ≤ i) :
    ∀ m, next_results P m { i := i, set := .singleton ptr } = List.replicate m none ∧
      (cursor_after P m { i := i, set := .singleton ptr }).set = .singleton ptr := by
  intro m
  induction m with
  | zero => exact ⟨rfl, rfl⟩
  | succ m ih =>
    have hnext : edge_set_next P { i := i, set := .singleton ptr }
        = ({ i := i, set := .singleton ptr }, none) := by
      simp only [edge_set_next, ge_iff_le, if_pos hi]
    simp only [next_results, cursor_after, hnext, List.replicate_succ]
    exact ⟨by rw [ih.1], ih.2⟩

theorem next_results_reset (P : Platform) (set : edge_set_ptr) (n : Nat) :
    next_results P n (edge_set_reset set)
      = (((records_in_bucket_order P set).map some) ++ List.replicate n none).take n ∧
    (cursor_after P n (edge_set_reset set)).set = set := by
  cases set with
  | null =>
    have h := next_results_null P 0 n
    simp only [edge_set_reset, records_in_bucket_order, List.map_nil, List.nil_append]
    exact ⟨by rw [h.1]; simp, h.2⟩
  | singleton ptr =>
    cases n with
    | zero => exact ⟨rfl, rfl⟩
    | succ m =>
      have h := next_results_singleton_done P ptr 1 (le_refl 1) m
      have hnext : edge_set_next P { i := 0, set := .singleton ptr }
          = ({ i := 1, set := .singleton ptr },
             some { state := SINGLETON_DECODE_STATE P ptr,
                    symbol := SINGLETON_DECODE_SYMBOL ptr }) := by
        simp [edge_set_next]
      simp only [edge_set_reset, records_in_bucket_order, next_results, cursor_after, hnext]
      rw [take_map_some_append, h.1]
      exact ⟨by simp, h.2⟩
  | table t =>
    have h := next_results_table_from P t t.ceil 0 (by omega) n
    rw [records_in_bucket_order_table]
    exact h

/-- C13: for every edge set and every number `n` of successive `edge_set_next` calls on
a cursor initialised by `edge_set_reset`, the calls return the records of the set once
each (for a table the buckets that are neither unused nor tombstones, by increasing
index; for a singleton its decoded record; for `NULL` nothing) and then 0 on every
further call; the cursor keeps pointing to the set, so that a cursor reset on it
afterwards returns the same sequence, and the loop over a fresh cursor visits exactly
these records. -/
theorem edge_set_next_enumerates (P : Platform) (set : edge_set_ptr) (n : Nat) :
    next_results P n (edge_set_reset set)
      = (((records_in_bucket_order P set).map some) ++ List.replicate n none).take n ∧
    (∀ m, next_results P m
        (edge_set_reset (cursor_after P n (edge_set_reset set)).set)
      = next_results P m (edge_set_reset set)) ∧
    edge_set_iterate P set = records_in_bucket_order P set := by
  refine ⟨(next_results_reset P set n).1, ?_, ?_⟩
  · intro m
    rw [(next_results_reset P set n).2]
  · cases set with
    | null => exact edge_set_iterate_null P
    | singleton ptr => exact edge_set_iterate_singleton P ptr
    | table t => rw [records_in_bucket_order_table, edge_set_iterate_slots]

/-! ## Removing a destination -/

theorem remove_state_scan_hit (P : Platform) (t : edge_set) (d : Nat) :
    ∀ fuel i j, i ≤ j → j < i + fuel → (bucket t.b j).state = d →
      (∀ i', i ≤ i' → i' < j → (bucket t.b i').state ≠ d) →
      remove_state_scan P t d fuel i
        = { t with b := t.b.set j { bucket t.b j with state := BUCKET_TOMBSTONE P },
                   count := size_dec P t.count } := by
  intro fuel
  induction fuel with
  | zero => intro i j h1 h2; omega
  | succ n ih =>
    intro i j h1 h2 hj hbefore
    rw [remove_state_scan]
    by_cases hi : (bucket t.b i).state = d
    · have : i = j := by
        by_contra hne
        exact hbefore i (le_refl i) (by omega) hi
      subst this
      rw [if_pos hi]
    · rw [if_neg hi]
      have hne : i ≠ j := by
        rintro rfl
        exact hi hj
      exact ih (i + 1) j (by omega) (by omega) hj
        (fun i' h1' h2' => hbefore i' (by omega) h2')

theorem remove_state_scan_miss (P : Platform) (t : edge_set) (d : Nat) :
    ∀ fuel i, (∀ i', i ≤ i' → i' < i + fuel → (bucket t.b i').state ≠ d) →
      remove_state_scan P t d fuel i = t := by
  intro fuel
  induction fuel with
  | zero => intro i _; rfl
  | succ n ih =>
    intro i h
    rw [remove_state_scan, if_neg (h i (le_refl i) (by omega))]
    exact ih (i + 1) (fun i' h1 h2 => h i' (by omega) (by omega))

theorem live_records_append (P : Platform) (l1 l2 : List fsm_edge) :
    live_records P (l1 ++ l2) = live_records P l1 ++ live_records P l2 := by
  simp [live_records]

/-- Turning the first bucket with destination `d` into a tombstone erases the first
record with destination `d` from the records in bucket order. -/
theorem live_records_erase_first (P : Platform) (b : List fsm_edge) (d : Nat) {j : Nat}
    (hj : j < b.length) (hd : (bucket b j).state = d)
    (hlive : is_live P (bucket b j) = true)
    (hbefore : ∀ i', i' < j → (bucket b i').state ≠ d) :
    live_records P (b.set j { bucket b j with state := BUCKET_TOMBSTONE P })
      = (live_records P b).eraseP (fun e => decide (e.state = d)) := by
  have hb := list_split_at b hj
  have hs := set_split_at b { bucket b j with state := BUCKET_TOMBSTONE P } hj
  have hdead : is_live P { bucket b j with state := BUCKET_TOMBSTONE P } = false := by
    simp [is_live]
  have hpre : ∀ x ∈ live_records P (b.take j), ¬ (decide (x.state = d) = true) := by
    intro x hx
    have hx' : x ∈ b.take j := ((mem_live_records_iff P _ x).mp hx).1
    obtain ⟨n, hn, hxn⟩ := List.mem_iff_getElem.mp hx'
    have hnj : n < j := by
      have := List.length_take_le j b
      omega
    have hnb : n < b.length := by omega
    have : bucket b n = x := by
      rw [bucket_eq_getElem b hnb, ← hxn, List.getElem_take]
    have h := hbefore n hnj
    rw [this] at h
    simpa using h
  rw [hs]
  conv_rhs => rw [hb]
  rw [live_records_append, live_records_append, live_records_cons, live_records_cons, hdead,
    hlive, List.eraseP_append_right _ hpre]
  simp only [if_true, Bool.false_eq_true, if_false]
  rw [List.eraseP_cons_of_pos (by simpa using hd)]

/-- The effect of `edge_set_remove_state` on a set built by inserts. -/
theorem remove_state_represents (P : Platform) (set : edge_set_ptr) (L : List fsm_edge)
    (hr : represents P set L) (d : Nat) (hd : d ≠ BUCKET_UNUSED P) :
    edge_set_iterate P (edge_set_remove_state P set d)
      = (edge_set_iterate P set).eraseP (fun e => decide (e.state = d)) ∧
    ((∃ e ∈ L, e.state = d) →
      edge_set_count (edge_set_remove_state P set d) + 1 = edge_set_count set) ∧
    ((∀ e ∈ L, e.state ≠ d) → edge_set_remove_state P set d = set) := by
  cases set with
  | null =>
    simp only [represents] at hr
    subst hr
    simp [edge_set_remove_state, edge_set_iterate_null]
  | singleton ptr =>
    simp only [represents] at hr
    subst hr
    simp only [edge_set_remove_state]
    by_cases h : SINGLETON_DECODE_STATE P ptr = d
    · simp [h, edge_set_iterate_singleton, edge_set_iterate_null, edge_set_count]
    · simp [h, edge_set_iterate_singleton, edge_set_count]
  | table t =>
    simp only [represents] at hr
    obtain ⟨hf, hperm, h2, _⟩ := hr
    have hcount : t.count ≠ 0 := by omega
    have hne : edge_set_empty (.table t) = false := by
      simp only [edge_set_empty, decide_eq_false_iff_not]
      exact hcount
    simp only [edge_set_remove_state, hne, Bool.false_eq_true, if_false, edge_set_count]
    by_cases hex : ∃ j, j < t.ceil ∧ (bucket t.b j).state = d
    · have hj := Nat.find_spec hex
      have hmin : ∀ i', i' < Nat.find hex → (bucket t.b i').state ≠ d := by
        intro i' hi' hs
        exact Nat.find_min hex hi' ⟨by omega, hs⟩
      have hjl : Nat.find hex < t.b.length := by rw [hf.len]; exact hj.1
      have hlive : is_live P (bucket t.b (Nat.find hex)) = true := by
        rw [is_live_iff]
        constructor
        · rw [hj.2]; exact hd
        · exact hf.no_tombstone _ (bucket_mem t.b hjl)
      rw [remove_state_scan_hit P t d t.ceil 0 (Nat.find hex) (Nat.zero_le _) (by omega) hj.2
        (fun i' _ h => hmin i' h)]
      refine ⟨?_, ?_, ?_⟩
      · rw [edge_set_iterate_table P _ (by simpa using hf.len), edge_set_iterate_table P t hf.len]
        exact live_records_erase_first P t.b d hjl hj.2 hlive hmin
      · intro _
        show size_dec P t.count + 1 = t.count
        rw [size_dec_pos hcount]
        omega
      · intro hall
        exfalso
        have hm : bucket t.b (Nat.find hex) ∈ L :=
          hperm.mem_iff.mp ((mem_live_records_iff P _ _).mpr ⟨bucket_mem t.b hjl, hlive⟩)
        exact hall _ hm hj.2
    · have hnone : ∀ i', 0 ≤ i' → i' < 0 + t.ceil → (bucket t.b i').state ≠ d := by
        intro i' _ hi' hs
        exact hex ⟨i', by omega, hs⟩
      rw [remove_state_scan_miss P t d t.ceil 0 hnone]
      refine ⟨?_, ?_, fun _ => rfl⟩
      · rw [edge_set_iterate_table P t hf.len]
        symm
        apply List.eraseP_of_forall_not
        intro x hx
        obtain ⟨j, hjl, hbj⟩ := exists_index_of_mem t.b ((mem_live_records_iff P _ x).mp hx).1
        have := hnone j (Nat.zero_le _) (by rw [Nat.zero_add, ← hf.len]; exact hjl)
        rw [hbj] at this
        simpa using this
      · rintro ⟨e, he, hed⟩
        exfalso
        have hel := hperm.mem_iff.mpr he
        obtain ⟨j, hjl, hbj⟩ := exists_index_of_mem t.b ((mem_live_records_iff P _ e).mp hel).1
        have := hnone j (Nat.zero_le _) (by rw [Nat.zero_add, ← hf.len]; exact hjl)
        rw [hbj] at this
        exact this hed

theorem countP_eraseP_succ {α : Type} (p : α → Bool) (l : List α) (h : ∃ a ∈ l, p a = true) :
    (l.eraseP p).countP p + 1 = l.countP p := by
  obtain ⟨a, ha, hpa⟩ := h
  obtain ⟨a', l1, l2, _, hpa', hl, he⟩ := List.exists_of_eraseP ha hpa
  rw [he, hl]
  simp only [List.countP_append, List.countP_cons, hpa', if_true]
  omega

theorem filter_not_eraseP {α : Type} (p : α → Bool) (l : List α) :
    (l.eraseP p).filter (fun x => !p x) = l.filter (fun x => !p x) := by
  induction l with
  | nil => rfl
  | cons x l ih =>
    by_cases hx : p x = true
    · rw [List.eraseP_cons_of_pos hx]
      simp [List.filter_cons, hx]
    · rw [List.eraseP_cons_of_neg hx]
      simp [List.filter_cons, hx, ih]

/-- C14: for a set built from Empty by inserts of valid records, whatever the widths of
the build, and a state id `d` other than the unused marker (the function asserts that
`d` is neither marker), `edge_set_remove_state` removes the first record in bucket
order whose destination is `d`: when the set holds `k + 1` records with destination
`d`, `k` of them are left and `edge_set_count` has decreased by 1; the records with
another destination are as they were, in the same order; and when no record has
destination `d` the set is unchanged.  The set holds as many records as were inserted,
and they are the records inserted when the destination of the first, which is held
boxed, is at most `SINGLETON_MAX_STATE`. -/
theorem edge_set_remove_state_first (P : Platform)
    (es : List fsm_edge) (hvalid : ∀ e ∈ es, valid_edge P e)
    (d : Nat) (hd : d ≠ BUCKET_UNUSED P) :
    (edge_set_iterate P (add_all P true .null es).2).length = es.length ∧
    (CHAR_BIT + 1 ≤ P.uintptr_bits → (∀ e ∈ es.head?, e.state ≤ SINGLETON_MAX_STATE P) →
      (edge_set_iterate P (add_all P true .null es).2).Perm es) ∧
    edge_set_iterate P (edge_set_remove_state P (add_all P true .null es).2 d)
      = (edge_set_iterate P (add_all P true .null es).2).eraseP
          (fun e => decide (e.state = d)) ∧
    (∀ k, (edge_set_iterate P (add_all P true .null es).2).countP
        (fun e => decide (e.state = d)) = k + 1 →
      (edge_set_iterate P (edge_set_remove_state P (add_all P true .null es).2 d)).countP
          (fun e => decide (e.state = d)) = k ∧
      edge_set_count (edge_set_remove_state P (add_all P true .null es).2 d) + 1
        = edge_set_count (add_all P true .null es).2) ∧
    (edge_set_iterate P (edge_set_remove_state P (add_all P true .null es).2 d)).filter
        (fun e => !decide (e.state = d))
      = (edge_set_iterate P (add_all P true .null es).2).filter
          (fun e => !decide (e.state = d)) ∧
    ((∀ e ∈ edge_set_iterate P (add_all P true .null es).2, e.state ≠ d) →
      edge_set_remove_state P (add_all P true .null es).2 d = (add_all P true .null es).2) := by
  obtain ⟨_, L, _, hlen, hr⟩ := represents_add_all_some P es hvalid
  obtain ⟨h1, h2, h3⟩ := remove_state_represents P _ _ hr d hd
  have hperm := represents_iterate P _ _ hr
  refine ⟨by rw [hperm.length_eq, hlen], ?_, h1, ?_, ?_, ?_⟩
  · intro hU hfit
    obtain ⟨_, hr'⟩ := represents_add_all_null P hU es hvalid hfit
    exact (represents_iterate P _ _ hr').trans (List.reverse_perm es)
  · intro k hk
    have hpos : 0 < (edge_set_iterate P (add_all P true .null es).2).countP
        (fun e => decide (e.state = d)) := by omega
    obtain ⟨a, ha, hpa⟩ := List.countP_pos_iff.mp hpos
    have hex : ∃ a ∈ edge_set_iterate P (add_all P true .null es).2,
        (fun e : fsm_edge => decide (e.state = d)) a = true := ⟨a, ha, hpa⟩
    have hc := countP_eraseP_succ _ _ hex
    rw [← h1, hk] at hc
    exact ⟨by omega, h2 ⟨a, hperm.mem_iff.mp ha, by simpa using hpa⟩⟩
  · rw [h1]
    exact filter_not_eraseP _ _
  · intro hall
    exact h3 (fun e he => hall e (hperm.mem_iff.mpr he))

/-- An instance of the previous theorem on the 32-bit build: the records `(0,8388608)`
and `(1,5)`, the first with a destination beyond `SINGLETON_MAX_STATE`, and the
destination 5, held by one record. -/
theorem edge_set_remove_state_first_witness :
    (∀ e ∈ oversize_records, valid_edge ILP32 e) ∧
    5 ≠ BUCKET_UNUSED ILP32 ∧
    ((edge_set_iterate ILP32 (add_all ILP32 true .null oversize_records).2).length
        = oversize_records.length ∧
      (CHAR_BIT + 1 ≤ ILP32.uintptr_bits →
        (∀ e ∈ oversize_records.head?, e.state ≤ SINGLETON_MAX_STATE ILP32) →
        (edge_set_iterate ILP32 (add_all ILP32 true .null oversize_records).2).Perm
          oversize_records) ∧
      edge_set_iterate ILP32
          (edge_set_remove_state ILP32 (add_all ILP32 true .null oversize_records).2 5)
        = (edge_set_iterate ILP32 (add_all ILP32 true .null oversize_records).2).eraseP
            (fun e => decide (e.state = 5)) ∧
      (∀ k, (edge_set_iterate ILP32 (add_all ILP32 true .null oversize_records).2).countP
          (fun e => decide (e.state = 5)) = k + 1 →
        (edge_set_iterate ILP32 (edge_set_remove_state ILP32
            (add_all ILP32 true .null oversize_records).2 5)).countP
            (fun e => decide (e.state = 5)) = k ∧
        edge_set_count (edge_set_remove_state ILP32
            (add_all ILP32 true .null oversize_records).2 5) + 1
          = edge_set_count (add_all ILP32 true .null oversize_records).2) ∧
      (edge_set_iterate ILP32 (edge_set_remove_state ILP32
          (add_all ILP32 true .null oversize_records).2 5)).filter
          (fun e => !decide (e.state = 5))
        = (edge_set_iterate ILP32 (add_all ILP32 true .null oversize_records).2).filter
            (fun e => !decide (e.state = 5)) ∧
      ((∀ e ∈ edge_set_iterate ILP32 (add_all ILP32 true .null oversize_records).2,
          e.state ≠ 5) →
        edge_set_remove_state ILP32 (add_all ILP32 true .null oversize_records).2 5
          = (add_all ILP32 true .null oversize_records).2)) :=
  ⟨by decide, by decide,
   edge_set_remove_state_first ILP32 oversize_records (by decide) 5 (by decide)⟩

/-- The removal of the previous instance and one on the 64-bit build, evaluated: of the
records `(1,7)`, `(2,8)`, `(3,7)` the first with destination 7 is removed. -/
theorem edge_set_remove_state_sample :
    edge_set_iterate ILP32
        (edge_set_remove_state ILP32 (add_all ILP32 true .null oversize_records).2 5)
      = [{ state := 0, symbol := 0 }] ∧
    edge_set_iterate LP64 (add_all LP64 true .null shared_destination_records).2
      = [{ state := 7, symbol := 1 }, { state := 8, symbol := 2 },
         { state := 7, symbol := 3 }] ∧
    edge_set_iterate LP64
        (edge_set_remove_state LP64 (add_all LP64 true .null shared_destination_records).2 7)
      = [{ state := 8, symbol := 2 }, { state := 7, symbol := 3 }] := by
  decide

/-! ## Replacing a destination -/

theorem add_probe_ceil (P : Platform) (t : edge_set) (mask h symbol state : Nat) :
    ∀ fuel i t', add_probe P t mask h symbol state fuel i = some t' → t'.ceil = t.ceil := by
  intro fuel
  induction fuel with
  | zero => intro i t' h; simp [add_probe] at h
  | succ n ih =>
    intro i t' h
    rw [add_probe] at h
    split_ifs at h with hc
    · exact ih _ _ h
    · simp only [Option.some.injEq] at h
      rw [← h]

theorem edge_set_add_table_ceil (P : Platform) (t : edge_set) (symbol state : Nat) :
    (edge_set_add_table P true t symbol state).2.ceil
      = if t.count = t.ceil / 2 then 2 * t.ceil else t.ceil := by
  unfold edge_set_add_table
  by_cases hfull : t.count = t.ceil / 2
  · simp only [hfull, if_true, grow_buckets]
    split
    · next t2 h2 => exact add_probe_ceil P _ _ _ _ _ _ _ _ h2
    · rfl
  · simp only [hfull, if_false]
    split
    · next t2 h2 => exact add_probe_ceil P _ _ _ _ _ _ _ _ h2
    · rfl

/-- C18 (amended): `edge_set_add` on a table doubles `ceil` before writing exactly when
`count`, the number of records, equals `ceil / 2`; tombstones are not counted, and
otherwise `ceil` stays as it is. -/
theorem edge_set_add_grows_on_count (P : Platform) (t : edge_set) (symbol state : Nat) :
    capacity (edge_set_add P true (.table t) symbol state).2
      = if t.count = t.ceil / 2 then 2 * t.ceil else t.ceil :=
  edge_set_add_table_ceil P t symbol state

/-- C18 as stated fails: after `add(1,7); add(2,7); add(3,7); add(4,7); remove(4)` the
table of 8 buckets has 3 records and 1 tombstone, so 4 occupied buckets, half of its
capacity; the next `edge_set_add` returns 1 and leaves `ceil` at 8. -/
theorem edge_set_add_tombstone_counterexample :
    capacity (run_ops LP64 (BUCKET_UNUSED LP64) .null half_occupied_calls) = 8 ∧
    edge_set_count (run_ops LP64 (BUCKET_UNUSED LP64) .null half_occupied_calls) = 3 ∧
    occupied LP64 (buckets_of (run_ops LP64 (BUCKET_UNUSED LP64) .null half_occupied_calls))
      = 4 ∧
    (edge_set_add LP64 true
      (run_ops LP64 (BUCKET_UNUSED LP64) .null half_occupied_calls) 5 7).1 = 1 ∧
    capacity (edge_set_add LP64 true
      (run_ops LP64 (BUCKET_UNUSED LP64) .null half_occupied_calls) 5 7).2 = 8 := by
  decide

/-! ## Destinations beyond the singleton payload -/

/-- C16: on a build with 32-bit pointers and 32-bit state ids the largest state id a
boxed singleton holds is `8388607`; `edge_set_add` of symbol 0 with the valid
destination `8388608` into the Empty set returns 1 and leaves a singleton, not a table,
and `edge_set_find` then reports destination 0.  On every build an insert into the
Empty set yields a singleton, whatever the destination. -/
theorem edge_set_add_boxes_large_state :
    SINGLETON_MAX_STATE ILP32 = 8388607 ∧ valid_state ILP32 8388608 ∧
    edge_set_add ILP32 true .null 0 8388608 = (1, .singleton 1) ∧
    edge_set_find ILP32 (.singleton 1) 0 = some { state := 0, symbol := 0 } ∧
    ∀ (P : Platform) (alloc : Bool) (symbol state : Nat),
      edge_set_add P alloc .null symbol state
        = (1, .singleton (SINGLETON_ENCODE P symbol state)) :=
  ⟨by decide, by decide, by decide, by decide, fun _ _ _ _ => rfl⟩

/-! ## Emptied tables -/

theorem apply_op_table (P : Platform) (no_state : Nat) (t : edge_set) (op : edge_set_op) :
    ∃ t', apply_op P no_state (.table t) op = .table t' := by
  cases op with
  | add symbol state => exact ⟨_, rfl⟩
  | remove symbol =>
    simp only [apply_op, edge_set_remove]
    split_ifs
    · exact ⟨_, rfl⟩
    · exact ⟨_, rfl⟩
  | remove_state state =>
    simp only [apply_op, edge_set_remove_state]
    split_ifs
    · exact ⟨_, rfl⟩
    · exact ⟨_, rfl⟩
  | compact remap =>
    simp only [apply_op, edge_set_compact]
    split_ifs
    · exact ⟨_, rfl⟩
    · exact ⟨_, rfl⟩
  | rebase base =>
    simp only [apply_op, edge_set_rebase]
    split_ifs
    · exact ⟨_, rfl⟩
    · exact ⟨_, rfl⟩
  | replace_state old new =>
    simp only [apply_op, edge_set_replace_state]
    split_ifs
    · exact ⟨_, rfl⟩
    · exact ⟨_, rfl⟩

theorem run_ops_table (P : Platform) (no_state : Nat) (ops : List edge_set_op) :
    ∀ t, ∃ t', run_ops P no_state (.table t) ops = .table t' := by
  induction ops with
  | nil => intro t; exact ⟨t, rfl⟩
  | cons op ops ih =>
    intro t
    obtain ⟨t1, h1⟩ := apply_op_table P no_state t op
    obtain ⟨t2, h2⟩ := ih t1
    exact ⟨t2, by simp only [run_ops, List.foldl_cons, h1]; exact h2⟩

/-- C17 (amended): a table handle is never set back to `NULL`: whatever calls of the
public operations follow, a set in the Table representation stays a table, also when
no record is left in it, so a set with no record need not be `NULL`.  On a table
`edge_set_empty` returns 1 exactly when the `count` field is 0; on a table of `ceil`
buckets whose `count` field is the number of its records, that is exactly when a fresh
iteration yields nothing.  Only a singleton becomes `NULL` when `edge_set_remove`,
`edge_set_remove_state` or `edge_set_compact` drops its record. -/
theorem edge_set_table_stays_table (P : Platform) (no_state : Nat) :
    (∀ (t : edge_set) (ops : List edge_set_op),
      ∃ t', run_ops P no_state (.table t) ops = .table t' ∧
        (edge_set_empty (.table t') = true ↔ t'.count = 0)) ∧
    (∀ (t : edge_set), t.b.length = t.ceil → t.count = (live_records P t.b).length →
      (edge_set_empty (.table t) = true ↔ edge_set_iterate P (.table t) = [])) ∧
    (∀ (ptr : Nat) (remap : Nat → Nat),
      edge_set_remove P (.singleton ptr) (SINGLETON_DECODE_SYMBOL ptr) = .null ∧
      edge_set_remove_state P (.singleton ptr) (SINGLETON_DECODE_STATE P ptr) = .null ∧
      (remap (SINGLETON_DECODE_STATE P ptr) = no_state →
        edge_set_compact P no_state (.singleton ptr) remap = .null)) := by
  refine ⟨?_, ?_, ?_⟩
  · intro t ops
    obtain ⟨t', h⟩ := run_ops_table P no_state ops t
    exact ⟨t', h, by simp [edge_set_empty]⟩
  · intro t hlen hcnt
    rw [edge_set_iterate_table P t hlen]
    simp only [edge_set_empty, decide_eq_true_eq]
    rw [hcnt, List.length_eq_zero]
  · intro ptr remap
    refine ⟨by simp [edge_set_remove], by simp [edge_set_remove_state], ?_⟩
    intro h
    simp [edge_set_compact, h]

/-- C17 as stated fails: after `add(97,1); add(98,2); remove(97); remove(98)` the set
holds no record and `edge_set_empty` returns 1, but the handle is still the table of 8
buckets, not `NULL`; the same holds when the last record goes by
`edge_set_remove_state` or by `edge_set_compact`. -/
theorem edge_set_emptied_table_counterexample :
    edge_set_iterate LP64 (run_ops LP64 (BUCKET_UNUSED LP64) .null emptied_calls) = [] ∧
    edge_set_count (run_ops LP64 (BUCKET_UNUSED LP64) .null emptied_calls) = 0 ∧
    edge_set_empty (run_ops LP64 (BUCKET_UNUSED LP64) .null emptied_calls) = true ∧
    run_ops LP64 (BUCKET_UNUSED LP64) .null emptied_calls ≠ .null ∧
    capacity (run_ops LP64 (BUCKET_UNUSED LP64) .null emptied_calls) = 8 ∧
    run_ops LP64 (BUCKET_UNUSED LP64) .null
      [.add 97 1, .add 98 2, .remove 97, .remove_state 2] ≠ .null ∧
    edge_set_iterate LP64 (run_ops LP64 (BUCKET_UNUSED LP64) .null
      [.add 97 1, .add 98 2, .remove 97, .remove_state 2]) = [] ∧
    run_ops LP64 (BUCKET_UNUSED LP64) .null
      [.add 97 1, .add 98 2, .compact (fun _ => BUCKET_UNUSED LP64)] ≠ .null ∧
    edge_set_iterate LP64 (run_ops LP64 (BUCKET_UNUSED LP64) .null
      [.add 97 1, .add 98 2, .compact (fun _ => BUCKET_UNUSED LP64)]) = [] := by
  decide

/-! ## The counter after a repeated removal and a compaction -/

/-- C19: after `add(97,1); add(98,2); add(99,3); remove(97); remove(97)` the table of 8
buckets holds two records with `count == 1`; a compaction that drops both decrements
`count` twice, so that it wraps to `SIZE_MAX`: the set is a table with `ceil == 8` and
`count == 2^64 - 1`, and `count <= ceil / 2` does not hold. -/
theorem edge_set_count_wraps_after_compact :
    capacity (run_ops LP64 (BUCKET_UNUSED LP64) .null underflow_calls) = 8 ∧
    edge_set_count (run_ops LP64 (BUCKET_UNUSED LP64) .null underflow_calls)
      = 18446744073709551615 ∧
    ¬ (edge_set_count (run_ops LP64 (BUCKET_UNUSED LP64) .null underflow_calls)
        ≤ capacity (run_ops LP64 (BUCKET_UNUSED LP64) .null underflow_calls) / 2) := by
  decide

/-! ## Removal of a symbol held twice -/

/-- C20: after `add(97,1); add(97,2)` the table holds two records on symbol 97;
`edge_set_remove` of 97 stops at the first of them, and `edge_set_contains` still
returns 1 for 97: the closing assertion of `edge_set_remove` does not hold. -/
theorem edge_set_remove_leaves_duplicate :
    edge_set_iterate LP64 set_a_a
      = [{ state := 1, symbol := 97 }, { state := 2, symbol := 97 }] ∧
    edge_set_iterate LP64 (edge_set_remove LP64 set_a_a 97) = [{ state := 2, symbol := 97 }] ∧
    edge_set_contains LP64 (edge_set_remove LP64 set_a_a 97) 97 = true := by
  decide

/-! ## The singleton encoding up to `SINGLETON_MAX_STATE` -/

/-- C21: on a build whose `uintptr_t` has at least `CHAR_BIT + 1` bits, for every symbol
in `0..255` and every `fsm_state_t` value `state <= SINGLETON_MAX_STATE`:
`SINGLETON_DECODE_SYMBOL` and `SINGLETON_DECODE_STATE` of
`SINGLETON_ENCODE(symbol, state)` give back `symbol` and `state`; `IS_SINGLETON` of the
encoded value is 1, so the value is not `NULL` and differs from every even (aligned)
address, on which `IS_SINGLETON` is 0; and `edge_set_add` on the Empty set returns 1
with a singleton for which the two assertions after the encoding hold. -/
theorem singleton_encode_roundtrip (P : Platform) (hU : CHAR_BIT + 1 ≤ P.uintptr_bits)
    (symbol state : Nat) (hsym : symbol < 256) (hst : state < 2 ^ P.state_bits)
    (hmax : state ≤ SINGLETON_MAX_STATE P) :
    SINGLETON_DECODE_SYMBOL (SINGLETON_ENCODE P symbol state) = symbol ∧
    SINGLETON_DECODE_STATE P (SINGLETON_ENCODE P symbol state) = state ∧
    IS_SINGLETON (SINGLETON_ENCODE P symbol state) = 1 ∧
    SINGLETON_ENCODE P symbol state ≠ 0 ∧
    (∀ a, IS_SINGLETON (2 * a) = 0 ∧ SINGLETON_ENCODE P symbol state ≠ 2 * a) ∧
    (∀ alloc, ∃ ptr, edge_set_add P alloc .null symbol state = (1, .singleton ptr) ∧
      SINGLETON_DECODE_SYMBOL ptr = symbol ∧ SINGLETON_DECODE_STATE P ptr = state) := by
  have henc := singleton_encode_eq P hU hsym hmax
  have hsymd : SINGLETON_DECODE_SYMBOL (SINGLETON_ENCODE P symbol state) = symbol := by
    rw [henc]
    unfold SINGLETON_DECODE_SYMBOL
    have : (0xFF : Nat) = 2 ^ 8 - 1 := by norm_num
    rw [this, Nat.and_pow_two_sub_one_eq_mod, Nat.shiftRight_eq_div_pow]
    omega
  have hstd : SINGLETON_DECODE_STATE P (SINGLETON_ENCODE P symbol state) = state := by
    rw [henc]
    unfold SINGLETON_DECODE_STATE to_state CHAR_BIT
    rw [Nat.shiftRight_eq_div_pow]
    have : (2 ^ 9 * state + (2 * symbol + 1)) / 2 ^ (8 + 1) = state := by omega
    rw [this]
    exact Nat.mod_eq_of_lt hst
  refine ⟨hsymd, hstd, ?_, ?_, ?_, ?_⟩
  · rw [henc]
    unfold IS_SINGLETON
    rw [Nat.and_one_is_mod]
    omega
  · rw [henc]
    omega
  · intro a
    constructor
    · unfold IS_SINGLETON
      rw [Nat.and_one_is_mod]
      omega
    · rw [henc]
      omega
  · intro alloc
    exact ⟨SINGLETON_ENCODE P symbol state, rfl, hsymd, hstd⟩

/-- An instance of the previous theorem: on the 32-bit build, symbol 255 with the
largest state id a singleton holds, `8388607`. -/
theorem singleton_encode_roundtrip_witness :
    CHAR_BIT + 1 ≤ ILP32.uintptr_bits ∧ 255 < 256 ∧ 8388607 < 2 ^ ILP32.state_bits ∧
    8388607 ≤ SINGLETON_MAX_STATE ILP32 ∧
    (SINGLETON_DECODE_SYMBOL (SINGLETON_ENCODE ILP32 255 8388607) = 255 ∧
      SINGLETON_DECODE_STATE ILP32 (SINGLETON_ENCODE ILP32 255 8388607) = 8388607 ∧
      IS_SINGLETON (SINGLETON_ENCODE ILP32 255 8388607) = 1 ∧
      SINGLETON_ENCODE ILP32 255 8388607 ≠ 0 ∧
      (∀ a, IS_SINGLETON (2 * a) = 0 ∧ SINGLETON_ENCODE ILP32 255 8388607 ≠ 2 * a) ∧
      (∀ alloc, ∃ ptr,
        edge_set_add ILP32 alloc .null 255 8388607 = (1, .singleton ptr) ∧
        SINGLETON_DECODE_SYMBOL ptr = 255 ∧ SINGLETON_DECODE_STATE ILP32 ptr = 8388607)) :=
  ⟨by decide, by decide, by decide, by decide,
   singleton_encode_roundtrip ILP32 (by decide) 255 8388607 (by decide) (by decide)
     (by decide)⟩

/-- The encoding of the previous instance, evaluated: the pointer value is
`0xffffffff`. -/
theorem singleton_encode_sample :
    SINGLETON_ENCODE ILP32 255 8388607 = 4294967295 ∧
    SINGLETON_ENCODE LP64 97 3 = 1731 := by
  decide

end LibFsm
